import Mathlib

/-!
Verification of the IANA header synchronization engine (`iana-headers`).

The definitions below are a shallow embedding of the Python sources under
`src/`, chiefly `src/c/iana_header_utils.py` (block extraction, merge,
render, patch), `src/c/c_header_cbor.py` (CBOR tag pipeline and identifier
synthesizer), `src/c/c_header_http.py` (HTTP status-code pipeline) and
`src/coap/iana-coap-c-header.py` (CoAP code packing).

Text is modelled as `List Char` (Python `str`, ASCII fragment); Python
dicts that are always iterated via `sorted(...)` are modelled as
association lists kept sorted by key; regular-expression operations of the
source are implemented as deterministic character scanners matching the
specific patterns used (the patterns involved have no genuine backtracking:
every quantifier in them is forced, as each character class excludes the
character that delimits it).  Scanners use an explicit fuel argument equal
to the input length so that all definitions are structurally recursive and
evaluate by `decide`/`rfl`.
-/

namespace IanaHeaders

/-- ASCII word character, Python's `\w` on ASCII text: `[a-zA-Z0-9_]`. -/
def isWordChar (c : Char) : Bool :=
  c = '_' || ('a' ≤ c && c ≤ 'z') || ('A' ≤ c && c ≤ 'Z') || ('0' ≤ c && c ≤ '9')

/-- Python's `\s` (and `str.split()` / `str.strip()` separators) on ASCII. -/
def isSpaceChar (c : Char) : Bool :=
  c = ' ' || c = '\t' || c = '\n' || c = '\r' || c = '\x0b' || c = '\x0c'

/-- ASCII decimal digit, the Python class `\d` on ASCII text. -/
def isDigitChar (c : Char) : Bool :=
  '0' ≤ c && c ≤ '9'

/-- Uppercase one ASCII character, as Python `str.upper` does on ASCII. -/
def pyUpperChar (c : Char) : Char :=
  if 'a' ≤ c && c ≤ 'z' then Char.ofNat (c.toNat - 32) else c

/-- Lowercase one ASCII character, as Python `str.lower` does on ASCII. -/
def pyLowerChar (c : Char) : Char :=
  if 'A' ≤ c && c ≤ 'Z' then Char.ofNat (c.toNat + 32) else c

/-- Python `str.upper` on ASCII text. -/
def pyUpper (l : List Char) : List Char := l.map pyUpperChar

/-- Python `str.lower` on ASCII text. -/
def pyLower (l : List Char) : List Char := l.map pyLowerChar

/-- Python `str.strip(ch)`: remove every leading and trailing occurrence
of the character `ch`. -/
def pyStripChar (ch : Char) (l : List Char) : List Char :=
  ((l.dropWhile (· = ch)).reverse.dropWhile (· = ch)).reverse

/-- Python `str.strip()` with no argument: remove leading and trailing
whitespace. -/
def pyStripWs (l : List Char) : List Char :=
  ((l.dropWhile isSpaceChar).reverse.dropWhile isSpaceChar).reverse

/-- Decimal digit character for a value below ten. -/
def digitChar (n : Nat) : Char := Char.ofNat (48 + n)

/-- Decimal rendering of a natural number, as produced by a Python
f-string interpolation of an `int`.  The fuel argument (always at least
the number of digits) makes the recursion structural. -/
def natToCharsAux : Nat → Nat → List Char
  | 0, _ => []
  | fuel + 1, n =>
    if n < 10 then [digitChar n]
    else natToCharsAux fuel (n / 10) ++ [digitChar (n % 10)]

/-- Decimal rendering of a natural number. -/
def natToChars (n : Nat) : List Char := natToCharsAux (n + 1) n

/-- Python `int(...)` on a string of decimal digits. -/
def charsToNat (l : List Char) : Nat :=
  l.foldl (fun acc c => 10 * acc + (c.toNat - 48)) 0

/-!
## Data model

An entry of a generated enumeration block, following the dictionaries
built by the Python scripts: the keys `enum_name`, `comment` and
`depreciated_enum_name` of the per-id dict of `c_enum_list` in
`src/c/iana_header_utils.py`.  Absent dict keys are `none`.
-/

/-- One entry of `c_enum_list`: the per-id dictionary of the Python code. -/
structure EnumRow where
  enum_name : List Char
  comment : Option (List Char) := none
  depreciated_enum_name : Option (List Char) := none
  deriving Repr, DecidableEq

/-- The Python dict `c_enum_list` mapping numeric id to entry.  Every
consumer in the source iterates it through `sorted(...)`, so it is
modelled as an association list kept sorted by key. -/
abbrev EnumTable := List (Nat × EnumRow)

/-- Membership test and lookup of a Python dict. -/
def tableLookup (id : Nat) : EnumTable → Option EnumRow
  | [] => none
  | (k, r) :: t => if id = k then some r else tableLookup id t

/-- Dict assignment `c_enum_list[id] = row`, keeping the list sorted by
key (sorted iteration is all the source ever does with the dict). -/
def tableInsert (id : Nat) (row : EnumRow) : EnumTable → EnumTable
  | [] => [(id, row)]
  | (k, r) :: t =>
    if id < k then (id, row) :: (k, r) :: t
    else if id = k then (id, row) :: t
    else (k, r) :: tableInsert id row t

/-- Extraction result of the existing block: Python dict from numeric id
to the list of identifiers bound to it, again sorted by key. -/
abbrev ExtMap := List (Nat × List (List Char))

/-- Lookup in an extraction map. -/
def extLookup (id : Nat) : ExtMap → Option (List (List Char))
  | [] => none
  | (k, ns) :: t => if id = k then some ns else extLookup id t

/-- Record one `name = id` match: append the name to the list bound to
`id` (the dict-append of `extract_enum_values_from_typedef_enum` in
`src/c/iana_header_utils.py`). -/
def extInsert (id : Nat) (n : List Char) : ExtMap → ExtMap
  | [] => [(id, [n])]
  | (k, ns) :: t =>
    if id < k then (id, [n]) :: (k, ns) :: t
    else if id = k then (k, ns ++ [n]) :: t
    else (k, ns) :: extInsert id n t

/-!
## Block Merger

Shallow embedding of `override_enum_from_existing_typedef_enum` of
`src/c/iana_header_utils.py` (lines 83-118).  The Python loop iterates the
extracted ids in sorted order and, per id, the bound names in list order,
mutating `c_enum_list` in place; `mergeExistingName` is the body of the
inner loop.
-/

/-- Inner loop body of `override_enum_from_existing_typedef_enum`: how one
existing name for `id_value` updates the table. -/
def mergeExistingName (depreciated_enum_support : Bool) (t : EnumTable)
    (id : Nat) (existing_enum_name : List Char) : EnumTable :=
  match tableLookup id t with
  | some row =>
    if existing_enum_name ≠ row.enum_name then
      if depreciated_enum_support then
        tableInsert id { row with depreciated_enum_name := some existing_enum_name } t
      else
        tableInsert id { row with enum_name := existing_enum_name } t
    else t
  | none => tableInsert id { enum_name := existing_enum_name } t

/-- Table-level Block Merger: the double loop of
`override_enum_from_existing_typedef_enum`, applied to an already
extracted `existing` map (sorted by id, as `sorted(...)` produces). -/
def overrideMerge (depreciated_enum_support : Bool) (t : EnumTable)
    (existing : ExtMap) : EnumTable :=
  existing.foldl
    (fun acc p => p.2.foldl (fun a n => mergeExistingName depreciated_enum_support a p.1 n) acc)
    t

/-- How one id of the merge evolves an optional row through its list of
existing names; `overrideMerge` acts like this pointwise. -/
def mergeNamesRow (depreciated_enum_support : Bool)
    (o : Option EnumRow) (names : List (List Char)) : Option EnumRow :=
  names.foldl
    (fun acc n =>
      match acc with
      | some row =>
        if n ≠ row.enum_name then
          if depreciated_enum_support then
            some { row with depreciated_enum_name := some n }
          else
            some { row with enum_name := n }
        else some row
      | none => some { enum_name := n })
    o

/-- The last name of `names` that differs from `primary` (the value the
`depreciated_enum_name` slot holds after the merge loop), defaulting to
`dflt`. -/
def lastDifferingName (primary : List Char) (dflt : Option (List Char))
    (names : List (List Char)) : Option (List Char) :=
  names.foldl (fun acc n => if n ≠ primary then some n else acc) dflt

/-- All identifier strings of a merged table, each with the id it is bound
to: the `primary_name` and `deprecated_aliases` collection of the spec. -/
def allTableNames (t : EnumTable) : List (Nat × List Char) :=
  t.flatMap (fun p =>
    (p.1, p.2.enum_name) ::
      (match p.2.depreciated_enum_name with
       | some d => [(p.1, d)]
       | none => []))

/-- Whether some identifier string appears under two different numeric
ids of the table. -/
def hasCrossIdNameCollision (t : EnumTable) : Bool :=
  (allTableNames t).any (fun a =>
    (allTableNames t).any (fun b => a.1 ≠ b.1 && a.2 = b.2))

/-!
## Block Renderer

Shallow embedding of `generate_c_enum_content` of
`src/c/iana_header_utils.py` (lines 120-153).
-/

/-- One element of the `c_range_marker` lists of the source scripts. -/
structure RangeMarker where
  start : Nat
  stop : Nat
  description : List Char
  deriving Repr, DecidableEq

/-- Text of one rendered range marker:
newline, spacing, then a comment of the shape `/* start-stop : description */`
and a final newline (the body of `range_marker_render`). -/
def renderMarker (spacing : List Char) (m : RangeMarker) : List Char :=
  '\n' :: spacing ++ ('/' :: '*' :: ' ' :: natToChars m.start) ++
    ('-' :: natToChars m.stop) ++ (' ' :: ':' :: ' ' :: m.description) ++
    (' ' :: '*' :: '/' :: ['\n'])

/-- Text of one rendered entry of the table (`generate_c_enum_content`
body, without the range markers): optional comment line, then
`name = id`, the optional depreciated alias line, and the separator
(comma unless this id is the largest key). -/
def renderEntry (spacing : List Char) (isLast : Bool) (id : Nat) (row : EnumRow) :
    List Char :=
  (match row.comment with
   | some c => spacing ++ ('/' :: '/' :: ' ' :: c) ++ ['\n']
   | none => []) ++
  (spacing ++ row.enum_name ++ (' ' :: '=' :: ' ' :: natToChars id)) ++
  (match row.depreciated_enum_name with
   | some d =>
     (',' :: '\n' :: spacing) ++ d ++ (' ' :: '=' :: ' ' :: natToChars id) ++
       " /* depreciated but identifier kept for backwards compatibility */".toList
   | none => []) ++
  (if isLast then ['\n'] else [',', '\n'])

/-- Main loop of `generate_c_enum_content`: renders the sorted entries,
emitting before each id every still-pending marker whose start does not
exceed the id (the `while` loop of `range_marker_render`, a `takeWhile`
on the pending marker list), and returns the rendered text together with
the markers still pending. -/
def renderEntriesAux (spacing : List Char) (lastKey : Option Nat) :
    List (Nat × EnumRow) → List RangeMarker → List Char × List RangeMarker
  | [], pending => ([], pending)
  | (id, row) :: rest, pending =>
    let due := pending.takeWhile (fun m => m.start ≤ id)
    let next := renderEntriesAux spacing lastKey rest
      (pending.dropWhile (fun m => m.start ≤ id))
    ((due.map (renderMarker spacing)).flatten ++
       renderEntry spacing (some id = lastKey) id row ++ next.1,
     next.2)

/-- Largest key of the table (`sorted(c_enum_list)[-1]` in the source). -/
def tableLastKey (t : EnumTable) : Option Nat :=
  t.foldl (fun acc p => match acc with
    | none => some p.1
    | some k => some (max k p.1)) none

/-- Shallow embedding of `generate_c_enum_content`
(`src/c/iana_header_utils.py`, lines 120-153): head comment, entries in
ascending id order interleaved with due range markers, then every marker
still pending is flushed at the end.  When `c_range_marker` is `None` the
marker renderer always returns the empty string. -/
def generate_c_enum_content (c_head_comment : List Char) (c_enum_list : EnumTable)
    (c_range_marker : Option (List RangeMarker))
    (spacing_string : List Char := ' ' :: [' ']) : List Char :=
  match c_range_marker with
  | none => c_head_comment ++ (renderEntriesAux spacing_string (tableLastKey c_enum_list) c_enum_list []).1
  | some ms =>
    let r := renderEntriesAux spacing_string (tableLastKey c_enum_list) c_enum_list ms
    c_head_comment ++ r.1 ++ (r.2.map (renderMarker spacing_string)).flatten

/-- Spec-level Block Renderer, written from the words of the
specification for comparison with the code-level renderer above: before
each id it emits every not-yet-emitted marker whose start is at most the
id, in marker-list order (a `filter` over the pending markers, where the
code uses a `takeWhile`), and flushes the remaining markers at the end. -/
def renderEntriesSpecAux (spacing : List Char) (lastKey : Option Nat) :
    List (Nat × EnumRow) → List RangeMarker → List Char × List RangeMarker
  | [], pending => ([], pending)
  | (id, row) :: rest, pending =>
    let due := pending.filter (fun m => m.start ≤ id)
    let next := renderEntriesSpecAux spacing lastKey rest
      (pending.filter (fun m => ¬ m.start ≤ id))
    ((due.map (renderMarker spacing)).flatten ++
       renderEntry spacing (some id = lastKey) id row ++ next.1,
     next.2)

/-- Spec-level rendering of a whole block (see `renderEntriesSpecAux`). -/
def generateContentSpec (c_head_comment : List Char) (c_enum_list : EnumTable)
    (c_range_marker : Option (List RangeMarker))
    (spacing_string : List Char := ' ' :: [' ']) : List Char :=
  match c_range_marker with
  | none => c_head_comment ++ (renderEntriesSpecAux spacing_string (tableLastKey c_enum_list) c_enum_list []).1
  | some ms =>
    let r := renderEntriesSpecAux spacing_string (tableLastKey c_enum_list) c_enum_list ms
    c_head_comment ++ r.1 ++ (r.2.map (renderMarker spacing_string)).flatten

/-!
## Existing-Block Extractor and Document Patcher scanners

The source locates blocks with the regex
`typedef enum [^{]*\{([^}]*)\} NAME;` (with `re.DOTALL`) and extracts
bound identifiers with `re.findall((\w+)\s*=\s*(\d+))`.  In both patterns
every quantifier is forced (each character class excludes its delimiter),
so the regex engine behaves exactly like the deterministic scanners
below: at each start position the match attempt either succeeds in one
canonical way or fails, `re.search`/`re.findall`/`re.sub` try successive
start positions and continue after the end of each match.
-/

/-- If `pre` is a prefix of `l`, the remainder of `l` after it. -/
def dropLit (pre l : List Char) : Option (List Char) :=
  match pre, l with
  | [], rest => some rest
  | _ :: _, [] => none
  | p :: ps, c :: cs => if c = p then dropLit ps cs else none

/-- The literal `typedef enum ` opening the block pattern. -/
def typedefLit : List Char := "typedef enum ".toList

/-- Match attempt of `typedef enum [^\x7b]*\{([^\x7d]*)\} NAME;` at the
start of `l`: on success, the captured block interior and the text after
the match.  The typedef name is interpolated into the pattern verbatim by
the source (an f-string); every name the scripts pass (`cbor_tag_t`,
`http_status_code_t`, ...) consists of word characters, which regular
expressions treat literally, and the patching theorems below restrict the
name to word characters accordingly, so the scanner matches the name as
the literal it is in the program. -/
def parseTypedefEnum (name : List Char) (l : List Char) :
    Option (List Char × List Char) :=
  match dropLit typedefLit l with
  | none => none
  | some r1 =>
    match r1.dropWhile (· ≠ '{') with
    | '{' :: r3 =>
      match r3.dropWhile (· ≠ '}') with
      | '}' :: r5 =>
        match dropLit (' ' :: (name ++ [';'])) r5 with
        | some r6 => some (r3.takeWhile (· ≠ '}'), r6)
        | none => none
      | _ => none
    | _ => none

/-- First match of the block pattern in the document: the interior
captured by `get_content_of_typedef_enum` (`src/c/iana_header_utils.py`,
lines 76-81); `none` when the pattern does not occur. -/
def findTypedefEnum (name : List Char) : List Char → Option (List Char)
  | [] => none
  | c :: cs =>
    match parseTypedefEnum name (c :: cs) with
    | some (body, _) => some body
    | none => findTypedefEnum name cs

/-- Replacement of every match of the block pattern by the fixed text
`repl`: the behaviour of `re.sub` of `search_and_replace_c_typedef_enum`
in the case where the replacement template contains no backslash, so that
no backreference or escape processing applies and the template stands for
itself; scanning resumes after the end of each match.  Fuel is the length
of the scanned text.  `pySubTypedefEnum` below is the full substitution
model with template processing. -/
def replaceTypedefEnumAux (name repl : List Char) : Nat → List Char → List Char
  | 0, l => l
  | _ + 1, [] => []
  | fuel + 1, c :: cs =>
    match parseTypedefEnum name (c :: cs) with
    | some (_, rest) => repl ++ replaceTypedefEnumAux name repl fuel rest
    | none => c :: replaceTypedefEnumAux name repl fuel cs

/-- Replacement of every match of the block pattern by the fixed text
`repl` (backslash-free template case, see `replaceTypedefEnumAux`). -/
def replaceTypedefEnum (name repl l : List Char) : List Char :=
  replaceTypedefEnumAux name repl l.length l

/-- ASCII letter, for the `bad escape` rule of Python replacement
templates. -/
def isAsciiLetter (c : Char) : Bool :=
  ('a' ≤ c && c ≤ 'z') || ('A' ≤ c && c ≤ 'Z')

/-- ASCII octal digit. -/
def isOctalDigit (c : Char) : Bool :=
  '0' ≤ c && c ≤ '7'

/-- The character escapes Python replacement templates accept after a
backslash (`re._parser.ESCAPES`): any other ASCII letter is a
`bad escape` error. -/
def templateEscapeChar (c : Char) : Option Char :=
  if c = 'a' then some (Char.ofNat 7)
  else if c = 'b' then some (Char.ofNat 8)
  else if c = 'f' then some (Char.ofNat 12)
  else if c = 'n' then some '\n'
  else if c = 'r' then some (Char.ofNat 13)
  else if c = 't' then some '\t'
  else if c = 'v' then some (Char.ofNat 11)
  else if c = '\\' then some '\\'
  else none

/-- Python replacement-template processing (`re._parser.parse_template` /
`expand`), for a pattern with one capturing group: group 0 is the whole
match `g0`, group 1 the captured interior `g1`.  A backslash starts a
group reference (`\1`, `\g<1>`, `\g<0>`; any other group number is an
`invalid group reference` and any group name an `unknown group name`), an
octal escape (`\0` with up to two more octal digits, or three octal
digits below 0o400), a character escape (`\n`, `\t`, ...), an error for
any other ASCII letter (`bad escape`), or stands for itself before any
other character; a trailing backslash is an error.  `none` models the
raised `re.error`/`IndexError`.  Fuel is the template length. -/
def expandTemplateAux (g0 g1 : List Char) : Nat → List Char → Option (List Char)
  | _, [] => some []
  | 0, _ :: _ => none
  | fuel + 1, c :: rest =>
    if c = '\\' then
      match rest with
      | [] => none
      | e :: rest2 =>
        if e = 'g' then
          match rest2 with
          | '<' :: rest3 =>
            match rest3.dropWhile (fun x => x ≠ '>') with
            | '>' :: rest4 =>
              if (rest3.takeWhile (fun x => x ≠ '>')).isEmpty then none
              else if (rest3.takeWhile (fun x => x ≠ '>')).all isDigitChar then
                if charsToNat (rest3.takeWhile (fun x => x ≠ '>')) ≤ 1 then
                  match expandTemplateAux g0 g1 fuel rest4 with
                  | some t =>
                    some ((if charsToNat (rest3.takeWhile (fun x => x ≠ '>')) = 0
                      then g0 else g1) ++ t)
                  | none => none
                else none
              else none
            | _ => none
          | _ => none
        else if e = '0' then
          match rest2 with
          | d1 :: rest3 =>
            if isOctalDigit d1 then
              match rest3 with
              | d2 :: rest4 =>
                if isOctalDigit d2 then
                  match expandTemplateAux g0 g1 fuel rest4 with
                  | some t =>
                    some (Char.ofNat (8 * (d1.toNat - 48) + (d2.toNat - 48)) :: t)
                  | none => none
                else
                  match expandTemplateAux g0 g1 fuel rest3 with
                  | some t => some (Char.ofNat (d1.toNat - 48) :: t)
                  | none => none
              | [] => some [Char.ofNat (d1.toNat - 48)]
            else
              match expandTemplateAux g0 g1 fuel rest2 with
              | some t => some (Char.ofNat 0 :: t)
              | none => none
          | [] => some [Char.ofNat 0]
        else if isDigitChar e then
          match rest2 with
          | d2 :: rest3 =>
            if isDigitChar d2 then
              match rest3 with
              | d3 :: rest4 =>
                if isOctalDigit e && isOctalDigit d2 && isOctalDigit d3 then
                  if 256 ≤ 64 * (e.toNat - 48) + 8 * (d2.toNat - 48) + (d3.toNat - 48)
                  then none
                  else
                    match expandTemplateAux g0 g1 fuel rest4 with
                    | some t =>
                      some (Char.ofNat (64 * (e.toNat - 48) + 8 * (d2.toNat - 48) +
                        (d3.toNat - 48)) :: t)
                    | none => none
                else none
              | [] => none
            else
              if e = '1' then
                match expandTemplateAux g0 g1 fuel rest2 with
                | some t => some (g1 ++ t)
                | none => none
              else none
          | [] => if e = '1' then some g1 else none
        else
          match templateEscapeChar e with
          | some ch =>
            match expandTemplateAux g0 g1 fuel rest2 with
            | some t => some (ch :: t)
            | none => none
          | none =>
            if isAsciiLetter e then none
            else
              match expandTemplateAux g0 g1 fuel rest2 with
              | some t => some ('\\' :: e :: t)
              | none => none
    else
      match expandTemplateAux g0 g1 fuel rest with
      | some t => some (c :: t)
      | none => none

/-- Python replacement-template expansion against group 0 (`g0`, whole
match) and group 1 (`g1`, interior). -/
def expandTemplate (g0 g1 repl : List Char) : Option (List Char) :=
  expandTemplateAux g0 g1 repl.length repl

/-- `re.sub` of `search_and_replace_c_typedef_enum` with template
processing: each match of the block pattern is replaced by the template
expanded against that match (group 0 the matched text, group 1 the
interior); `none` models a raised `re.error`.  Fuel is the length of the
scanned text. -/
def subTypedefEnumAux (name repl : List Char) : Nat → List Char → Option (List Char)
  | 0, l => some l
  | _ + 1, [] => some []
  | fuel + 1, c :: cs =>
    match parseTypedefEnum name (c :: cs) with
    | some (inner, rest) =>
      match expandTemplate ((c :: cs).take ((c :: cs).length - rest.length))
          inner repl with
      | some e =>
        match subTypedefEnumAux name repl fuel rest with
        | some t => some (e ++ t)
        | none => none
      | none => none
    | none =>
      match subTypedefEnumAux name repl fuel cs with
      | some t => some (c :: t)
      | none => none

/-- The full model of the source substitution: Python parses the
replacement template before scanning (an invalid template raises even
when the pattern never matches), then replaces every match by the
expanded template. -/
def pySubTypedefEnum (name repl l : List Char) : Option (List Char) :=
  match expandTemplate [] [] repl with
  | none => none
  | some _ => subTypedefEnumAux name repl l.length l

/-- Match attempt of `(\w+)\s*=\s*(\d+)` at the start of `l`: on success
the captured name and digit groups, and the text after the match. -/
def parseNameValue (l : List Char) : Option ((List Char × List Char) × List Char) :=
  if (l.takeWhile isWordChar).isEmpty then none
  else
    match (l.dropWhile isWordChar).dropWhile isSpaceChar with
    | '=' :: r3 =>
      if ((r3.dropWhile isSpaceChar).takeWhile isDigitChar).isEmpty then none
      else
        some ((l.takeWhile isWordChar,
          (r3.dropWhile isSpaceChar).takeWhile isDigitChar),
          (r3.dropWhile isSpaceChar).dropWhile isDigitChar)
    | _ => none

/-- All non-overlapping matches of `(\w+)\s*=\s*(\d+)` in scan order: the
`re.findall` of `extract_enum_values_from_typedef_enum`.  Fuel is the
length of the scanned text. -/
def scanNameValuesAux : Nat → List Char → List (List Char × List Char)
  | 0, _ => []
  | _ + 1, [] => []
  | fuel + 1, c :: cs =>
    match parseNameValue (c :: cs) with
    | some (pair, rest) => pair :: scanNameValuesAux fuel rest
    | none => scanNameValuesAux fuel cs

/-- All matches of `(\w+)\s*=\s*(\d+)` in scan order. -/
def scanNameValues (l : List Char) : List (List Char × List Char) :=
  scanNameValuesAux l.length l

/-- Shallow embedding of `extract_enum_values_from_typedef_enum`
(`src/c/iana_header_utils.py`, lines 87-98): group the matches into a
dict from numeric value to the list of names bound to it, in match
order. -/
def extractEnumValues (existing_enum_content : List Char) : ExtMap :=
  (scanNameValues existing_enum_content).foldl
    (fun m p => extInsert (charsToNat p.2) p.1 m) []

/-- Shallow embedding of `override_enum_from_existing_typedef_enum`
(`src/c/iana_header_utils.py`, lines 83-118): extract the names bound in
the existing block and merge them into the freshly built table.  In the
source a document without the block would make `re.findall` raise on
`None`; the only caller guarantees the block exists, and the absent case
is modelled by the empty extraction. -/
def override_enum_from_existing_typedef_enum (header_file_content : List Char)
    (c_typedef_name : List Char) (c_enum_list : EnumTable)
    (depreciated_enum_support : Bool := true) : EnumTable :=
  overrideMerge depreciated_enum_support c_enum_list
    (extractEnumValues ((findTypedefEnum c_typedef_name header_file_content).getD []))

/-- Replacement text of `search_and_replace_c_typedef_enum`:
`typedef enum {enumname}{\n{content}} {typename};` where `enumname`
carries a trailing space when present. -/
def mkBlockReplacement (enumname : Option (List Char)) (typename content : List Char) :
    List Char :=
  typedefLit ++ (match enumname with | some e => e ++ [' '] | none => []) ++
    '{' :: content ++ '}' :: ' ' :: (typename ++ [';'])

/-- A block occurrence with header text `hdr` (the part matched by
`[^\x7b]*`) and interior `inner`; `mkBlockReplacement` produces
`blockOf name (enumname ++ " ") (newline :: content)`. -/
def blockOf (name hdr inner : List Char) : List Char :=
  typedefLit ++ hdr ++ '{' :: inner ++ '}' :: ' ' :: (name ++ [';'])

/-- The header text of a replaced block: the enum name with a trailing
space when present, nothing otherwise. -/
def hdrOf (enumname : Option (List Char)) : List Char :=
  match enumname with
  | some e => e ++ [' ']
  | none => []

/-- The empty block appended when the document lacks the block:
`typedef enum {\n} {c_typedef_name};\n\n`. -/
def emptyBlockText (c_typedef_name : List Char) : List Char :=
  blockOf c_typedef_name [] ['\n'] ++ ['\n', '\n']

/-- First step of `update_c_typedef_enum`: the source tests
`if not get_content_of_typedef_enum(...)`, a Python truthiness test on
the captured interior string, so a new empty block is appended both when
the pattern does not occur (`None`) and when the first block exists with
an EMPTY interior (the empty capture is falsy). -/
def ensureBlock (c_typedef_name document_content : List Char) : List Char :=
  match findTypedefEnum c_typedef_name document_content with
  | some inner =>
    if inner.isEmpty then document_content ++ emptyBlockText c_typedef_name
    else document_content
  | none => document_content ++ emptyBlockText c_typedef_name

/-- Shallow embedding of `update_c_typedef_enum`
(`src/c/iana_header_utils.py`, lines 155-177), the per-block
synchronization: append an empty block when the truthiness test fails
(block absent or empty interior), merge the fresh table with the
identifiers of the existing block, render, and substitute the rendered
content for the block through `re.sub` with replacement-template
processing (`none` models a raised `re.error`).  The renderer is called
with the default spacing, as in the source. -/
def update_c_typedef_enum (document_content : List Char) (c_typedef_name : List Char)
    (c_enum_name : Option (List Char)) (c_head_comment : List Char)
    (c_enum_list : EnumTable) (c_range_marker : Option (List RangeMarker)) :
    Option (List Char) :=
  pySubTypedefEnum c_typedef_name
    (mkBlockReplacement c_enum_name c_typedef_name
      ('\n' :: generate_c_enum_content c_head_comment
        (override_enum_from_existing_typedef_enum
          (ensureBlock c_typedef_name document_content) c_typedef_name c_enum_list)
        c_range_marker))
    (ensureBlock c_typedef_name document_content)

/-!
## CBOR tag pipeline (`src/c/c_header_cbor.py`)
-/

/-- Duplicate check of `iana_cbor_tag_c_typedef_enum_update`
(`src/c/c_header_cbor.py`, lines 481-487): whether some enum name occurs
more than once among the values of the freshly parsed table (the Python
code builds the set of names whose count exceeds one and tests its
truthiness). -/
def hasDuplicateEnumNames (t : EnumTable) : Bool :=
  let enum_names := t.map (fun p => p.2.enum_name)
  enum_names.any (fun n => 1 < enum_names.count n)

/-- The `c_range_marker` list of `iana_cbor_tag_c_typedef_enum_update`. -/
def cborTagRangeMarker : List RangeMarker :=
  [⟨0, 23, "Standards Action".toList⟩,
   ⟨24, 32767, "Specification Required".toList⟩,
   ⟨32768, 65535, "First Come First Served (16-bit)".toList⟩,
   ⟨65536, 4294967295, "First Come First Served (32-bit)".toList⟩,
   ⟨4294967296, 18446744073709551615, "First Come First Served (64-bit)".toList⟩]

/-- The head comment generated by `iana_cbor_tag_c_typedef_enum_update`
from the default source configuration. -/
def cborTagHeadComment : List Char :=
  "  /* Autogenerated IANA CBOR Tags (Source: https://www.iana.org/assignments/cbor-tags/cbor-tags.xhtml#tags) */\n".toList

/-- The two observable fatal outcomes of the CBOR tag updater:
`exit(1)` on duplicate fresh enum names, and the `TypeError` Python
raises when `iana_cbor_tag_c_typedef_enum_update` calls
`utils.update_c_typedef_enum(..., spacing_string=..., int_suffix="ULL")`
(src/c/c_header_cbor.py, line 497) while `update_c_typedef_enum`
(src/c/iana_header_utils.py, line 155) accepts neither keyword
argument. -/
inductive CborUpdateError where
  | duplicateEnumName
  | typeError
  deriving Repr, DecidableEq

/-- Shallow embedding of `iana_cbor_tag_c_typedef_enum_update`
(`src/c/c_header_cbor.py`, lines 444-507) in the default (non tiny-cbor)
configuration, with the freshly parsed table as a parameter (the CSV
download and parse that produce it are external input): the duplicate
check runs on the fresh table and `exit(1)`
(`.error .duplicateEnumName`) happens before any merging; otherwise the
call to `utils.update_c_typedef_enum` at line 497 passes the keyword
arguments `spacing_string` and `int_suffix`, which the callee does not
accept, so Python raises `TypeError` at the call (`.error .typeError`)
before the callee body runs: the updater never returns a patched
document. -/
def iana_cbor_tag_c_typedef_enum_update (header_file_content : List Char)
    (c_enum_list : EnumTable) : Except CborUpdateError (List Char) :=
  if hasDuplicateEnumNames c_enum_list then
    Except.error CborUpdateError.duplicateEnumName
  else Except.error CborUpdateError.typeError

/-!
## HTTP status-code pipeline (`src/c/c_header_http.py`)
-/

/-- Last index of the character `ch` in `l`. -/
def lastIndexOfChar (ch : Char) (l : List Char) : Option Nat :=
  match l.reverse.findIdx? (· = ch) with
  | some i => some (l.length - 1 - i)
  | none => none

/-- Match attempt of `\s+\(.*\)` at the start of `l` (with `.` not
matching a newline): whitespace, an opening parenthesis, then greedily up
to the last closing parenthesis of the line; on success the text after
the match. -/
def parseSpaceParen (l : List Char) : Option (List Char) :=
  match l with
  | [] => none
  | c :: _ =>
    if isSpaceChar c then
      match l.dropWhile isSpaceChar with
      | '(' :: r2 =>
        let line := r2.takeWhile (· ≠ '\n')
        match lastIndexOfChar ')' line with
        | some i => some (r2.drop (i + 1))
        | none => none
      | _ => none
    else none

/-- Deletion of every match of `\s+\(.*\)`, the
`re.sub(r'\s+\(.*\)', '', semantics)` used by the HTTP and CBOR
simple-value name generators.  Fuel is the length of the scanned text. -/
def subSpaceParenAux : Nat → List Char → List Char
  | 0, l => l
  | _ + 1, [] => []
  | fuel + 1, c :: cs =>
    match parseSpaceParen (c :: cs) with
    | some rest => subSpaceParenAux fuel rest
    | none => c :: subSpaceParenAux fuel cs

/-- Deletion of every match of `\s+\(.*\)`. -/
def subSpaceParen (l : List Char) : List Char := subSpaceParenAux l.length l

/-- Shallow embedding of `iana_http_status_codes_c_enum_name_generate`
(`src/c/c_header_http.py`, lines 92-102): drop parenthesised comments,
map every character outside `[a-zA-Z0-9_]` to an underscore behind the
uppercased prefix, strip outer underscores and uppercase. -/
def iana_http_status_codes_c_enum_name_generate (http_status_code : List Char)
    (semantics : List Char) (typedef_enum_name : List Char) : List Char :=
  let semantics := subSpaceParen semantics
  let c_enum_name := pyUpper typedef_enum_name ++
    '_' :: semantics.map (fun c => if isWordChar c then c else '_')
  pyUpper (pyStripChar '_' c_enum_name)

/-- One data row of the HTTP status-code registry as
`csv.DictReader` hands it to the row loop of
`iana_http_status_codes_parse_csv`. -/
structure HttpStatusRow where
  value : List Char
  description : List Char
  reference : List Char
  deriving Repr, DecidableEq

/-- Python `'; '.join(filter(None, parts))`. -/
def joinNonEmpty (sep : List Char) (parts : List (List Char)) : List Char :=
  ((parts.filter (fun p => ¬ p.isEmpty)).intersperse sep).flatten

/-- Shallow embedding of the row loop of `iana_http_status_codes_parse_csv`
(`src/c/c_header_http.py`, lines 104-123), taking the already split CSV
rows as input (the `csv.DictReader` framing is external): unassigned,
reserved, empty-value and range rows are skipped, every other row is
assigned into the dict keyed by its numeric value. -/
def iana_http_status_codes_parse_rows (rows : List HttpStatusRow)
    (typedef_enum_name : List Char) : EnumTable :=
  rows.foldl
    (fun enum_list row =>
      if row.value.isEmpty then enum_list
      else if pyLower row.description = "unassigned".toList then enum_list
      else if pyLower row.description = "reserved".toList then enum_list
      else if row.value.contains '-' then enum_list
      else
        tableInsert (charsToNat row.value)
          { enum_name :=
              iana_http_status_codes_c_enum_name_generate row.value row.description
                typedef_enum_name,
            comment := some (joinNonEmpty (';' :: [' '])
              [row.description, "Ref: ".toList ++ row.reference]) }
          enum_list)
    []

/-!
## CoAP code packing (`src/coap/iana-coap-c-header.py`, lines 270-271)
-/

/-- Shallow embedding of `iana_coap_code_class_subclass_to_integer`:
`((coap_class & 0x07) << 5) | (coap_subclass & 0x1F)`. -/
def iana_coap_code_class_subclass_to_integer (coap_class coap_subclass : Nat) : Nat :=
  ((coap_class &&& 0x07) <<< 5) ||| (coap_subclass &&& 0x1F)

/-!
## Identifier Synthesizer for CBOR tags
(`iana_cbor_tag_c_enum_name_generate`, `src/c/c_header_cbor.py`,
lines 170-355)

The Python function can raise `IndexError` at two places: the
`semantics[0]` test of `clean_semantics` when its argument is empty, and
the `variable_name_list[0]` test of `variable_name_abbreviator` when the
token list is empty.  The embedding returns `none` exactly there.
-/

/-- Whether `pat` occurs as a contiguous substring. -/
def containsInfix (pat : List Char) : List Char → Bool
  | [] => pat.isEmpty
  | c :: cs => pat.isPrefixOf (c :: cs) || containsInfix pat cs

/-- Match attempt of `[.,].* defined in .*` (with `.` not matching a
newline) at the start of `l`: a period or comma followed, within the same
line, by the literal ` defined in `; the greedy trailing `.*` makes the
match extend to the end of the line.  On success the text after the
match. -/
def parseDefinedIn (l : List Char) : Option (List Char) :=
  match l with
  | [] => none
  | c :: cs =>
    if c = '.' || c = ',' then
      let line := cs.takeWhile (· ≠ '\n')
      if containsInfix (" defined in ".toList) line then some (cs.drop line.length)
      else none
    else none

/-- Deletion of every match of `[.,].* defined in .*`
(`re.sub` of `clean_semantics`).  Fuel is the length of the text. -/
def subDefinedInAux : Nat → List Char → List Char
  | 0, l => l
  | _ + 1, [] => []
  | fuel + 1, c :: cs =>
    match parseDefinedIn (c :: cs) with
    | some rest => subDefinedInAux fuel rest
    | none => c :: subDefinedInAux fuel cs

/-- Deletion of every match of `[.,].* defined in .*`. -/
def subDefinedIn (l : List Char) : List Char := subDefinedInAux l.length l

/-- Match attempt of the non-greedy `\(.*?\)` at the start of `l`: an
opening parenthesis and the nearest closing one on the same line. -/
def parseParenMin (l : List Char) : Option (List Char) :=
  match l with
  | '(' :: r2 =>
    match (r2.takeWhile (· ≠ '\n')).findIdx? (· = ')') with
    | some i => some (r2.drop (i + 1))
    | none => none
  | _ => none

/-- Deletion of every match of `\(.*?\)`. -/
def subParenMinAux : Nat → List Char → List Char
  | 0, l => l
  | _ + 1, [] => []
  | fuel + 1, c :: cs =>
    match parseParenMin (c :: cs) with
    | some rest => subParenMinAux fuel rest
    | none => c :: subParenMinAux fuel cs

/-- Deletion of every match of `\(.*?\)`. -/
def subParenMin (l : List Char) : List Char := subParenMinAux l.length l

/-- Match attempt of the non-greedy `\[.*?\]` at the start of `l`. -/
def parseBracketMin (l : List Char) : Option (List Char) :=
  match l with
  | '[' :: r2 =>
    match (r2.takeWhile (· ≠ '\n')).findIdx? (· = ']') with
    | some i => some (r2.drop (i + 1))
    | none => none
  | _ => none

/-- Deletion of every match of `\[.*?\]`. -/
def subBracketMinAux : Nat → List Char → List Char
  | 0, l => l
  | _ + 1, [] => []
  | fuel + 1, c :: cs =>
    match parseBracketMin (c :: cs) with
    | some rest => subBracketMinAux fuel rest
    | none => c :: subBracketMinAux fuel cs

/-- Deletion of every match of `\[.*?\]`. -/
def subBracketMin (l : List Char) : List Char := subBracketMinAux l.length l

/-- Shallow embedding of the inner `clean_semantics` of
`iana_cbor_tag_c_enum_name_generate`: remove `.../defined in` trailers,
unwrap one outer bracket pair (the test reads the original argument, the
slice applies to the already substituted string, as in the source),
remove bracketed fragments, blank stray brackets and strip.  Returns
`none` when the argument is empty, where the source raises `IndexError`
on `semantics[0]`. -/
def clean_semantics (semantics : List Char) : Option (List Char) :=
  let s0 := subDefinedIn semantics
  match semantics with
  | [] => none
  | c0 :: rest =>
    let lastc := (c0 :: rest).getLastD ' '
    let s1 := if (c0 = '[' && lastc = ']') || (c0 = '(' && lastc = ')') then
        (s0.drop 1).dropLast
      else s0
    let s2 := subBracketMin (subParenMin s1)
    let s3 := s2.map (fun c => if c = '(' then ' ' else c)
    let s4 := s3.map (fun c => if c = ')' then ' ' else c)
    let s5 := s4.map (fun c => if c = '[' then ' ' else c)
    let s6 := s5.map (fun c => if c = ']' then ' ' else c)
    some (pyStripWs s6)

/-- The three `startswith` strips at the head of
`iana_cbor_tag_c_enum_name_generate`; the first slice length omits the
trailing space of the tested literal, exactly as in the source, so a
leading space survives in that case. -/
def stripContainsPrefixes (s : List Char) : List Char :=
  if ("A CBOR tag that contains a ".toList).isPrefixOf s then
    s.drop ("A CBOR tag that contains a".toList).length
  else if ("A CBOR tag that contains an ".toList).isPrefixOf s then
    s.drop ("A CBOR tag that contains an ".toList).length
  else if ("A CBOR tag that contains either ".toList).isPrefixOf s then
    s.drop ("A CBOR tag that contains either ".toList).length
  else s

/-- Match test for the colon-split pattern
`(?<!://)(?<!\w:)\s*:\s*(?!\w)` at a position whose preceding characters
are `prevRev` (reversed) and whose remaining text is `l`: the lookbehinds
reject a position directly after `://` or after a word character and a
colon; then whitespace, a colon, and whitespace followed by a non-word
character, where the trailing `\s*` may backtrack onto one of its own
space characters. -/
def colonMatchHere (prevRev l : List Char) : Bool :=
  let lb1ok := ¬ (prevRev.take 3 = ['/', '/', ':'])
  let lb2ok := match prevRev with
    | ':' :: w :: _ => ¬ isWordChar w
    | _ => true
  match l.dropWhile isSpaceChar with
  | ':' :: r3 =>
    let run := r3.takeWhile isSpaceChar
    let after := r3.dropWhile isSpaceChar
    lb1ok && lb2ok &&
      (after.isEmpty || ¬ isWordChar (after.headD ' ') || ¬ run.isEmpty)
  | _ => false

/-- Everything before the first match of the colon-split pattern, the
`re.split(...)[0]` of `iana_cbor_tag_c_enum_name_generate`; `prevRev`
accumulates the characters already passed, in reverse. -/
def colonSplitFirst (prevRev : List Char) : List Char → List Char
  | [] => prevRev.reverse
  | c :: cs =>
    if colonMatchHere prevRev (c :: cs) then prevRev.reverse
    else colonSplitFirst (c :: prevRev) cs

/-- Python `str.split()`: maximal runs of non-whitespace characters. -/
def splitWsAux : List Char → List Char → List (List Char)
  | acc, [] => if acc.isEmpty then [] else [acc.reverse]
  | acc, c :: cs =>
    if isSpaceChar c then
      if acc.isEmpty then splitWsAux [] cs else acc.reverse :: splitWsAux [] cs
    else splitWsAux (c :: acc) cs

/-- Python `str.split()`. -/
def splitWs (l : List Char) : List (List Char) := splitWsAux [] l

/-- Maximal runs of word characters: `re.sub(r'\W+', ' ', word).split()`. -/
def wordRunsAux : List Char → List Char → List (List Char)
  | acc, [] => if acc.isEmpty then [] else [acc.reverse]
  | acc, c :: cs =>
    if isWordChar c then wordRunsAux (c :: acc) cs
    else if acc.isEmpty then wordRunsAux [] cs else acc.reverse :: wordRunsAux [] cs

/-- Maximal runs of word characters of a token. -/
def wordRuns (l : List Char) : List (List Char) := wordRunsAux [] l

/-- Python `word.replace('+', 'PLUS')`. -/
def pyReplacePlus (w : List Char) : List Char :=
  w.flatMap (fun c => if c = '+' then "PLUS".toList else [c])

/-- Python `str.capitalize()`: first character uppercased, rest lowered. -/
def capitalizeWord : List Char → List Char
  | [] => []
  | c :: cs => pyUpperChar c :: pyLower cs

/-- Join with a separator. -/
def joinSep (sep : List Char) (parts : List (List Char)) : List Char :=
  (parts.intersperse sep).flatten

/-- The always-on abbreviation dictionary of
`variable_name_abbreviator`. -/
def veryCommonWordAbbreviations : List (List Char × List Char) :=
  [("standard".toList, "std".toList),
   ("identifier".toList, "id".toList),
   ("message".toList, "msg".toList),
   ("configuration".toList, "config".toList),
   ("reference".toList, "ref".toList),
   ("referenced".toList, "ref".toList),
   ("previously".toList, "prev".toList)]

/-- The secondary abbreviation dictionary applied to verbose
descriptions. -/
def wordAbbreviations : List (List Char × List Char) :=
  [("number".toList, "num".toList), ("complex".toList, "cplx".toList),
   ("index".toList, "idx".toList), ("attribute".toList, "attr".toList),
   ("maximum".toList, "max".toList), ("minimum".toList, "min".toList),
   ("communication".toList, "comm".toList), ("protocol".toList, "proto".toList),
   ("information".toList, "info".toList), ("authentication".toList, "auth".toList),
   ("representation".toList, "repr".toList), ("algorithm".toList, "algo".toList),
   ("version".toList, "ver".toList), ("encoding".toList, "enc".toList),
   ("arguments".toList, "arg".toList), ("object".toList, "obj".toList),
   ("language".toList, "lang".toList), ("independent".toList, "indep".toList),
   ("alternatives".toList, "alt".toList), ("text".toList, "txt".toList),
   ("string".toList, "str".toList), ("integer".toList, "int".toList),
   ("signal".toList, "sig".toList), ("channel".toList, "chn".toList),
   ("structure".toList, "strct".toList), ("structures".toList, "strct".toList),
   ("attestation".toList, "attest".toList), ("identify".toList, "ident".toList),
   ("geographic".toList, "geo".toList), ("geographical".toList, "geo".toList),
   ("coordinate".toList, "coord".toList), ("included".toList, "inc".toList),
   ("value".toList, "val".toList), ("values".toList, "vals".toList),
   ("record".toList, "rec".toList), ("report".toList, "rpt".toList),
   ("definition".toList, "def".toList), ("addressed".toList, "addr".toList),
   ("capabilities".toList, "cap".toList), ("additional".toList, "add".toList),
   ("operation".toList, "op".toList), ("operations".toList, "op".toList),
   ("level".toList, "lvl".toList), ("levels".toList, "lvls".toList),
   ("encode".toList, "enc".toList), ("encoded".toList, "enc".toList),
   ("component".toList, "comp".toList), ("condition".toList, "cond".toList),
   ("database".toList, "db".toList), ("element".toList, "elem".toList),
   ("environment".toList, "env".toList), ("parameter".toList, "param".toList),
   ("variable".toList, "var".toList), ("variables".toList, "var".toList),
   ("resource".toList, "res".toList), ("exception".toList, "excpt".toList),
   ("instance".toList, "inst".toList), ("organization".toList, "org".toList),
   ("response".toList, "resp".toList), ("security".toList, "sec".toList)]

/-- Stop words removed from verbose descriptions. -/
def commonWords : List (List Char) :=
  ["algorithm".toList, "and".toList, "to".toList, "a".toList,
   "from".toList, "the".toList, "bare".toList]

/-- Python `table.get(term.lower(), term)`. -/
def applyAbbrev (table : List (List Char × List Char)) (term : List Char) :
    List Char :=
  match table.find? (fun p => p.1 = pyLower term) with
  | some p => p.2
  | none => term

/-- The token list whose head `variable_name_abbreviator` inspects
(split, `+` to `PLUS`, strip underscores); an empty list makes the source
raise `IndexError`. -/
def cborTagTokens (input : List Char) : List (List Char) :=
  ((splitWs input).map pyReplacePlus).map (pyStripChar '_')

/-- Shallow embedding of the inner `variable_name_abbreviator` of
`iana_cbor_tag_c_enum_name_generate`: returns `none` where the source
raises `IndexError` on an empty token list; otherwise drops a leading
literal `A`, splits tokens at non-word characters, applies the always-on
abbreviations, and for descriptions of forty or more characters applies
the secondary abbreviations and removes stop words, joining in snake or
pascal case. -/
def variable_name_abbreviator (input : List Char) (camel_case : Bool := false) :
    Option (List Char) :=
  match cborTagTokens input with
  | [] => none
  | w :: ws =>
    let vl3 := if w = ['A'] then ws else w :: ws
    let vl4 := vl3.flatMap wordRuns
    let vl5 := vl4.map (applyAbbrev veryCommonWordAbbreviations)
    let total := (vl5.map List.length).sum
    let vl6 :=
      if 40 ≤ total then
        (vl5.map (applyAbbrev wordAbbreviations)).filter
          (fun t => ¬ commonWords.contains (pyLower t))
      else vl5
    if camel_case then some ((vl6.map capitalizeWord).flatten)
    else some (pyUpper (joinSep ['_'] vl6))

/-- Collapse every run of two or more underscores to one
(`re.sub(r'_{2,}', '_', s)`). -/
def collapseUnderscoresAux : Bool → List Char → List Char
  | _, [] => []
  | prevU, c :: cs =>
    if c = '_' then
      if prevU then collapseUnderscoresAux true cs
      else '_' :: collapseUnderscoresAux true cs
    else c :: collapseUnderscoresAux false cs

/-- Collapse every run of two or more underscores to one. -/
def collapseUnderscores (l : List Char) : List Char :=
  collapseUnderscoresAux false l

/-- Index of the first occurrence of `pat`, Python `str.find`. -/
def firstInfixIdx (pat : List Char) : List Char → Option Nat
  | [] => if pat.isEmpty then some 0 else none
  | c :: cs =>
    if pat.isPrefixOf (c :: cs) then some 0
    else (firstInfixIdx pat cs).map (· + 1)

/-- The cleaned and truncated description the synthesizer tokenizes: the
`semantics` value just before the `variable_name_abbreviator` call
(brackets removed, clause truncations at colon, semicolon and sentence
break applied, separators normalised to spaces); `none` where
`clean_semantics` raises. -/
def cborTagCleanedSemantics (semantics0 : List Char) : Option (List Char) :=
  match clean_semantics (stripContainsPrefixes semantics0) with
  | none => none
  | some s2 =>
    let s3 := pyStripWs (colonSplitFirst [] s2)
    let s4 := pyStripWs (s3.takeWhile (· ≠ ';'))
    let s5 := match firstInfixIdx (['.'] ++ [' ']) s4 with
      | some i => s4.take i
      | none => s4
    let s6 := (s5.map (fun c => if c = '_' then ' ' else c)).map
      (fun c => if c = '-' then ' ' else c)
    some s6

/-- Shallow embedding of `iana_cbor_tag_c_enum_name_generate`
(`src/c/c_header_cbor.py`, lines 170-355); `tiny` is the module-global
`tiny_cbor_style_override`, `false` by default.  Returns `none` exactly
where the source raises `IndexError` (empty description reaching
`clean_semantics`, or an empty token list). -/
def iana_cbor_tag_c_enum_name_generate (tag_value : List Char)
    (semantics0 : List Char) (typedef_enum_name : List Char)
    (tiny : Bool := false) : Option (List Char) :=
  match cborTagCleanedSemantics semantics0 with
  | none => none
  | some s6 =>
    if tiny then
      match variable_name_abbreviator s6 true with
      | none => none
      | some terms =>
        let known := ("KnownTags".toList).isSuffixOf typedef_enum_name
        let base := if known then typedef_enum_name.take (typedef_enum_name.length - 9)
          else typedef_enum_name
        some (base ++ terms ++ (if known then "Tag".toList else []))
    else
      match variable_name_abbreviator s6 false with
      | none => none
      | some terms =>
        let n := pyUpper typedef_enum_name ++
          (if terms.isEmpty then [] else '_' :: terms)
        some (pyUpper (pyStripChar '_' (collapseUnderscores n)))

/-!
## Predicates used by the theorem statements
-/

/-- Character of a well-formed generated identifier: uppercase letter,
digit, or underscore. -/
def isUpperIdentChar (c : Char) : Bool :=
  ('A' ≤ c && c ≤ 'Z') || ('0' ≤ c && c ≤ '9') || c = '_'

/-- Keys of an association list strictly increasing (sorted and without
duplicates), the invariant of the dict models. -/
def keysSorted {α : Type} (t : List (Nat × α)) : Prop :=
  t.Chain' (fun a b => a.1 < b.1)

/-- No suffix of `p` can begin a match of the block pattern, whatever
follows, as long as what follows begins with the literal
`typedef enum `: a match starting inside `p` would need that literal to
start there. -/
def NoLitStart (p : List Char) : Prop :=
  ∀ i < p.length, ¬ typedefLit <+: (p.drop i ++ typedefLit)

/-- No match of the block pattern starts anywhere in the (final) text
`s`. -/
def NoMatchInTail (name s : List Char) : Prop :=
  ∀ i < s.length, parseTypedefEnum name (s.drop i) = none

/-- Documents for which the patch step of `update_c_typedef_enum` is
well-behaved: either no block match can start anywhere (the absent-block
case), or the document is made of text that cannot start a match, exactly
one well-formed block with a NONEMPTY interior, and a tail without
further matches.  The nonempty interior matters: on an empty interior the
truthiness test of the source appends a second empty block (see
`ensureBlock`). -/
def GoodDocFor (name doc : List Char) : Prop :=
  NoLitStart doc ∨
    ∃ p hdr body s, doc = p ++ blockOf name hdr body ++ s ∧
      NoLitStart p ∧ '{' ∉ hdr ∧ '}' ∉ body ∧ body ≠ [] ∧ NoMatchInTail name s

/-- Hygiene of one fresh table row: a nonempty identifier of word
characters, no depreciated alias yet (the Entry Table Builder never sets
one), and comment text free of `=`, of the brace closing the block, and
of the backslash starting a replacement-template escape. -/
def RowHygiene (row : EnumRow) : Prop :=
  row.enum_name ≠ [] ∧ (∀ c ∈ row.enum_name, isWordChar c) ∧
    row.depreciated_enum_name = none ∧
    ∀ cm, row.comment = some cm → '=' ∉ cm ∧ '}' ∉ cm ∧ '\\' ∉ cm

/-- Hygiene of the whole fresh table. -/
def TableHygiene (t : EnumTable) : Prop :=
  keysSorted t ∧ ∀ p ∈ t, RowHygiene p.2

/-- Hygiene of the range-marker descriptions. -/
def MarkerHygiene (ms : List RangeMarker) : Prop :=
  ∀ m ∈ ms, '=' ∉ m.description ∧ '}' ∉ m.description ∧ '\\' ∉ m.description

/-- Hygiene of the head comment. -/
def HeadHygiene (head : List Char) : Prop :=
  '=' ∉ head ∧ '}' ∉ head ∧ '\\' ∉ head

/-- The identifier strings bound to one merged row: the primary name and,
when present, the depreciated alias. -/
def rowNames (row : EnumRow) : List (List Char) :=
  row.enum_name ::
    (match row.depreciated_enum_name with
     | some d => [d]
     | none => [])

/-- The `(\w+)\s*=\s*(\d+)` matches that the rendered text of one entry
produces, in scan order. -/
def rowPairs (id : Nat) (row : EnumRow) : List (List Char × List Char) :=
  (rowNames row).map (fun n => (n, natToChars id))

/-- The matches that the rendered text of a whole table produces, in scan
order: for each entry in ascending id order, the primary name and then the
optional depreciated alias, each bound to the decimal text of the id. -/
def tablePairs (t : EnumTable) : List (List Char × List Char) :=
  t.flatMap (fun p => rowPairs p.1 p.2)

/-- The extraction map the Existing-Block Extractor rebuilds when it
re-reads the rendered text of a merged table. -/
def extMapOf (t : EnumTable) : ExtMap :=
  t.map (fun p => (p.1, rowNames p.2))

/-- Hygiene of one row of a merged table (the shape the merge produces
from a hygienic fresh table and scanned identifiers): a nonempty primary
name of word characters, comment text free of `=` and of the closing
brace, and a depreciated alias that is a nonempty word identifier
different from the primary name. -/
def MergedRowHygiene (row : EnumRow) : Prop :=
  row.enum_name ≠ [] ∧ (∀ c ∈ row.enum_name, isWordChar c) ∧
    (∀ cm, row.comment = some cm → '=' ∉ cm ∧ '}' ∉ cm ∧ '\\' ∉ cm) ∧
    ∀ d, row.depreciated_enum_name = some d →
      d ≠ [] ∧ (∀ c ∈ d, isWordChar c) ∧ d ≠ row.enum_name

/-!
# Theorems

## Association-table lemmas
-/

theorem tableLookup_insert_self (id : Nat) (row : EnumRow) (t : EnumTable) :
    tableLookup id (tableInsert id row t) = some row := by
  induction t with
  | nil => simp [tableInsert, tableLookup]
  | cons p t ih =>
    obtain ⟨k, r⟩ := p
    by_cases h1 : id < k
    · simp [tableInsert, h1, tableLookup]
    · by_cases h2 : id = k
      · simp [tableInsert, h1, h2, tableLookup]
      · simp [tableInsert, h1, h2, tableLookup, ih]

theorem tableLookup_insert_ne (id id₂ : Nat) (row : EnumRow) (t : EnumTable)
    (h : id₂ ≠ id) :
    tableLookup id₂ (tableInsert id row t) = tableLookup id₂ t := by
  induction t with
  | nil => simp [tableInsert, tableLookup, h]
  | cons p t ih =>
    obtain ⟨k, r⟩ := p
    by_cases h1 : id < k
    · simp [tableInsert, h1, tableLookup, h]
    · by_cases h2 : id = k
      · subst h2
        simp [tableInsert, h1, tableLookup, h]
      · simp [tableInsert, h1, h2, tableLookup, ih]

theorem tableLookup_mergeExistingName_self (supp : Bool) (t : EnumTable)
    (id : Nat) (n : List Char) :
    tableLookup id (mergeExistingName supp t id n) =
      mergeNamesRow supp (tableLookup id t) [n] := by
  unfold mergeExistingName mergeNamesRow
  cases htl : tableLookup id t with
  | none => simp [tableLookup_insert_self]
  | some row =>
    by_cases hne : n ≠ row.enum_name
    · cases supp <;> simp [hne, tableLookup_insert_self]
    · simp only [ne_eq, not_not] at hne
      simp [hne, htl]

theorem tableLookup_mergeExistingName_ne (supp : Bool) (t : EnumTable)
    (id id₂ : Nat) (n : List Char) (h : id₂ ≠ id) :
    tableLookup id₂ (mergeExistingName supp t id n) = tableLookup id₂ t := by
  unfold mergeExistingName
  cases htl : tableLookup id t with
  | none => simp [tableLookup_insert_ne _ _ _ _ h]
  | some row =>
    by_cases hne : n ≠ row.enum_name
    · cases supp <;> simp [hne, tableLookup_insert_ne _ _ _ _ h]
    · simp [hne]

theorem tableLookup_foldNames_self (supp : Bool) (id : Nat)
    (names : List (List Char)) :
    ∀ t : EnumTable,
      tableLookup id (names.foldl (fun a n => mergeExistingName supp a id n) t) =
        mergeNamesRow supp (tableLookup id t) names := by
  induction names with
  | nil => intro t; simp [mergeNamesRow]
  | cons n ns ih =>
    intro t
    rw [List.foldl_cons, ih, tableLookup_mergeExistingName_self]
    simp [mergeNamesRow]

theorem tableLookup_foldNames_ne (supp : Bool) (id id₂ : Nat)
    (names : List (List Char)) (h : id₂ ≠ id) :
    ∀ t : EnumTable,
      tableLookup id₂ (names.foldl (fun a n => mergeExistingName supp a id n) t) =
        tableLookup id₂ t := by
  induction names with
  | nil => intro t; rfl
  | cons n ns ih =>
    intro t
    rw [List.foldl_cons, ih, tableLookup_mergeExistingName_ne _ _ _ _ _ h]

theorem tableLookup_overrideMerge_not_mem (supp : Bool) (existing : ExtMap)
    (id : Nat) (h : id ∉ existing.map Prod.fst) :
    ∀ t : EnumTable,
      tableLookup id (overrideMerge supp t existing) = tableLookup id t := by
  induction existing with
  | nil => intro t; rfl
  | cons p rest ih =>
    intro t
    obtain ⟨k, names⟩ := p
    simp only [List.map_cons, List.mem_cons] at h
    push_neg at h
    rw [overrideMerge, List.foldl_cons]
    rw [show (List.foldl
        (fun acc p => p.2.foldl (fun a n => mergeExistingName supp a p.1 n) acc)
        (names.foldl (fun a n => mergeExistingName supp a k n) t) rest) =
      overrideMerge supp (names.foldl (fun a n => mergeExistingName supp a k n) t) rest
      from rfl]
    rw [ih h.2, tableLookup_foldNames_ne _ _ _ _ h.1]

theorem tableLookup_overrideMerge (supp : Bool) (existing : ExtMap) (id : Nat)
    (hnd : (existing.map Prod.fst).Nodup) :
    ∀ t : EnumTable,
      tableLookup id (overrideMerge supp t existing) =
        match extLookup id existing with
        | some names => mergeNamesRow supp (tableLookup id t) names
        | none => tableLookup id t := by
  induction existing with
  | nil => intro t; rfl
  | cons p rest ih =>
    intro t
    obtain ⟨k, names⟩ := p
    simp only [List.map_cons, List.nodup_cons] at hnd
    rw [overrideMerge, List.foldl_cons]
    rw [show (List.foldl
        (fun acc p => p.2.foldl (fun a n => mergeExistingName supp a p.1 n) acc)
        (names.foldl (fun a n => mergeExistingName supp a k n) t) rest) =
      overrideMerge supp (names.foldl (fun a n => mergeExistingName supp a k n) t) rest
      from rfl]
    by_cases hk : id = k
    · subst hk
      have hnm : id ∉ rest.map Prod.fst := hnd.1
      rw [tableLookup_overrideMerge_not_mem supp rest id hnm,
        tableLookup_foldNames_self]
      simp [extLookup]
    · rw [ih hnd.2]
      have : extLookup id ((k, names) :: rest) = extLookup id rest := by
        simp [extLookup, hk]
      rw [this]
      cases extLookup id rest <;>
        simp [tableLookup_foldNames_ne _ _ _ _ hk]

theorem mergeNamesRow_true_some (row : EnumRow) (names : List (List Char)) :
    mergeNamesRow true (some row) names =
      some { row with depreciated_enum_name :=
        lastDifferingName row.enum_name row.depreciated_enum_name names } := by
  induction names generalizing row with
  | nil => simp [mergeNamesRow, lastDifferingName]
  | cons n ns ih =>
    by_cases hne : n ≠ row.enum_name
    · have step : mergeNamesRow true (some row) (n :: ns) =
          mergeNamesRow true (some { row with depreciated_enum_name := some n }) ns := by
        simp [mergeNamesRow, hne]
      rw [step, ih]
      simp [lastDifferingName, hne]
    · simp only [ne_eq, not_not] at hne
      have step : mergeNamesRow true (some row) (n :: ns) =
          mergeNamesRow true (some row) ns := by
        simp [mergeNamesRow, hne]
      rw [step, ih]
      simp [lastDifferingName, hne]

theorem mergeNamesRow_true_none (n : List Char) (ns : List (List Char)) :
    mergeNamesRow true none (n :: ns) =
      some ⟨n, none, lastDifferingName n none ns⟩ := by
  have step : mergeNamesRow true none (n :: ns) =
      mergeNamesRow true (some { enum_name := n }) ns := by
    simp [mergeNamesRow]
  rw [step, mergeNamesRow_true_some]

theorem tableLookup_overrideMerge_of_extLookup (supp : Bool) (existing : ExtMap)
    (id : Nat) (names : List (List Char)) (hnd : (existing.map Prod.fst).Nodup)
    (hext : extLookup id existing = some names) (t : EnumTable) :
    tableLookup id (overrideMerge supp t existing) =
      mergeNamesRow supp (tableLookup id t) names := by
  have h := tableLookup_overrideMerge supp existing id hnd t
  rw [hext] at h
  exact h

theorem tableLookup_overrideMerge_of_extLookup_none (supp : Bool)
    (existing : ExtMap) (id : Nat) (hnd : (existing.map Prod.fst).Nodup)
    (hext : extLookup id existing = none) (t : EnumTable) :
    tableLookup id (overrideMerge supp t existing) = tableLookup id t := by
  have h := tableLookup_overrideMerge supp existing id hnd t
  rw [hext] at h
  exact h

/-!
## C1: default merge policy for renamed ids
-/

/-- C1, counterexample: with two differing existing names bound to one
id, the merge does not add every differing name as a deprecated alias:
the single `depreciated_enum_name` slot keeps only the last one, and the
first existing name (`OLDA`) is absent from the merged table. -/
theorem overrideMerge_drops_all_but_last_alias :
    overrideMerge true [(5, { enum_name := "NEW".toList })]
        [(5, ["OLDA".toList, "OLDB".toList])] =
      [(5, { enum_name := "NEW".toList, comment := none,
             depreciated_enum_name := some "OLDB".toList })] ∧
    (allTableNames (overrideMerge true [(5, { enum_name := "NEW".toList })]
        [(5, ["OLDA".toList, "OLDB".toList])])).any
      (fun p => p.2 = "OLDA".toList) = false := by
  decide

/-- C1, amended: under the default policy the merge keeps the fresh
primary name (and the whole fresh row apart from the alias slot) and
records the last differing existing name in the single
`depreciated_enum_name` slot; in particular, when exactly one existing
name differs it is preserved as the deprecated alias next to the fresh
primary. -/
theorem overrideMerge_keeps_fresh_primary_records_last_alias
    (fresh : EnumTable) (ext : ExtMap) (id : Nat) (names : List (List Char))
    (row : EnumRow) (hnd : (ext.map Prod.fst).Nodup)
    (hext : extLookup id ext = some names)
    (hrow : tableLookup id fresh = some row) :
    tableLookup id (overrideMerge true fresh ext) =
      some { row with depreciated_enum_name :=
        lastDifferingName row.enum_name row.depreciated_enum_name names } := by
  rw [tableLookup_overrideMerge_of_extLookup true ext id names hnd hext fresh,
    hrow, mergeNamesRow_true_some]

/-- Witness for C1 amended: id 200 carries `OK` in the existing block,
the synthesizer recomputed `HTTP_NEW`; the merged entry keeps `HTTP_NEW`
as primary with `OK` as the deprecated alias. -/
theorem overrideMerge_keeps_fresh_primary_records_last_alias_witness :
    tableLookup 200 (overrideMerge true
        [(200, { enum_name := "HTTP_NEW".toList })] [(200, ["OK".toList])]) =
      some ⟨"HTTP_NEW".toList, none, some "OK".toList⟩ := by
  have h := overrideMerge_keeps_fresh_primary_records_last_alias
    [(200, { enum_name := "HTTP_NEW".toList })] [(200, ["OK".toList])] 200
    ["OK".toList] { enum_name := "HTTP_NEW".toList } (by decide) (by decide)
    (by decide)
  rw [h]
  decide

/-!
## C6: ids absent from the fresh table are carried forward
-/

/-- C6: an id bound in the existing block but absent from the fresh table
is carried into the merged table, with its (first) existing name as
primary and no comment; such ids are never dropped. -/
theorem overrideMerge_carries_forward_missing_ids
    (fresh : EnumTable) (ext : ExtMap) (id : Nat) (names : List (List Char))
    (hnd : (ext.map Prod.fst).Nodup) (hext : extLookup id ext = some names)
    (habs : tableLookup id fresh = none) (hne : names ≠ []) :
    tableLookup id (overrideMerge true fresh ext) =
      some ⟨names.headI, none, lastDifferingName names.headI none names.tail⟩ := by
  obtain ⟨n, ns, rfl⟩ := List.exists_cons_of_ne_nil hne
  have h := tableLookup_overrideMerge_of_extLookup true ext id (n :: ns) hnd hext fresh
  rw [habs] at h
  rw [h, mergeNamesRow_true_none]
  simp

/-- Witness for C6 at a concrete input. -/
theorem overrideMerge_carries_forward_missing_ids_witness :
    tableLookup 7 (overrideMerge true []
        [(7, ["KEEP_A".toList, "KEEP_B".toList])]) =
      some ⟨"KEEP_A".toList, none, some "KEEP_B".toList⟩ := by
  have h := overrideMerge_carries_forward_missing_ids []
    [(7, ["KEEP_A".toList, "KEEP_B".toList])] 7
    ["KEEP_A".toList, "KEEP_B".toList] (by decide) (by decide) (by decide)
    (by decide)
  rw [h]
  decide

/-!
## Character lemmas for the identifier charset claims
-/

theorem char_le_char_iff (a b : Char) : a ≤ b ↔ a.toNat ≤ b.toNat := by
  rcases a with ⟨⟨va⟩, ha⟩
  rcases b with ⟨⟨vb⟩, hb⟩
  simp [Char.le_def, Char.toNat, UInt32.le_def, BitVec.le_def, UInt32.toNat]

theorem charOfNat_toNat (n : Nat) (h : n < 55296) : (Char.ofNat n).toNat = n := by
  have hv : n.isValidChar := Or.inl h
  rw [Char.ofNat, dif_pos hv]
  show (UInt32.ofNatCore n _).toNat = n
  simp [UInt32.ofNatCore, UInt32.toNat]

theorem lowerCond_iff (c : Char) :
    ('a' ≤ c && c ≤ 'z') = true ↔ 97 ≤ c.toNat ∧ c.toNat ≤ 122 := by
  rw [Bool.and_eq_true, decide_eq_true_eq, decide_eq_true_eq,
    char_le_char_iff, char_le_char_iff]
  exact Iff.rfl

theorem pyUpperChar_eq_of_lower (c : Char) (h : 97 ≤ c.toNat ∧ c.toNat ≤ 122) :
    pyUpperChar c = Char.ofNat (c.toNat - 32) := by
  rw [pyUpperChar, if_pos ((lowerCond_iff c).2 h)]

theorem pyUpperChar_eq_of_not_lower (c : Char)
    (h : ¬(97 ≤ c.toNat ∧ c.toNat ≤ 122)) : pyUpperChar c = c := by
  rw [pyUpperChar, if_neg (fun hc => h ((lowerCond_iff c).1 hc))]

theorem isWordChar_cases (c : Char) (h : isWordChar c = true) :
    c = '_' ∨ (97 ≤ c.toNat ∧ c.toNat ≤ 122) ∨ (65 ≤ c.toNat ∧ c.toNat ≤ 90) ∨
      (48 ≤ c.toNat ∧ c.toNat ≤ 57) := by
  simp only [isWordChar, Bool.or_eq_true, Bool.and_eq_true, decide_eq_true_eq] at h
  rcases h with ((h | h) | h) | h
  · exact Or.inl h
  · refine Or.inr (Or.inl ⟨?_, ?_⟩)
    · exact (char_le_char_iff _ _).1 h.1
    · exact (char_le_char_iff _ _).1 h.2
  · refine Or.inr (Or.inr (Or.inl ⟨?_, ?_⟩))
    · exact (char_le_char_iff _ _).1 h.1
    · exact (char_le_char_iff _ _).1 h.2
  · refine Or.inr (Or.inr (Or.inr ⟨?_, ?_⟩))
    · exact (char_le_char_iff _ _).1 h.1
    · exact (char_le_char_iff _ _).1 h.2

theorem isUpperIdentChar_of (c : Char)
    (h : (65 ≤ c.toNat ∧ c.toNat ≤ 90) ∨ (48 ≤ c.toNat ∧ c.toNat ≤ 57) ∨ c = '_') :
    isUpperIdentChar c = true := by
  simp only [isUpperIdentChar, Bool.or_eq_true, Bool.and_eq_true, decide_eq_true_eq]
  rcases h with h | h | h
  · exact Or.inl (Or.inl ⟨(char_le_char_iff _ _).2 h.1, (char_le_char_iff _ _).2 h.2⟩)
  · exact Or.inl (Or.inr ⟨(char_le_char_iff _ _).2 h.1, (char_le_char_iff _ _).2 h.2⟩)
  · exact Or.inr h

theorem isUpperIdentChar_cases (c : Char) (h : isUpperIdentChar c = true) :
    (65 ≤ c.toNat ∧ c.toNat ≤ 90) ∨ (48 ≤ c.toNat ∧ c.toNat ≤ 57) ∨ c = '_' := by
  simp only [isUpperIdentChar, Bool.or_eq_true, Bool.and_eq_true, decide_eq_true_eq] at h
  rcases h with (h | h) | h
  · exact Or.inl ⟨(char_le_char_iff _ _).1 h.1, (char_le_char_iff _ _).1 h.2⟩
  · exact Or.inr (Or.inl ⟨(char_le_char_iff _ _).1 h.1, (char_le_char_iff _ _).1 h.2⟩)
  · exact Or.inr (Or.inr h)

theorem isWordChar_of_upperIdent (c : Char) (h : isUpperIdentChar c = true) :
    isWordChar c = true := by
  simp only [isWordChar, Bool.or_eq_true, Bool.and_eq_true, decide_eq_true_eq]
  rcases isUpperIdentChar_cases c h with h2 | h2 | h2
  · exact Or.inl (Or.inr ⟨(char_le_char_iff _ _).2 h2.1, (char_le_char_iff _ _).2 h2.2⟩)
  · exact Or.inr ⟨(char_le_char_iff _ _).2 h2.1, (char_le_char_iff _ _).2 h2.2⟩
  · exact Or.inl (Or.inl (Or.inl h2))

theorem pyUpperChar_of_word (c : Char) (h : isWordChar c = true) :
    isUpperIdentChar (pyUpperChar c) = true := by
  rcases isWordChar_cases c h with h | h | h | h
  · subst h
    decide
  · rw [pyUpperChar_eq_of_lower c h]
    have ht : (Char.ofNat (c.toNat - 32)).toNat = c.toNat - 32 :=
      charOfNat_toNat _ (by omega)
    exact isUpperIdentChar_of _ (Or.inl (by rw [ht]; omega))
  · rw [pyUpperChar_eq_of_not_lower c (by omega)]
    exact isUpperIdentChar_of _ (Or.inl h)
  · rw [pyUpperChar_eq_of_not_lower c (by omega)]
    exact isUpperIdentChar_of _ (Or.inr (Or.inl h))

theorem pyUpperChar_eq_underscore (c : Char) (h : pyUpperChar c = '_') :
    c = '_' := by
  by_cases hl : 97 ≤ c.toNat ∧ c.toNat ≤ 122
  · exfalso
    rw [pyUpperChar_eq_of_lower c hl] at h
    have ht : (Char.ofNat (c.toNat - 32)).toNat = c.toNat - 32 :=
      charOfNat_toNat _ (by omega)
    rw [h] at ht
    have h95 : ('_' : Char).toNat = 95 := rfl
    rw [h95] at ht
    omega
  · rw [pyUpperChar_eq_of_not_lower c hl] at h
    exact h

/-!
## Strip and drop lemmas
-/

theorem head?_dropWhile_ne (p : Char → Bool) (l : List Char) (a : Char)
    (h : (l.dropWhile p).head? = some a) : p a = false := by
  induction l with
  | nil => simp at h
  | cons c cs ih =>
    by_cases hc : p c
    · rw [List.dropWhile_cons_of_pos hc] at h
      exact ih h
    · rw [List.dropWhile_cons_of_neg hc] at h
      simp at h
      subst h
      simpa using hc

theorem getLast?_dropWhile_of_ne_nil (p : Char → Bool) (l : List Char)
    (h : l.dropWhile p ≠ []) : (l.dropWhile p).getLast? = l.getLast? := by
  induction l with
  | nil => simp at h
  | cons c cs ih =>
    by_cases hc : p c
    · rw [List.dropWhile_cons_of_pos hc] at h ⊢
      rw [ih h]
      have hcs : cs ≠ [] := by
        intro he
        subst he
        simp at h
      obtain ⟨b, bs, rfl⟩ := List.exists_cons_of_ne_nil hcs
      simp [List.getLast?_cons_cons]
    · rw [List.dropWhile_cons_of_neg hc]

theorem pyStripChar_head?_ne (ch : Char) (l : List Char) :
    (pyStripChar ch l).head? ≠ some ch := by
  rw [pyStripChar]
  set A := l.dropWhile (· = ch) with hA
  set B := A.reverse.dropWhile (· = ch) with hB
  rw [List.head?_reverse]
  by_cases hBn : B = []
  · simp [hBn]
  · rw [getLast?_dropWhile_of_ne_nil _ _ hBn, List.getLast?_reverse]
    intro h
    have := head?_dropWhile_ne (· = ch) l ch h
    simp at this

theorem pyStripChar_getLast?_ne (ch : Char) (l : List Char) :
    (pyStripChar ch l).getLast? ≠ some ch := by
  rw [pyStripChar, List.getLast?_reverse]
  intro h
  have := head?_dropWhile_ne (· = ch) _ ch h
  simp at this

theorem mem_pyStripChar (ch c : Char) (l : List Char)
    (h : c ∈ pyStripChar ch l) : c ∈ l := by
  rw [pyStripChar] at h
  rw [List.mem_reverse] at h
  have h2 := (List.dropWhile_sublist (l := (l.dropWhile (· = ch)).reverse) (· = ch)).mem h
  rw [List.mem_reverse] at h2
  exact (List.dropWhile_sublist (· = ch)).mem h2

/-!
## C9: charset invariant of the HTTP status-code name generator
-/

/-- C9: when the namespace prefix consists of word characters and has a
character other than underscore, the generated HTTP status-code
identifier contains only uppercase letters, digits and underscores, and
neither starts nor ends with an underscore. -/
theorem http_status_code_name_charset (code sem tp : List Char)
    (h1 : tp ≠ []) (h2 : ∀ c ∈ tp, isWordChar c) (h3 : ∃ c ∈ tp, c ≠ '_') :
    (∀ c ∈ iana_http_status_codes_c_enum_name_generate code sem tp,
        isUpperIdentChar c) ∧
      (iana_http_status_codes_c_enum_name_generate code sem tp).head? ≠ some '_' ∧
      (iana_http_status_codes_c_enum_name_generate code sem tp).getLast? ≠ some '_' := by
  rw [iana_http_status_codes_c_enum_name_generate]
  set base := pyUpper tp ++
    '_' :: (subSpaceParen sem).map (fun c => if isWordChar c then c else '_') with hbase
  have hbw : ∀ c ∈ base, isWordChar c = true := by
    intro c hc
    rw [hbase] at hc
    rcases List.mem_append.1 hc with hc | hc
    · rw [pyUpper] at hc
      obtain ⟨c0, hc0, rfl⟩ := List.mem_map.1 hc
      exact isWordChar_of_upperIdent _ (pyUpperChar_of_word c0 (h2 c0 hc0))
    · rcases List.mem_cons.1 hc with rfl | hc
      · decide
      · obtain ⟨c0, _, rfl⟩ := List.mem_map.1 hc
        by_cases hw : isWordChar c0 = true
        · rw [if_pos hw]
          exact hw
        · rw [if_neg hw]
          decide
  refine ⟨?_, ?_, ?_⟩
  · intro c hc
    rw [pyUpper] at hc
    obtain ⟨c0, hc0, rfl⟩ := List.mem_map.1 hc
    exact pyUpperChar_of_word c0 (hbw c0 (mem_pyStripChar _ _ _ hc0))
  · rw [pyUpper, List.head?_map]
    intro h
    rcases ho : (pyStripChar '_' base).head? with _ | a
    · rw [ho] at h
      exact Option.noConfusion h
    · rw [ho] at h
      have hinj : pyUpperChar a = '_' := by
        have : Option.map pyUpperChar (some a) = some (pyUpperChar a) := rfl
        rw [this] at h
        exact Option.some.inj h
      have ha := pyUpperChar_eq_underscore a hinj
      subst ha
      exact pyStripChar_head?_ne '_' base ho
  · rw [pyUpper, List.getLast?_map]
    intro h
    rcases ho : (pyStripChar '_' base).getLast? with _ | a
    · rw [ho] at h
      exact Option.noConfusion h
    · rw [ho] at h
      have hinj : pyUpperChar a = '_' := by
        have : Option.map pyUpperChar (some a) = some (pyUpperChar a) := rfl
        rw [this] at h
        exact Option.some.inj h
      have ha := pyUpperChar_eq_underscore a hinj
      subst ha
      exact pyStripChar_getLast?_ne '_' base ho

/-- Witness for C9 at the concrete prefix `http_status_code`. -/
theorem http_status_code_name_charset_witness :
    (∀ c ∈ iana_http_status_codes_c_enum_name_generate "451".toList
        "Unavailable For Legal Reasons (see RFC 7725)".toList
        "http_status_code".toList, isUpperIdentChar c) ∧
      (iana_http_status_codes_c_enum_name_generate "451".toList
        "Unavailable For Legal Reasons (see RFC 7725)".toList
        "http_status_code".toList).head? ≠ some '_' ∧
      (iana_http_status_codes_c_enum_name_generate "451".toList
        "Unavailable For Legal Reasons (see RFC 7725)".toList
        "http_status_code".toList).getLast? ≠ some '_' :=
  http_status_code_name_charset "451".toList
    "Unavailable For Legal Reasons (see RFC 7725)".toList
    "http_status_code".toList (by decide) (by decide) (by decide)

/-!
## C7: duplicate numeric ids in the Entry Table Builder
-/

/-- C7, counterexample: two rows with the same numeric id do not make the
builder fail; it silently produces a table in which the later row has
overwritten the earlier one (`enum_list[int(value)] = {...}` is a plain
dict assignment with no duplicate check). -/
theorem http_parse_rows_duplicate_id_last_wins :
    iana_http_status_codes_parse_rows
        [⟨"200".toList, "First".toList, "R1".toList⟩,
         ⟨"200".toList, "Second".toList, "R2".toList⟩]
        "http_status_code".toList =
      [(200, { enum_name := "HTTP_STATUS_CODE_SECOND".toList,
               comment := some "Second; Ref: R2".toList,
               depreciated_enum_name := none })] := by
  decide

/-- C7, amended: a row whose numeric id duplicates an earlier one is
accepted and silently overwrites it — for any earlier rows, appending an
accepted row makes the table hold exactly that last row at its id. -/
theorem http_parse_rows_appended_row_wins (rows : List HttpStatusRow)
    (r : HttpStatusRow) (tp : List Char)
    (h1 : r.value.isEmpty = false)
    (h2 : pyLower r.description ≠ "unassigned".toList)
    (h3 : pyLower r.description ≠ "reserved".toList)
    (h4 : r.value.contains '-' = false) :
    tableLookup (charsToNat r.value)
        (iana_http_status_codes_parse_rows (rows ++ [r]) tp) =
      some ⟨iana_http_status_codes_c_enum_name_generate r.value r.description tp,
        some (joinNonEmpty (';' :: [' '])
          [r.description, "Ref: ".toList ++ r.reference]), none⟩ := by
  rw [iana_http_status_codes_parse_rows, List.foldl_append, List.foldl_cons,
    List.foldl_nil]
  rw [if_neg (by simp [h1]), if_neg h2, if_neg h3, if_neg (by simpa using h4)]
  exact tableLookup_insert_self _ _ _

/-- Witness for C7 amended at a concrete row. -/
theorem http_parse_rows_appended_row_wins_witness :
    tableLookup 418
        (iana_http_status_codes_parse_rows
          [⟨"418".toList, "Old teapot".toList, "R0".toList⟩,
           ⟨"418".toList, "Teapot".toList, "R1".toList⟩]
          "http_status_code".toList) =
      some ⟨"HTTP_STATUS_CODE_TEAPOT".toList,
        some "Teapot; Ref: R1".toList, none⟩ := by
  have h := http_parse_rows_appended_row_wins
    [⟨"418".toList, "Old teapot".toList, "R0".toList⟩]
    ⟨"418".toList, "Teapot".toList, "R1".toList⟩
    "http_status_code".toList (by decide) (by decide) (by decide) (by decide)
  exact h.trans (by decide)

/-!
## C2: collision detection
-/

theorem tableLookup_some_mem (id : Nat) (t : EnumTable) (r : EnumRow)
    (h : tableLookup id t = some r) : (id, r) ∈ t := by
  induction t with
  | nil => exact absurd h (by simp [tableLookup])
  | cons p rest ih =>
    obtain ⟨k, row⟩ := p
    rw [tableLookup] at h
    by_cases hk : id = k
    · rw [if_pos hk] at h
      subst hk
      exact List.mem_cons.2 (Or.inl (by injection h with h; rw [h]))
    · rw [if_neg hk] at h
      exact List.mem_cons.2 (Or.inr (ih h))

theorem count_enum_names_two (l : EnumTable) (a b : Nat) (ra rb : EnumRow)
    (ha : (a, ra) ∈ l) (hb : (b, rb) ∈ l) (hab : a ≠ b)
    (hn : ra.enum_name = rb.enum_name) :
    1 < (l.map (fun p => p.2.enum_name)).count ra.enum_name := by
  induction l with
  | nil => simp at ha
  | cons p rest ih =>
    rcases List.mem_cons.1 ha with rfl | ha2
    · rcases List.mem_cons.1 hb with heq | hb2
      · exact absurd (by injection heq with h1 _; exact h1.symm) hab
      · have hmem : ra.enum_name ∈ rest.map (fun p => p.2.enum_name) := by
          rw [hn]
          exact List.mem_map.2 ⟨(b, rb), hb2, rfl⟩
        have hpos := List.count_pos_iff.2 hmem
        simp only [List.map_cons, List.count_cons_self]
        omega
    · rcases List.mem_cons.1 hb with rfl | hb2
      · have hmem : ra.enum_name ∈ rest.map (fun p => p.2.enum_name) :=
          List.mem_map.2 ⟨(a, ra), ha2, rfl⟩
        have hpos := List.count_pos_iff.2 hmem
        simp only [List.map_cons, hn, List.count_cons_self]
        rw [← hn]
        omega
      · have := ih ha2 hb2
        simp only [List.map_cons]
        rw [List.count_cons]
        omega

theorem hasDuplicateEnumNames_of_two (fresh : EnumTable) (a b : Nat)
    (ra rb : EnumRow) (hab : a ≠ b) (ha : tableLookup a fresh = some ra)
    (hb : tableLookup b fresh = some rb) (hn : ra.enum_name = rb.enum_name) :
    hasDuplicateEnumNames fresh = true := by
  rw [hasDuplicateEnumNames, List.any_eq_true]
  refine ⟨ra.enum_name, ?_, ?_⟩
  · exact List.mem_map.2 ⟨(a, ra), tableLookup_some_mem a fresh ra ha, rfl⟩
  · have := count_enum_names_two fresh a b ra rb (tableLookup_some_mem a fresh ra ha)
      (tableLookup_some_mem b fresh rb hb) hab hn
    simpa using this

/-- C2, counterexample to the claimed collision check: with an existing
block binding `X = 5` and a fresh table binding the same name `X` to
id 7 (no duplicate inside the fresh table), the merged table the Block
Merger produces binds `X` under two different numeric ids, yet the CBOR
tag updater raises the keyword-argument `TypeError`, not the promised
duplicate-identifier failure: no post-merge collision check exists, and
nothing at all is written. -/
theorem cbor_tag_update_collision_unflagged_never_written :
    hasCrossIdNameCollision
        (override_enum_from_existing_typedef_enum
          "typedef enum \x7b\n  X = 5\n\x7d cbor_tag_t;".toList
          "cbor_tag_t".toList
          [(7, ⟨['X'], none, none⟩)]) = true ∧
      iana_cbor_tag_c_typedef_enum_update
          "typedef enum \x7b\n  X = 5\n\x7d cbor_tag_t;".toList
          [(7, ⟨['X'], none, none⟩)] =
        Except.error CborUpdateError.typeError := by
  constructor
  · decide
  · rfl

/-- C2: what the CBOR tag updater actually does.  The only
duplicate-name check runs on the freshly built table, before any merge,
and aborts through `exit(1)`; when it passes, the call
`utils.update_c_typedef_enum(..., spacing_string=..., int_suffix="ULL")`
(src/c/c_header_cbor.py, line 497) raises `TypeError`, because
`update_c_typedef_enum` (src/c/iana_header_utils.py, line 155) accepts
neither keyword argument.  The updater therefore raises on every input
and never returns a patched document. -/
theorem cbor_tag_update_always_raises (doc : List Char) (t : EnumTable) :
    iana_cbor_tag_c_typedef_enum_update doc t =
      Except.error
        (if hasDuplicateEnumNames t then CborUpdateError.duplicateEnumName
          else CborUpdateError.typeError) := by
  rw [iana_cbor_tag_c_typedef_enum_update]
  cases hq : hasDuplicateEnumNames t
  · rfl
  · rfl

/-!
## C8: range-marker interleaving of the Block Renderer
-/

theorem takeWhile_eq_filter_of_sorted (id : Nat) (ms : List RangeMarker)
    (h : ms.Pairwise (fun a b => a.start ≤ b.start)) :
    ms.takeWhile (fun m => m.start ≤ id) = ms.filter (fun m => m.start ≤ id) ∧
      ms.dropWhile (fun m => m.start ≤ id) = ms.filter (fun m => ¬ m.start ≤ id) := by
  induction ms with
  | nil => simp
  | cons m t ih =>
    obtain ⟨hall, ht⟩ := List.pairwise_cons.1 h
    obtain ⟨ih1, ih2⟩ := ih ht
    by_cases hm : m.start ≤ id
    · constructor
      · rw [List.takeWhile_cons_of_pos (by simpa using hm),
          List.filter_cons_of_pos (by simpa using hm), ih1]
      · rw [List.dropWhile_cons_of_pos (by simpa using hm),
          List.filter_cons_of_neg (by simpa using hm), ih2]
    · have hnone : ∀ x ∈ t, ¬ x.start ≤ id := fun x hx hle =>
        hm (le_trans (hall x hx) hle)
      constructor
      · rw [List.takeWhile_cons_of_neg (by simpa using hm)]
        rw [List.filter_cons_of_neg (by simpa using hm)]
        rw [List.filter_eq_nil_iff.2 (fun x hx => by simpa using hnone x hx)]
      · rw [List.dropWhile_cons_of_neg (by simpa using hm)]
        rw [List.filter_cons_of_pos (by simpa using hm)]
        rw [List.filter_eq_self.2 (fun x hx => by simpa using hnone x hx)]

theorem renderEntriesAux_eq_spec (spacing : List Char) (lastKey : Option Nat)
    (entries : List (Nat × EnumRow)) :
    ∀ pending : List RangeMarker,
      pending.Pairwise (fun a b => a.start ≤ b.start) →
      renderEntriesAux spacing lastKey entries pending =
        renderEntriesSpecAux spacing lastKey entries pending := by
  induction entries with
  | nil => intro pending h; rfl
  | cons p rest ih =>
    intro pending h
    obtain ⟨id, row⟩ := p
    obtain ⟨hf1, hf2⟩ := takeWhile_eq_filter_of_sorted id pending h
    have hp' : (pending.dropWhile (fun m => m.start ≤ id)).Pairwise
        (fun a b => a.start ≤ b.start) :=
      h.sublist (List.dropWhile_sublist _)
    simp only [renderEntriesAux, renderEntriesSpecAux]
    rw [hf1, hf2, ih _ (hf2 ▸ hp')]

/-- C8: for an ascending marker list (the shape the data model requires),
the code renderer — which emits, before each id, pending markers while
their start does not exceed the id — coincides with the spec renderer
that emits every pending marker whose start is at most the id, in list
order, each marker at most once, flushing the rest after the last entry. -/
theorem generate_content_markers_as_spec (c_head_comment : List Char)
    (t : EnumTable) (ms : List RangeMarker) (spacing : List Char)
    (h : ms.Pairwise (fun a b => a.start ≤ b.start)) :
    generate_c_enum_content c_head_comment t (some ms) spacing =
      generateContentSpec c_head_comment t (some ms) spacing := by
  simp only [generate_c_enum_content, generateContentSpec]
  rw [renderEntriesAux_eq_spec _ _ t ms h]

/-- Witness for C8 at the concrete example of the specification: markers
`(0,19,"A")` and `(32,255,"B")` with ids 5 and 100. -/
theorem generate_content_markers_as_spec_witness :
    generate_c_enum_content ("  /* head */\n").toList
        [(5, ⟨"LOW".toList, none, none⟩), (100, ⟨"HIGH".toList, none, none⟩)]
        (some [⟨0, 19, ['A']⟩, ⟨32, 255, ['B']⟩]) (' ' :: [' ']) =
      generateContentSpec ("  /* head */\n").toList
        [(5, ⟨"LOW".toList, none, none⟩), (100, ⟨"HIGH".toList, none, none⟩)]
        (some [⟨0, 19, ['A']⟩, ⟨32, 255, ['B']⟩]) (' ' :: [' ']) :=
  generate_content_markers_as_spec ("  /* head */\n").toList
    [(5, ⟨"LOW".toList, none, none⟩), (100, ⟨"HIGH".toList, none, none⟩)]
    [⟨0, 19, ['A']⟩, ⟨32, 255, ['B']⟩] (' ' :: [' ']) (by decide)

/-!
## C5: totality of the Identifier Synthesizer
-/

theorem mem_collapseUnderscoresAux (c : Char) (hc : c ≠ '_') (l : List Char) :
    ∀ flag : Bool, c ∈ l → c ∈ collapseUnderscoresAux flag l := by
  induction l with
  | nil => intro flag h; simp at h
  | cons d t ih =>
    intro flag h
    by_cases hd : d = '_'
    · subst hd
      have hct : c ∈ t := by
        rcases List.mem_cons.1 h with rfl | h2
        · exact absurd rfl hc
        · exact h2
      rw [collapseUnderscoresAux]
      rcases flag with _ | _
      · simp only [if_pos rfl]
        exact List.mem_cons.2 (Or.inr (ih true hct))
      · simp only [if_pos rfl]
        exact ih true hct
    · rw [collapseUnderscoresAux, if_neg hd]
      rcases List.mem_cons.1 h with rfl | h2
      · exact List.mem_cons.2 (Or.inl rfl)
      · exact List.mem_cons.2 (Or.inr (ih false h2))

theorem pyStripChar_eq_nil_all (ch : Char) (l : List Char)
    (h : pyStripChar ch l = []) : ∀ x ∈ l, x = ch := by
  intro x hx
  rw [pyStripChar] at h
  have hB : (l.dropWhile (· = ch)).reverse.dropWhile (· = ch) = [] := by
    have := congrArg List.reverse h
    simpa using this
  have hA : ∀ y ∈ (l.dropWhile (· = ch)).reverse, y = ch := by
    intro y hy
    have := List.dropWhile_eq_nil_iff.1 hB y hy
    simpa using this
  rw [← List.takeWhile_append_dropWhile (p := (· = ch)) (l := l)] at hx
  rcases List.mem_append.1 hx with hx2 | hx2
  · simpa using List.mem_takeWhile_imp hx2
  · exact hA x (List.mem_reverse.2 hx2)

theorem pyStripChar_ne_nil (ch c : Char) (l : List Char) (hc : c ≠ ch)
    (hm : c ∈ l) : pyStripChar ch l ≠ [] :=
  fun h => hc (pyStripChar_eq_nil_all ch l h c hm)

/-- C5, counterexample: on the empty description the synthesizer does not
return an identifier; the source raises `IndexError` on `semantics[0]`
inside `clean_semantics` (modelled as `none`), so the component is not
total on every description string. -/
theorem cbor_tag_name_generate_raises_on_empty_description :
    iana_cbor_tag_c_enum_name_generate "21".toList [] "cbor_tag".toList = none := by
  rfl

/-- C5, amended: the synthesizer is deterministic (it is a function) and,
whenever the description is nonempty after prefix-stripping (so
`clean_semantics` does not raise) and its cleaned form still tokenizes to
at least one token (so `variable_name_abbreviator` does not raise), it
returns an identifier; if additionally the namespace prefix has a
non-underscore character, that identifier is never the empty string — an
uncoercible token list degrades to the prefix-only identifier. -/
theorem cbor_tag_name_generate_total_and_nonempty (tag sem tp : List Char)
    (s6 : List Char) (hclean : cborTagCleanedSemantics sem = some s6)
    (htok : cborTagTokens s6 ≠ []) (hpf : ∃ c ∈ tp, c ≠ '_') :
    ∃ out, iana_cbor_tag_c_enum_name_generate tag sem tp = some out ∧
      out ≠ [] := by
  obtain ⟨w, ws, hw⟩ := List.exists_cons_of_ne_nil htok
  have habb : ∃ terms, variable_name_abbreviator s6 false = some terms := by
    rw [variable_name_abbreviator, hw]
    exact ⟨_, rfl⟩
  obtain ⟨terms, hterms⟩ := habb
  obtain ⟨c, hcmem, hcne⟩ := hpf
  have key : iana_cbor_tag_c_enum_name_generate tag sem tp =
      match variable_name_abbreviator s6 false with
      | none => none
      | some terms =>
        some (pyUpper (pyStripChar '_' (collapseUnderscores
          (pyUpper tp ++ (if terms.isEmpty then [] else '_' :: terms))))) := by
    rw [iana_cbor_tag_c_enum_name_generate, hclean]
    rfl
  rw [key, hterms]
  refine ⟨_, rfl, ?_⟩
  have hcu : pyUpperChar c ≠ '_' := fun h => hcne (pyUpperChar_eq_underscore c h)
  have hmem2 : pyUpperChar c ∈
      pyUpper tp ++ (if terms.isEmpty then [] else '_' :: terms) :=
    List.mem_append.2 (Or.inl (List.mem_map.2 ⟨c, hcmem, rfl⟩))
  have hmem3 : pyUpperChar c ∈ collapseUnderscores
      (pyUpper tp ++ (if terms.isEmpty then [] else '_' :: terms)) :=
    mem_collapseUnderscoresAux _ hcu _ false hmem2
  have h4 := pyStripChar_ne_nil '_' (pyUpperChar c) _ hcu hmem3
  intro hnil
  rw [pyUpper] at hnil
  exact h4 (List.map_eq_nil_iff.1 hnil)

/-- Witness for C5 amended at a concrete description. -/
theorem cbor_tag_name_generate_total_and_nonempty_witness :
    ∃ out, iana_cbor_tag_c_enum_name_generate "2".toList
        "Unsigned bignum".toList "cbor_tag".toList = some out ∧ out ≠ [] :=
  cbor_tag_name_generate_total_and_nonempty "2".toList
    "Unsigned bignum".toList "cbor_tag".toList "Unsigned bignum".toList
    (by decide) (by decide) (by decide)

/-!
## List scanning helper lemmas
-/

theorem takeWhile_append_all (p : Char → Bool) (a b : List Char)
    (h : ∀ c ∈ a, p c) : (a ++ b).takeWhile p = a ++ b.takeWhile p := by
  induction a with
  | nil => simp
  | cons x xs ih => simp_all [List.takeWhile_cons]

theorem dropWhile_append_all (p : Char → Bool) (a b : List Char)
    (h : ∀ c ∈ a, p c) : (a ++ b).dropWhile p = b.dropWhile p := by
  induction a with
  | nil => simp
  | cons x xs ih => simp_all [List.dropWhile_cons]

theorem takeWhile_append_all_head (p : Char → Bool) (a : List Char) (m : Char)
    (b : List Char) (h : ∀ c ∈ a, p c) (hm : p m = false) :
    (a ++ m :: b).takeWhile p = a := by
  rw [takeWhile_append_all p a (m :: b) h, List.takeWhile_cons_of_neg (by simp [hm])]
  simp

theorem dropWhile_append_all_head (p : Char → Bool) (a : List Char) (m : Char)
    (b : List Char) (h : ∀ c ∈ a, p c) (hm : p m = false) :
    (a ++ m :: b).dropWhile p = m :: b := by
  rw [dropWhile_append_all p a (m :: b) h, List.dropWhile_cons_of_neg (by simp [hm])]

theorem takeWhile_append_stop (p : Char → Bool) (a b : List Char)
    (hb : ∀ c, b.head? = some c → p c = false) :
    (a ++ b).takeWhile p = a.takeWhile p ∨
      ((a ++ b).takeWhile p = a ++ b.takeWhile p ∧ ∀ c ∈ a, p c) := by
  induction a with
  | nil => right; simp
  | cons x xs ih =>
    by_cases hx : p x
    · rcases ih with ih | ⟨ih1, ih2⟩
      · left
        simp [List.takeWhile_cons, hx, ih]
      · right
        constructor
        · simp [List.takeWhile_cons, hx, ih1]
        · intro c hc
          rcases List.mem_cons.1 hc with rfl | hc
          · exact hx
          · exact ih2 c hc
    · left
      simp [List.takeWhile_cons, hx]

theorem dropWhile_append_ne_nil (p : Char → Bool) (a b : List Char)
    (h : a.dropWhile p ≠ []) : (a ++ b).dropWhile p = a.dropWhile p ++ b := by
  induction a with
  | nil => simp at h
  | cons x xs ih =>
    by_cases hx : p x
    · rw [List.dropWhile_cons_of_pos hx] at h
      rw [List.cons_append, List.dropWhile_cons_of_pos hx,
        List.dropWhile_cons_of_pos hx, ih h]
    · rw [List.dropWhile_cons_of_neg hx] at h ⊢
      rw [List.cons_append, List.dropWhile_cons_of_neg hx]

theorem prefix_of_take (l l2 : List Char) (h : l2.take l.length = l) : l <+: l2 := by
  have h2 := List.take_append_drop l.length l2
  rw [h] at h2
  exact ⟨l2.drop l.length, h2⟩

/-- A prefix test of `lit` against `x ++ lit ++ y` only inspects the part
`x ++ lit`, whatever `y` is. -/
theorem lit_prefix_extend (lit x y : List Char)
    (h : lit <+: (x ++ lit ++ y)) : lit <+: (x ++ lit) := by
  have hlen : lit.length ≤ (x ++ lit).length := by
    simp [List.length_append]
  have htake := List.prefix_iff_eq_take.1 h
  have hsplit : (x ++ lit ++ y).take lit.length = (x ++ lit).take lit.length :=
    List.take_append_of_le_length hlen
  apply prefix_of_take
  rw [hsplit] at htake
  exact htake.symm

/-!
## dropLit and block-pattern lemmas
-/

theorem dropLit_append (pre l : List Char) : dropLit pre (pre ++ l) = some l := by
  induction pre with
  | nil => rfl
  | cons c cs ih => simp [dropLit, ih]

theorem dropLit_eq_some (pre : List Char) :
    ∀ l r : List Char, dropLit pre l = some r → l = pre ++ r := by
  induction pre with
  | nil =>
    intro l r h
    simp [dropLit] at h
    simp [h]
  | cons c cs ih =>
    intro l r h
    cases l with
    | nil => simp [dropLit] at h
    | cons d ds =>
      rw [dropLit] at h
      by_cases hd : d = c
      · rw [if_pos hd] at h
        subst hd
        rw [List.cons_append, ih ds r h]
      · rw [if_neg hd] at h
        exact absurd h (by simp)

theorem dropLit_none_of_not (pre l : List Char) (h : ¬ pre <+: l) :
    dropLit pre l = none := by
  cases hd : dropLit pre l with
  | none => rfl
  | some r =>
    exfalso
    exact h (by rw [dropLit_eq_some pre l r hd]; exact ⟨r, rfl⟩)

theorem parseTypedefEnum_none_of_not_lit (name l : List Char)
    (h : ¬ typedefLit <+: l) : parseTypedefEnum name l = none := by
  rw [parseTypedefEnum, dropLit_none_of_not _ _ h]

theorem parseTypedefEnum_block (name hdr inner s : List Char)
    (hh : '{' ∉ hdr) (hb : '}' ∉ inner) :
    parseTypedefEnum name (blockOf name hdr inner ++ s) = some (inner, s) := by
  have h1 : blockOf name hdr inner ++ s =
      typedefLit ++ (hdr ++ '{' :: (inner ++ '}' :: ((' ' :: (name ++ [';'])) ++ s))) := by
    rw [blockOf]
    simp
  have h2 : (hdr ++ '{' :: (inner ++ '}' :: ((' ' :: (name ++ [';'])) ++ s))).dropWhile
      (fun c => c ≠ '{') = '{' :: (inner ++ '}' :: ((' ' :: (name ++ [';'])) ++ s)) :=
    dropWhile_append_all_head _ hdr '{' _
      (fun c hc => by simp only [decide_eq_true_eq, ne_eq]; intro he; exact hh (he ▸ hc))
      (by simp)
  have h3 : (inner ++ '}' :: ((' ' :: (name ++ [';'])) ++ s)).takeWhile
      (fun c => c ≠ '}') = inner :=
    takeWhile_append_all_head _ inner '}' _
      (fun c hc => by simp only [decide_eq_true_eq, ne_eq]; intro he; exact hb (he ▸ hc))
      (by simp)
  have h4 : (inner ++ '}' :: ((' ' :: (name ++ [';'])) ++ s)).dropWhile
      (fun c => c ≠ '}') = '}' :: ((' ' :: (name ++ [';'])) ++ s) :=
    dropWhile_append_all_head _ inner '}' _
      (fun c hc => by simp only [decide_eq_true_eq, ne_eq]; intro he; exact hb (he ▸ hc))
      (by simp)
  rw [parseTypedefEnum, h1, dropLit_append]
  simp only [h2, h3, h4, dropLit_append]

theorem parseTypedefEnum_rest_length (name l : List Char)
    (body rest : List Char) (h : parseTypedefEnum name l = some (body, rest)) :
    rest.length < l.length := by
  unfold parseTypedefEnum at h
  split at h
  · exact absurd h (by simp)
  · rename_i r1 heq1
    have hl1 : l.length = typedefLit.length + r1.length := by
      rw [dropLit_eq_some _ _ _ heq1]
      simp
    split at h
    · rename_i r3 heq2
      have hr3 : r3.length < r1.length := by
        have h2 : (r1.dropWhile (fun x => decide (x ≠ '{'))).length = r3.length + 1 := by
          rw [heq2]
          rfl
        have hle := (List.dropWhile_sublist (l := r1)
          (fun x => decide (x ≠ '{'))).length_le
        omega
      split at h
      · rename_i r5 heq3
        have hr5 : r5.length < r3.length := by
          have h2 : (r3.dropWhile (fun x => decide (x ≠ '}'))).length = r5.length + 1 := by
            rw [heq3]
            rfl
          have hle := (List.dropWhile_sublist (l := r3)
            (fun x => decide (x ≠ '}'))).length_le
          omega
        split at h
        · rename_i r6 heq4
          have hr6 : r5.length = name.length + 2 + r6.length := by
            rw [dropLit_eq_some _ _ _ heq4]
            simp
            omega
          injection h with h2
          have hrest : rest = r6 := congrArg Prod.snd h2.symm
          subst hrest
          have hlit : 0 < typedefLit.length := by decide
          omega
        · exact absurd h (by simp)
      · exact absurd h (by simp)
    · exact absurd h (by simp)

theorem parseNameValue_rest_length (l : List Char) (w d rest : List Char)
    (h : parseNameValue l = some ((w, d), rest)) : rest.length < l.length := by
  unfold parseNameValue at h
  split at h
  · exact absurd h (by simp)
  · rename_i hw
    split at h
    · rename_i r3 heq2
      split at h
      · exact absurd h (by simp)
      · injection h with h2
        have hrest : rest = (r3.dropWhile isSpaceChar).dropWhile isDigitChar :=
          congrArg Prod.snd h2.symm
        subst hrest
        have h1 := (List.dropWhile_sublist (l := l) isWordChar).length_le
        have h2 : ((l.dropWhile isWordChar).dropWhile isSpaceChar).length =
            r3.length + 1 := by
          rw [heq2]
          rfl
        have h3 := (List.dropWhile_sublist
          (l := l.dropWhile isWordChar) isSpaceChar).length_le
        have h4 := (List.dropWhile_sublist (l := r3) isSpaceChar).length_le
        have h5 := (List.dropWhile_sublist
          (l := r3.dropWhile isSpaceChar) isDigitChar).length_le
        omega
    · exact absurd h (by simp)

theorem parseNameValue_some_shape (l : List Char) (w d rest : List Char)
    (h : parseNameValue l = some ((w, d), rest)) :
    w = l.takeWhile isWordChar ∧ w ≠ [] ∧ d ≠ [] ∧ (∀ c ∈ w, isWordChar c) ∧
      ∀ c ∈ d, isDigitChar c := by
  unfold parseNameValue at h
  split at h
  · exact absurd h (by simp)
  · rename_i hw
    split at h
    · rename_i r3 heq2
      split at h
      · exact absurd h (by simp)
      · rename_i hd
        injection h with h2
        have hpair : (w, d) = (l.takeWhile isWordChar,
            (r3.dropWhile isSpaceChar).takeWhile isDigitChar) :=
          (congrArg Prod.fst h2.symm)
        have hww : w = l.takeWhile isWordChar := congrArg Prod.fst hpair
        have hdd : d = (r3.dropWhile isSpaceChar).takeWhile isDigitChar :=
          congrArg Prod.snd hpair
        refine ⟨hww, ?_, ?_, ?_, ?_⟩
        · rw [hww]
          simpa using hw
        · rw [hdd]
          simpa using hd
        · intro c hc
          rw [hww] at hc
          exact List.mem_takeWhile_imp hc
        · intro c hc
          rw [hdd] at hc
          exact List.mem_takeWhile_imp hc
    · exact absurd h (by simp)

/-!
## Fuel insensitivity of the scanners
-/

theorem replaceTypedefEnumAux_fuel_any (name repl : List Char) :
    ∀ (n f1 f2 : Nat) (l : List Char), l.length ≤ n → l.length ≤ f1 →
      l.length ≤ f2 →
      replaceTypedefEnumAux name repl f1 l = replaceTypedefEnumAux name repl f2 l := by
  intro n
  induction n with
  | zero =>
    intro f1 f2 l hn _ _
    have : l = [] := List.length_eq_zero.1 (Nat.le_zero.1 hn)
    subst this
    cases f1 <;> cases f2 <;> rfl
  | succ n ih =>
    intro f1 f2 l hn h1 h2
    cases l with
    | nil => cases f1 <;> cases f2 <;> rfl
    | cons c cs =>
      cases f1 with
      | zero => simp at h1
      | succ f1 =>
        cases f2 with
        | zero => simp at h2
        | succ f2 =>
          rw [replaceTypedefEnumAux, replaceTypedefEnumAux]
          cases hp : parseTypedefEnum name (c :: cs) with
          | some pr =>
            obtain ⟨b, rest⟩ := pr
            have hr := parseTypedefEnum_rest_length name (c :: cs) b rest hp
            simp only []
            rw [ih f1 f2 rest (by simp at hn hr ⊢; omega)
              (by simp at h1 hr ⊢; omega) (by simp at h2 hr ⊢; omega)]
          | none =>
            simp only []
            rw [ih f1 f2 cs (by simp at hn; omega) (by simp at h1; omega)
              (by simp at h2; omega)]

theorem replaceTypedefEnumAux_fuel (name repl : List Char) (fuel : Nat)
    (l : List Char) (hl : l.length ≤ fuel) :
    replaceTypedefEnumAux name repl fuel l =
      replaceTypedefEnumAux name repl l.length l :=
  replaceTypedefEnumAux_fuel_any name repl l.length fuel l.length l le_rfl hl le_rfl

theorem scanNameValuesAux_fuel_any :
    ∀ (n f1 f2 : Nat) (l : List Char), l.length ≤ n → l.length ≤ f1 →
      l.length ≤ f2 → scanNameValuesAux f1 l = scanNameValuesAux f2 l := by
  intro n
  induction n with
  | zero =>
    intro f1 f2 l hn _ _
    have : l = [] := List.length_eq_zero.1 (Nat.le_zero.1 hn)
    subst this
    cases f1 <;> cases f2 <;> rfl
  | succ n ih =>
    intro f1 f2 l hn h1 h2
    cases l with
    | nil => cases f1 <;> cases f2 <;> rfl
    | cons c cs =>
      cases f1 with
      | zero => simp at h1
      | succ f1 =>
        cases f2 with
        | zero => simp at h2
        | succ f2 =>
          rw [scanNameValuesAux, scanNameValuesAux]
          cases hp : parseNameValue (c :: cs) with
          | some pr =>
            obtain ⟨⟨w, d⟩, rest⟩ := pr
            have hr := parseNameValue_rest_length (c :: cs) w d rest hp
            simp only []
            rw [ih f1 f2 rest (by simp at hn hr ⊢; omega)
              (by simp at h1 hr ⊢; omega) (by simp at h2 hr ⊢; omega)]
          | none =>
            simp only []
            rw [ih f1 f2 cs (by simp at hn; omega) (by simp at h1; omega)
              (by simp at h2; omega)]

theorem scanNameValuesAux_fuel (fuel : Nat) (l : List Char)
    (hl : l.length ≤ fuel) :
    scanNameValuesAux fuel l = scanNameValuesAux l.length l :=
  scanNameValuesAux_fuel_any l.length fuel l.length l le_rfl hl le_rfl

/-!
## Skip and no-match lemmas for the block scanner
-/

theorem replaceTypedefEnumAux_skip (name repl rest : List Char) :
    ∀ (p : List Char) (fuel : Nat),
      (∀ i < p.length, parseTypedefEnum name (p.drop i ++ rest) = none) →
      replaceTypedefEnumAux name repl (p.length + fuel) (p ++ rest) =
        p ++ replaceTypedefEnumAux name repl fuel rest := by
  intro p
  induction p with
  | nil => intro fuel h; simp
  | cons c p ih =>
    intro fuel h
    have h0 := h 0 (by simp)
    simp only [List.drop_zero] at h0
    rw [show (c :: p).length + fuel = (p.length + fuel) + 1 by simp; omega]
    rw [List.cons_append, replaceTypedefEnumAux]
    rw [show ((c :: p) ++ rest : List Char) = c :: (p ++ rest) from rfl] at h0
    rw [h0]
    rw [ih fuel (fun i hi => by
      have := h (i + 1) (by simp; omega)
      simpa using this)]
    rfl

theorem replaceTypedefEnumAux_no_match (name repl : List Char) :
    ∀ (s : List Char) (fuel : Nat), NoMatchInTail name s →
      replaceTypedefEnumAux name repl fuel s = s := by
  intro s
  induction s with
  | nil => intro fuel h; cases fuel <;> rfl
  | cons c cs ih =>
    intro fuel h
    cases fuel with
    | zero => rfl
    | succ fuel =>
      have h0 := h 0 (by simp)
      simp only [List.drop_zero] at h0
      rw [replaceTypedefEnumAux, h0]
      rw [ih fuel (fun i hi => by
        have := h (i + 1) (by simp; omega)
        simpa using this)]

theorem findTypedefEnum_skip (name rest : List Char) :
    ∀ p : List Char,
      (∀ i < p.length, parseTypedefEnum name (p.drop i ++ rest) = none) →
      findTypedefEnum name (p ++ rest) = findTypedefEnum name rest := by
  intro p
  induction p with
  | nil => intro h; simp
  | cons c p ih =>
    intro h
    have h0 := h 0 (by simp)
    simp only [List.drop_zero] at h0
    rw [List.cons_append, findTypedefEnum]
    rw [show ((c :: p) ++ rest : List Char) = c :: (p ++ rest) from rfl] at h0
    rw [h0]
    exact ih (fun i hi => by
      have := h (i + 1) (by simp; omega)
      simpa using this)

theorem findTypedefEnum_none_of_NoLitStart (name doc : List Char)
    (h : NoLitStart doc) : findTypedefEnum name doc = none := by
  induction doc with
  | nil => rfl
  | cons c cs ih =>
    rw [findTypedefEnum]
    have h0 : ¬ typedefLit <+: (c :: cs) := by
      intro hpre
      exact h 0 (by simp) (by
        simp only [List.drop_zero]
        exact hpre.trans (List.prefix_append (c :: cs) typedefLit))
    rw [parseTypedefEnum_none_of_not_lit name (c :: cs) h0]
    exact ih (fun i hi => by
      have := h (i + 1) (by simp; omega)
      simpa using this)

theorem blockOf_shape (name hdr inner : List Char) :
    ∃ tail : List Char, blockOf name hdr inner = typedefLit ++ tail := by
  exact ⟨hdr ++ '{' :: inner ++ '}' :: ' ' :: (name ++ [';']), by
    rw [blockOf]
    simp [List.append_assoc]⟩

theorem parse_none_in_pre (name p : List Char) (hp : NoLitStart p)
    (rest : List Char) (hshape : ∃ y, rest = typedefLit ++ y) :
    ∀ i < p.length, parseTypedefEnum name (p.drop i ++ rest) = none := by
  intro i hi
  obtain ⟨y, rfl⟩ := hshape
  apply parseTypedefEnum_none_of_not_lit
  intro hpre
  rw [← List.append_assoc] at hpre
  exact hp i hi (lit_prefix_extend typedefLit (p.drop i) y hpre)

theorem findTypedefEnum_present (name p hdr inner s : List Char)
    (hp : NoLitStart p) (hh : '{' ∉ hdr) (hb : '}' ∉ inner) :
    findTypedefEnum name (p ++ (blockOf name hdr inner ++ s)) = some inner := by
  obtain ⟨tail, htail⟩ := blockOf_shape name hdr inner
  rw [findTypedefEnum_skip name (blockOf name hdr inner ++ s) p
    (parse_none_in_pre name p hp _ ⟨tail ++ s, by rw [htail, List.append_assoc]⟩)]
  have hne : ∃ c cs, blockOf name hdr inner ++ s = c :: cs := by
    cases hx : blockOf name hdr inner ++ s with
    | nil =>
      exfalso
      have := congrArg List.length hx
      rw [htail] at this
      simp [typedefLit] at this
    | cons c cs => exact ⟨c, cs, rfl⟩
  obtain ⟨c, cs, hx⟩ := hne
  rw [hx, findTypedefEnum, ← hx, parseTypedefEnum_block name hdr inner s hh hb]

theorem replaceTypedefEnum_frame (name repl p hdr inner s : List Char)
    (hp : NoLitStart p) (hh : '{' ∉ hdr) (hb : '}' ∉ inner)
    (hs : NoMatchInTail name s) :
    replaceTypedefEnum name repl (p ++ (blockOf name hdr inner ++ s)) =
      p ++ (repl ++ s) := by
  obtain ⟨tail, htail⟩ := blockOf_shape name hdr inner
  rw [replaceTypedefEnum]
  rw [show (p ++ (blockOf name hdr inner ++ s)).length =
    p.length + (blockOf name hdr inner ++ s).length by simp]
  rw [replaceTypedefEnumAux_skip name repl (blockOf name hdr inner ++ s) p
    (blockOf name hdr inner ++ s).length
    (parse_none_in_pre name p hp _ ⟨tail ++ s, by rw [htail, List.append_assoc]⟩)]
  congr 1
  have hne : ∃ c cs, blockOf name hdr inner ++ s = c :: cs := by
    cases hx : blockOf name hdr inner ++ s with
    | nil =>
      exfalso
      have := congrArg List.length hx
      rw [htail] at this
      simp [typedefLit] at this
    | cons c cs => exact ⟨c, cs, rfl⟩
  obtain ⟨c, cs, hx⟩ := hne
  rw [hx]
  rw [show (c :: cs).length = cs.length + 1 from rfl]
  rw [replaceTypedefEnumAux]
  rw [← hx, parseTypedefEnum_block name hdr inner s hh hb]
  show repl ++ replaceTypedefEnumAux name repl cs.length s = repl ++ s
  rw [replaceTypedefEnumAux_no_match name repl s cs.length hs]

theorem expandTemplateAux_no_backslash (g0 g1 : List Char) :
    ∀ (l : List Char) (fuel : Nat), l.length ≤ fuel → '\\' ∉ l →
      expandTemplateAux g0 g1 fuel l = some l := by
  intro l
  induction l with
  | nil =>
    intro fuel _ _
    cases fuel <;> rfl
  | cons c rest ih =>
    intro fuel hf h
    cases fuel with
    | zero => simp at hf
    | succ fuel =>
      have hc : c ≠ '\\' := fun hcc => h (hcc ▸ List.mem_cons_self c rest)
      have hle : rest.length ≤ fuel := by
        simp only [List.length_cons] at hf
        omega
      have hrest : '\\' ∉ rest := fun hx => h (List.mem_cons_of_mem _ hx)
      show (if c = '\\' then _ else
          match expandTemplateAux g0 g1 fuel rest with
          | some t => some (c :: t)
          | none => none) = some (c :: rest)
      rw [if_neg hc, ih fuel hle hrest]

theorem expandTemplate_no_backslash (g0 g1 repl : List Char)
    (h : '\\' ∉ repl) : expandTemplate g0 g1 repl = some repl :=
  expandTemplateAux_no_backslash g0 g1 repl repl.length le_rfl h

theorem subTypedefEnumAux_literal (name repl : List Char) (h : '\\' ∉ repl) :
    ∀ (fuel : Nat) (l : List Char),
      subTypedefEnumAux name repl fuel l =
        some (replaceTypedefEnumAux name repl fuel l) := by
  intro fuel
  induction fuel with
  | zero => intro l; rfl
  | succ fuel ih =>
    intro l
    cases l with
    | nil => rfl
    | cons c cs =>
      rw [subTypedefEnumAux, replaceTypedefEnumAux]
      cases hp : parseTypedefEnum name (c :: cs) with
      | none => rw [ih cs]
      | some pr =>
        obtain ⟨inner, rest⟩ := pr
        show (match expandTemplate
            ((c :: cs).take ((c :: cs).length - rest.length)) inner repl with
          | some e =>
            match subTypedefEnumAux name repl fuel rest with
            | some t => some (e ++ t)
            | none => none
          | none => none) =
          some (repl ++ replaceTypedefEnumAux name repl fuel rest)
        rw [expandTemplate_no_backslash _ inner repl h, ih rest]

theorem pySubTypedefEnum_literal (name repl l : List Char) (h : '\\' ∉ repl) :
    pySubTypedefEnum name repl l = some (replaceTypedefEnum name repl l) := by
  rw [pySubTypedefEnum, expandTemplate_no_backslash ([] : List Char) [] repl h]
  exact subTypedefEnumAux_literal name repl h l.length l

/-!
## Behaviour of `update_c_typedef_enum` on well-formed documents
-/

instance (p : List Char) : Decidable (NoLitStart p) := by
  unfold NoLitStart
  infer_instance

instance (name s : List Char) : Decidable (NoMatchInTail name s) := by
  unfold NoMatchInTail
  infer_instance

theorem update_present (p hdr inner s name : List Char)
    (enumname : Option (List Char)) (head : List Char) (fresh : EnumTable)
    (markers : Option (List RangeMarker)) (hp : NoLitStart p) (hh : '{' ∉ hdr)
    (hb : '}' ∉ inner) (hs : NoMatchInTail name s) (hbne : inner ≠ [])
    (hnb : '\\' ∉ mkBlockReplacement enumname name
      ('\n' :: generate_c_enum_content head
        (overrideMerge true fresh (extractEnumValues inner)) markers)) :
    update_c_typedef_enum (p ++ (blockOf name hdr inner ++ s)) name enumname
        head fresh markers =
      some (p ++ (mkBlockReplacement enumname name
        ('\n' :: generate_c_enum_content head
          (overrideMerge true fresh (extractEnumValues inner)) markers) ++ s)) := by
  have hfind := findTypedefEnum_present name p hdr inner s hp hh hb
  have hens : ensureBlock name (p ++ (blockOf name hdr inner ++ s)) =
      p ++ (blockOf name hdr inner ++ s) := by
    rw [ensureBlock, hfind]
    show (if inner.isEmpty = true then
        (p ++ (blockOf name hdr inner ++ s)) ++ emptyBlockText name
      else p ++ (blockOf name hdr inner ++ s)) =
      p ++ (blockOf name hdr inner ++ s)
    rw [if_neg (by simpa using hbne)]
  rw [update_c_typedef_enum, hens, override_enum_from_existing_typedef_enum,
    hfind]
  rw [show (some inner).getD ([] : List Char) = inner from rfl]
  rw [pySubTypedefEnum_literal _ _ _ hnb]
  rw [replaceTypedefEnum_frame name _ p hdr inner s hp hh hb hs]

theorem update_absent (doc name : List Char) (enumname : Option (List Char))
    (head : List Char) (fresh : EnumTable) (markers : Option (List RangeMarker))
    (hp : NoLitStart doc)
    (hnb : '\\' ∉ mkBlockReplacement enumname name
      ('\n' :: generate_c_enum_content head
        (overrideMerge true fresh (extractEnumValues ['\n'])) markers)) :
    update_c_typedef_enum doc name enumname head fresh markers =
      some (doc ++ (mkBlockReplacement enumname name
        ('\n' :: generate_c_enum_content head
          (overrideMerge true fresh (extractEnumValues ['\n'])) markers) ++
        ['\n', '\n'])) := by
  have hfind0 : findTypedefEnum name doc = none :=
    findTypedefEnum_none_of_NoLitStart name doc hp
  have hshape : doc ++ emptyBlockText name =
      doc ++ (blockOf name [] ['\n'] ++ ['\n', '\n']) := by
    rw [emptyBlockText]
  have hens : ensureBlock name doc =
      doc ++ (blockOf name [] ['\n'] ++ ['\n', '\n']) := by
    rw [ensureBlock, hfind0]
    exact hshape
  have hh : '{' ∉ ([] : List Char) := by simp
  have hb : '}' ∉ (['\n'] : List Char) := by decide
  have hs : NoMatchInTail name ['\n', '\n'] := by
    intro i hi
    apply parseTypedefEnum_none_of_not_lit
    intro hpre
    have := hpre.length_le
    have hlit : typedefLit.length = 13 := by decide
    have : ((['\n', '\n'] : List Char).drop i).length ≤ 2 := by
      simp [List.length_drop]
    omega
  have hfind := findTypedefEnum_present name doc [] ['\n'] ['\n', '\n'] hp hh hb
  rw [update_c_typedef_enum, hens, override_enum_from_existing_typedef_enum,
    hfind]
  rw [show (some ['\n']).getD ([] : List Char) = ['\n'] from rfl]
  rw [pySubTypedefEnum_literal _ _ _ hnb]
  rw [replaceTypedefEnum_frame name _ doc [] ['\n'] ['\n', '\n'] hp hh hb hs]

/-!
## C4: frame property of the Document Patcher
-/

/-- C4, counterexample: on a document holding the fragment
`typedef enum \x7b x` and no `foo_t` block, the update appends an empty
block, the substitution succeeds (no template error), but it matches a
region starting inside the original text and swallows it: the original
document text is not preserved (it is not even a prefix of the result),
contradicting the append-then-replace-interior description. -/
theorem update_swallows_text_on_unterminated_fragment :
    (update_c_typedef_enum "typedef enum \x7bx".toList "foo_t".toList
        (some "foo_t".toList) [] [] none).isSome = true ∧
      ¬ ("typedef enum \x7bx".toList <+:
        (update_c_typedef_enum "typedef enum \x7bx".toList "foo_t".toList
          (some "foo_t".toList) [] [] none).getD []) := by
  decide

/-- C4, amended: when the typedef name is made of word characters (the
source interpolates it into the regex, so only then is it matched
literally), the text before the block cannot begin a block match, the
block is well formed with a NONEMPTY interior (an empty captured
interior fails the source's truthiness test and a duplicate empty block
is appended), the tail contains no further match, and the rendered
replacement is backslash-free (so Python template processing leaves it
unchanged and raises no error), the patcher replaces exactly the
interior of the named block and leaves the text before and after
byte-identical. -/
theorem update_patches_only_the_block (p hdr inner s name : List Char)
    (enumname : Option (List Char)) (head : List Char) (fresh : EnumTable)
    (markers : Option (List RangeMarker))
    (hname : ∀ c ∈ name, isWordChar c = true)
    (hp : NoLitStart p) (hh : '{' ∉ hdr)
    (hb : '}' ∉ inner) (hs : NoMatchInTail name s) (hbne : inner ≠ [])
    (hnb : '\\' ∉ mkBlockReplacement enumname name
      ('\n' :: generate_c_enum_content head
        (overrideMerge true fresh (extractEnumValues inner)) markers)) :
    update_c_typedef_enum (p ++ (blockOf name hdr inner ++ s)) name enumname
        head fresh markers =
      some (p ++ (mkBlockReplacement enumname name
        ('\n' :: generate_c_enum_content head
          (overrideMerge true fresh (extractEnumValues inner)) markers) ++ s)) :=
  update_present p hdr inner s name enumname head fresh markers hp hh hb hs
    hbne hnb

/-- Witness for C4 amended on a concrete document. -/
theorem update_patches_only_the_block_witness :
    update_c_typedef_enum ("x\n".toList ++
        (blockOf "foo_t".toList "foo_t ".toList "\n  A = 1\n".toList ++
          "\ntail".toList)) "foo_t".toList (some "foo_t".toList)
        "  /* head */\n".toList [(2, ⟨"B_TWO".toList, none, none⟩)] none =
      some ("x\n".toList ++ (mkBlockReplacement (some "foo_t".toList)
        "foo_t".toList
        ('\n' :: generate_c_enum_content "  /* head */\n".toList
          (overrideMerge true [(2, ⟨"B_TWO".toList, none, none⟩)]
            (extractEnumValues "\n  A = 1\n".toList)) none) ++
        "\ntail".toList)) :=
  update_patches_only_the_block "x\n".toList "foo_t ".toList
    "\n  A = 1\n".toList "\ntail".toList "foo_t".toList (some "foo_t".toList)
    "  /* head */\n".toList [(2, ⟨"B_TWO".toList, none, none⟩)] none
    (by decide) (by decide) (by decide) (by decide) (by decide) (by decide)
    (by decide)

/-!
## C10: CoAP class/subclass packing
-/

/-- C10: for every pair of natural numbers, the packed CoAP code equals
`32 * (class mod 8) + (subclass mod 32)` and never exceeds one byte. -/
theorem coap_code_class_subclass_packs_mod (coap_class coap_subclass : Nat) :
    iana_coap_code_class_subclass_to_integer coap_class coap_subclass =
        32 * (coap_class % 8) + coap_subclass % 32 ∧
      iana_coap_code_class_subclass_to_integer coap_class coap_subclass ≤ 255 := by
  have h7 : coap_class &&& 7 = coap_class % 8 := by
    have := Nat.and_pow_two_sub_one_eq_mod coap_class 3
    simpa using this
  have h31 : coap_subclass &&& 31 = coap_subclass % 32 := by
    have := Nat.and_pow_two_sub_one_eq_mod coap_subclass 5
    simpa using this
  have hsh : (coap_class &&& 7) <<< 5 = 32 * (coap_class % 8) := by
    rw [h7, Nat.shiftLeft_eq]
    ring
  have hx : coap_class % 8 ≤ 7 := by omega
  have hy : coap_subclass % 32 ≤ 31 := by omega
  have hor : 32 * (coap_class % 8) ||| coap_subclass % 32 =
      32 * (coap_class % 8) + coap_subclass % 32 := by
    set x := coap_class % 8 with hxdef
    set y := coap_subclass % 32 with hydef
    clear_value x y
    interval_cases x <;> interval_cases y <;> decide
  constructor
  · rw [iana_coap_code_class_subclass_to_integer]
    show (coap_class &&& 7) <<< 5 ||| (coap_subclass &&& 31) =
      32 * (coap_class % 8) + coap_subclass % 32
    rw [hsh, h31, hor]
  · rw [iana_coap_code_class_subclass_to_integer]
    show (coap_class &&& 7) <<< 5 ||| (coap_subclass &&& 31) ≤ 255
    rw [hsh, h31, hor]
    omega

/-!
## Decimal rendering lemmas
-/

theorem natToCharsAux_fuel_any :
    ∀ (n f1 f2 m : Nat), m ≤ n → m < f1 → m < f2 →
      natToCharsAux f1 m = natToCharsAux f2 m := by
  intro n
  induction n with
  | zero =>
    intro f1 f2 m hn h1 h2
    have hm : m = 0 := Nat.le_zero.1 hn
    subst hm
    cases f1 with
    | zero => omega
    | succ f1 =>
      cases f2 with
      | zero => omega
      | succ f2 => rfl
  | succ n ih =>
    intro f1 f2 m hn h1 h2
    cases f1 with
    | zero => omega
    | succ f1 =>
      cases f2 with
      | zero => omega
      | succ f2 =>
        simp only [natToCharsAux]
        by_cases hm : m < 10
        · rw [if_pos hm, if_pos hm]
        · rw [if_neg hm, if_neg hm,
            ih f1 f2 (m / 10) (by omega) (by omega) (by omega)]

theorem natToChars_lt10 (m : Nat) (h : m < 10) : natToChars m = [digitChar m] := by
  rw [natToChars, natToCharsAux, if_pos h]

theorem natToChars_ge10 (m : Nat) (h : 10 ≤ m) :
    natToChars m = natToChars (m / 10) ++ [digitChar (m % 10)] := by
  show natToCharsAux (m + 1) m =
    natToCharsAux (m / 10 + 1) (m / 10) ++ [digitChar (m % 10)]
  rw [natToCharsAux, if_neg (by omega),
    natToCharsAux_fuel_any m m (m / 10 + 1) (m / 10) (by omega) (by omega)
      (by omega)]

theorem digitChar_toNat (k : Nat) (h : k < 10) : (digitChar k).toNat = 48 + k := by
  rw [digitChar]
  exact charOfNat_toNat _ (by omega)

theorem isDigitChar_iff (c : Char) :
    isDigitChar c = true ↔ 48 ≤ c.toNat ∧ c.toNat ≤ 57 := by
  rw [isDigitChar, Bool.and_eq_true, decide_eq_true_eq, decide_eq_true_eq,
    char_le_char_iff, char_le_char_iff]
  exact Iff.rfl

theorem digitChar_isDigit (k : Nat) (h : k < 10) :
    isDigitChar (digitChar k) = true := by
  rw [isDigitChar_iff, digitChar_toNat k h]
  omega

theorem natToChars_all_digit : ∀ m : Nat, ∀ c ∈ natToChars m, isDigitChar c = true := by
  intro m
  induction m using Nat.strong_induction_on with
  | h m ih =>
    by_cases hm : m < 10
    · rw [natToChars_lt10 m hm]
      intro c hc
      simp at hc
      subst hc
      exact digitChar_isDigit m hm
    · rw [natToChars_ge10 m (by omega)]
      intro c hc
      rw [List.mem_append] at hc
      rcases hc with hc | hc
      · exact ih (m / 10) (by omega) c hc
      · simp at hc
        subst hc
        exact digitChar_isDigit (m % 10) (by omega)

theorem natToChars_ne_nil (m : Nat) : natToChars m ≠ [] := by
  by_cases hm : m < 10
  · rw [natToChars_lt10 m hm]
    simp
  · rw [natToChars_ge10 m (by omega)]
    simp

theorem charsToNat_append_digit (a : List Char) (c : Char) :
    charsToNat (a ++ [c]) = 10 * charsToNat a + (c.toNat - 48) := by
  rw [charsToNat, charsToNat, List.foldl_append]
  rfl

theorem charsToNat_natToChars : ∀ m : Nat, charsToNat (natToChars m) = m := by
  intro m
  induction m using Nat.strong_induction_on with
  | h m ih =>
    by_cases hm : m < 10
    · rw [natToChars_lt10 m hm,
        show ([digitChar m] : List Char) = [] ++ [digitChar m] from rfl,
        charsToNat_append_digit, digitChar_toNat m hm,
        show charsToNat [] = 0 from rfl]
      omega
    · rw [natToChars_ge10 m (by omega), charsToNat_append_digit,
        ih (m / 10) (by omega), digitChar_toNat (m % 10) (by omega)]
      omega

/-!
## Character-class facts
-/

theorem isSpaceChar_iff (c : Char) :
    isSpaceChar c = true ↔
      c = ' ' ∨ c = '\t' ∨ c = '\n' ∨ c = '\r' ∨ c = '\x0b' ∨ c = '\x0c' := by
  simp only [isSpaceChar, Bool.or_eq_true, decide_eq_true_eq]
  tauto

theorem toNat_le_of_space (c : Char) (h : isSpaceChar c = true) : c.toNat ≤ 32 := by
  rcases (isSpaceChar_iff c).1 h with rfl | rfl | rfl | rfl | rfl | rfl <;> decide

theorem word_toNat_ge (c : Char) (h : isWordChar c = true) : 48 ≤ c.toNat := by
  rcases isWordChar_cases c h with rfl | h | h | h
  · decide
  · omega
  · omega
  · omega

theorem word_not_space (c : Char) (h : isWordChar c = true) :
    isSpaceChar c = false := by
  cases hx : isSpaceChar c
  · rfl
  · exfalso
    have h1 := toNat_le_of_space c hx
    have h2 := word_toNat_ge c h
    omega

theorem digit_word (c : Char) (h : isDigitChar c = true) : isWordChar c = true := by
  have h2 := (isDigitChar_iff c).1 h
  simp only [isWordChar, Bool.or_eq_true, Bool.and_eq_true, decide_eq_true_eq]
  exact Or.inr ⟨(char_le_char_iff _ _).2 h2.1, (char_le_char_iff _ _).2 h2.2⟩

theorem digit_not_space (c : Char) (h : isDigitChar c = true) :
    isSpaceChar c = false :=
  word_not_space c (digit_word c h)

theorem word_ne_eq_char (c : Char) (h : isWordChar c = true) : c ≠ '=' := by
  intro heq
  subst heq
  exact absurd h (by decide)

theorem digit_ne_eq_char (c : Char) (h : isDigitChar c = true) : c ≠ '=' := by
  intro heq
  subst heq
  exact absurd h (by decide)

theorem word_ne_rbrace (c : Char) (h : isWordChar c = true) : c ≠ '}' := by
  intro heq
  subst heq
  exact absurd h (by decide)

theorem digit_ne_rbrace (c : Char) (h : isDigitChar c = true) : c ≠ '}' :=
  word_ne_rbrace c (digit_word c h)

theorem word_ne_backslash (c : Char) (h : isWordChar c = true) : c ≠ '\\' := by
  intro heq
  subst heq
  exact absurd h (by decide)

theorem digit_ne_backslash (c : Char) (h : isDigitChar c = true) : c ≠ '\\' :=
  word_ne_backslash c (digit_word c h)

/-!
## Scanning rendered text: skip, inert-segment and entry lemmas
-/

theorem scanNameValuesAux_skip (rest : List Char) :
    ∀ (p : List Char) (fuel : Nat),
      (∀ i < p.length, parseNameValue (p.drop i ++ rest) = none) →
      scanNameValuesAux (p.length + fuel) (p ++ rest) =
        scanNameValuesAux fuel rest := by
  intro p
  induction p with
  | nil =>
    intro fuel h
    simp
  | cons c p ih =>
    intro fuel h
    have h0 := h 0 (by simp)
    simp only [List.drop_zero] at h0
    rw [show (c :: p).length + fuel = (p.length + fuel) + 1 by simp; omega]
    rw [List.cons_append, scanNameValuesAux]
    rw [show ((c :: p) ++ rest : List Char) = c :: (p ++ rest) from rfl] at h0
    rw [h0]
    show scanNameValuesAux (p.length + fuel) (p ++ rest) = scanNameValuesAux fuel rest
    exact ih fuel (fun i hi => by
      have := h (i + 1) (by simp; omega)
      simpa using this)

theorem parseNameValue_some_eq_mem (l : List Char)
    (x : (List Char × List Char) × List Char) (h : parseNameValue l = some x) :
    '=' ∈ l := by
  unfold parseNameValue at h
  split at h
  · exact absurd h (by simp)
  · split at h
    · rename_i r3 heq2
      have h1 : '=' ∈ (l.dropWhile isWordChar).dropWhile isSpaceChar := by
        rw [heq2]
        simp
      exact (List.dropWhile_sublist isWordChar).mem
        ((List.dropWhile_sublist isSpaceChar).mem h1)
    · exact absurd h (by simp)

theorem scanNameValuesAux_no_eq :
    ∀ (l : List Char) (fuel : Nat), '=' ∉ l → scanNameValuesAux fuel l = [] := by
  intro l
  induction l with
  | nil =>
    intro fuel h
    cases fuel <;> rfl
  | cons c cs ih =>
    intro fuel h
    cases fuel with
    | zero => rfl
    | succ fuel =>
      rw [scanNameValuesAux]
      cases hp : parseNameValue (c :: cs) with
      | some x => exact absurd (parseNameValue_some_eq_mem _ x hp) h
      | none =>
        show scanNameValuesAux fuel cs = []
        exact ih fuel (fun hm => h (List.mem_cons_of_mem c hm))

theorem scanNameValues_no_eq (l : List Char) (h : '=' ∉ l) :
    scanNameValues l = [] :=
  scanNameValuesAux_no_eq l l.length h

/-- An attempted `(\w+)\s*=\s*(\d+)` match that starts in a text segment
free of `=` and ending in a whitespace character fails, as long as the
first non-space character of the following text is not `=`. -/
theorem parseNameValue_none_of_inert (l' : List Char) (sp : Char)
    (rest : List Char) (hsp : isSpaceChar sp = true)
    (hne : '=' ∉ l' ++ [sp])
    (hrest : ∀ c, (rest.dropWhile isSpaceChar).head? = some c → c ≠ '=') :
    parseNameValue ((l' ++ [sp]) ++ rest) = none := by
  unfold parseNameValue
  by_cases hempty : (((l' ++ [sp]) ++ rest).takeWhile isWordChar).isEmpty
  · rw [if_pos hempty]
  · rw [if_neg hempty]
    have hsegdrop : (l' ++ [sp]).dropWhile isWordChar ≠ [] := by
      intro hnil
      have hall := List.dropWhile_eq_nil_iff.1 hnil
      have hspmem : sp ∈ l' ++ [sp] := by simp
      have hws := word_not_space sp (hall sp hspmem)
      rw [hsp] at hws
      simp at hws
    have hA : ((l' ++ [sp]) ++ rest).dropWhile isWordChar =
        (l' ++ [sp]).dropWhile isWordChar ++ rest :=
      dropWhile_append_ne_nil isWordChar (l' ++ [sp]) rest hsegdrop
    rw [hA]
    by_cases hmd : ((l' ++ [sp]).dropWhile isWordChar).dropWhile isSpaceChar = []
    · have hms : ∀ c ∈ (l' ++ [sp]).dropWhile isWordChar, isSpaceChar c :=
        List.dropWhile_eq_nil_iff.1 hmd
      rw [dropWhile_append_all isSpaceChar _ rest hms]
      split
      · rename_i r3 hscr
        exact absurd rfl (hrest '=' (by rw [hscr]; rfl))
      · rfl
    · rw [dropWhile_append_ne_nil isSpaceChar _ rest hmd]
      split
      · rename_i r3 hscr
        exfalso
        obtain ⟨e, es, hes⟩ := List.exists_cons_of_ne_nil hmd
        rw [hes, List.cons_append] at hscr
        have heq : e = '=' := by
          injection hscr with h1 h2
        have hem : e ∈ ((l' ++ [sp]).dropWhile isWordChar).dropWhile isSpaceChar := by
          rw [hes]
          simp
        have hem2 : e ∈ l' ++ [sp] :=
          (List.dropWhile_sublist isWordChar).mem
            ((List.dropWhile_sublist isSpaceChar).mem hem)
        exact hne (heq ▸ hem2)
      · rfl

/-- Scanning skips a whole inert segment. -/
theorem scanNameValues_skip_seg (l' : List Char) (sp : Char) (rest : List Char)
    (hsp : isSpaceChar sp = true) (hne : '=' ∉ l' ++ [sp])
    (hrest : ∀ c, (rest.dropWhile isSpaceChar).head? = some c → c ≠ '=') :
    scanNameValues ((l' ++ [sp]) ++ rest) = scanNameValues rest := by
  rw [scanNameValues, scanNameValues,
    show ((l' ++ [sp]) ++ rest).length = (l' ++ [sp]).length + rest.length by
      simp
      omega]
  apply scanNameValuesAux_skip rest (l' ++ [sp]) rest.length
  intro i hi
  have hil : i ≤ l'.length := by
    simp at hi
    omega
  rw [List.drop_append_of_le_length hil]
  apply parseNameValue_none_of_inert (l'.drop i) sp rest hsp _ hrest
  intro hmem
  apply hne
  rw [List.mem_append] at hmem ⊢
  rcases hmem with hmem | hmem
  · exact Or.inl ((List.drop_sublist i l').mem hmem)
  · exact Or.inr hmem

/-- Successful match of a rendered `name = id` fragment: the exact shape
`renderEntry` emits. -/
theorem parseNameValue_entry (w d rest : List Char) (hw : w ≠ [])
    (hwall : ∀ c ∈ w, isWordChar c) (hd : d ≠ [])
    (hdall : ∀ c ∈ d, isDigitChar c)
    (hrest : ∀ c, rest.head? = some c → isDigitChar c = false) :
    parseNameValue (w ++ ' ' :: '=' :: ' ' :: (d ++ rest)) =
      some ((w, d), rest) := by
  unfold parseNameValue
  have htake : (w ++ ' ' :: '=' :: ' ' :: (d ++ rest)).takeWhile isWordChar = w :=
    takeWhile_append_all_head isWordChar w ' ' _ hwall (by decide)
  have hdropw : (w ++ ' ' :: '=' :: ' ' :: (d ++ rest)).dropWhile isWordChar =
      ' ' :: '=' :: ' ' :: (d ++ rest) :=
    dropWhile_append_all_head isWordChar w ' ' _ hwall (by decide)
  rw [htake, hdropw]
  have hds : ((' ' :: '=' :: ' ' :: (d ++ rest) : List Char).dropWhile isSpaceChar) =
      '=' :: (' ' :: (d ++ rest)) := by
    rw [List.dropWhile_cons_of_pos (by decide), List.dropWhile_cons_of_neg (by decide)]
  rw [hds, if_neg (by simpa using hw)]
  have hr3 : ((' ' :: (d ++ rest) : List Char).dropWhile isSpaceChar) = d ++ rest := by
    rw [List.dropWhile_cons_of_pos (by decide)]
    obtain ⟨d0, dt, rfl⟩ := List.exists_cons_of_ne_nil hd
    rw [List.cons_append, List.dropWhile_cons_of_neg]
    simp [digit_not_space d0 (hdall d0 (by simp))]
  show (if (((' ' :: (d ++ rest) : List Char).dropWhile isSpaceChar).takeWhile
      isDigitChar).isEmpty then none
    else some ((w, ((' ' :: (d ++ rest) : List Char).dropWhile
        isSpaceChar).takeWhile isDigitChar),
      ((' ' :: (d ++ rest) : List Char).dropWhile isSpaceChar).dropWhile
        isDigitChar)) = some ((w, d), rest)
  rw [hr3]
  have htaked : (d ++ rest).takeWhile isDigitChar = d := by
    cases hrest0 : rest with
    | nil =>
      rw [takeWhile_append_all isDigitChar d [] hdall]
      simp
    | cons r0 rt =>
      exact takeWhile_append_all_head isDigitChar d r0 rt hdall
        (hrest r0 (by rw [hrest0]; rfl))
  have hdropd : (d ++ rest).dropWhile isDigitChar = rest := by
    cases hrest0 : rest with
    | nil =>
      rw [dropWhile_append_all isDigitChar d [] hdall]
      rfl
    | cons r0 rt =>
      exact dropWhile_append_all_head isDigitChar d r0 rt hdall
        (hrest r0 (by rw [hrest0]; rfl))
  rw [htaked, hdropd, if_neg (by simpa using hd)]

/-- Scanning a rendered `name = id` fragment yields the pair and resumes
right after the digits. -/
theorem scanNameValues_entry (w d rest : List Char) (hw : w ≠ [])
    (hwall : ∀ c ∈ w, isWordChar c) (hd : d ≠ [])
    (hdall : ∀ c ∈ d, isDigitChar c)
    (hrest : ∀ c, rest.head? = some c → isDigitChar c = false) :
    scanNameValues (w ++ ' ' :: '=' :: ' ' :: (d ++ rest)) =
      (w, d) :: scanNameValues rest := by
  obtain ⟨w0, wt, rfl⟩ := List.exists_cons_of_ne_nil hw
  rw [scanNameValues]
  rw [show ((w0 :: wt) ++ ' ' :: '=' :: ' ' :: (d ++ rest) : List Char) =
    w0 :: (wt ++ ' ' :: '=' :: ' ' :: (d ++ rest)) from rfl]
  rw [show (w0 :: (wt ++ ' ' :: '=' :: ' ' :: (d ++ rest)) : List Char).length =
    (wt ++ ' ' :: '=' :: ' ' :: (d ++ rest)).length + 1 from rfl]
  rw [scanNameValuesAux]
  rw [show (w0 :: (wt ++ ' ' :: '=' :: ' ' :: (d ++ rest)) : List Char) =
    (w0 :: wt) ++ ' ' :: '=' :: ' ' :: (d ++ rest) from rfl]
  rw [parseNameValue_entry (w0 :: wt) d rest hw hwall hd hdall hrest]
  show ((w0 :: wt, d)) ::
      scanNameValuesAux (wt ++ ' ' :: '=' :: ' ' :: (d ++ rest)).length rest =
    ((w0 :: wt, d)) :: scanNameValues rest
  congr 1
  rw [scanNameValuesAux_fuel _ rest (by simp; omega)]
  rfl

/-!
## The rendered text of a block scans back to exactly its table
-/

theorem mem_renderMarker (sp : List Char) (m : RangeMarker) (c : Char)
    (h : c ∈ renderMarker sp m) :
    c ∈ sp ∨ c ∈ m.description ∨ c ∈ natToChars m.start ∨
      c ∈ natToChars m.stop ∨
      c = '\n' ∨ c = '/' ∨ c = '*' ∨ c = ' ' ∨ c = '-' ∨ c = ':' := by
  rw [renderMarker] at h
  simp only [List.mem_cons, List.mem_append, List.not_mem_nil, or_false,
    false_or] at h
  tauto

theorem renderMarker_no_eq (sp : List Char) (m : RangeMarker)
    (hsp : '=' ∉ sp) (hm : '=' ∉ m.description) : '=' ∉ renderMarker sp m := by
  intro hmem
  rcases mem_renderMarker sp m '=' hmem with h | h | h | h | h
  · exact hsp h
  · exact hm h
  · exact digit_ne_eq_char '=' (natToChars_all_digit m.start '=' h) rfl
  · exact digit_ne_eq_char '=' (natToChars_all_digit m.stop '=' h) rfl
  · rcases h with h | h | h | h | h | h <;> exact absurd h (by decide)

theorem markers_flatten_no_eq (sp : List Char) (ms : List RangeMarker)
    (hsp : '=' ∉ sp) (hms : ∀ m ∈ ms, '=' ∉ m.description) :
    '=' ∉ (ms.map (renderMarker sp)).flatten := by
  intro hmem
  rw [List.mem_flatten] at hmem
  obtain ⟨l, hl, hc⟩ := hmem
  rw [List.mem_map] at hl
  obtain ⟨m, hm, rfl⟩ := hl
  exact renderMarker_no_eq sp m hsp (hms m hm) hc

theorem renderEntriesAux_pending_nil (sp : List Char) (lk : Option Nat) :
    ∀ t : EnumTable, (renderEntriesAux sp lk t []).2 = [] := by
  intro t
  induction t with
  | nil => rfl
  | cons p t ih =>
    obtain ⟨id, row⟩ := p
    exact ih

/-- The first non-space character after a fragment opening with a word
identifier is its first character, which is not `=`. -/
theorem head_after_space_of_word (nm rest2 : List Char) (hne : nm ≠ [])
    (hw : ∀ c ∈ nm, isWordChar c) :
    ∀ c, ((nm ++ rest2).dropWhile isSpaceChar).head? = some c → c ≠ '=' := by
  obtain ⟨n0, nt, rfl⟩ := List.exists_cons_of_ne_nil hne
  intro c hc
  rw [List.cons_append, List.dropWhile_cons_of_neg (by
    simp [word_not_space n0 (hw n0 (by simp))])] at hc
  simp at hc
  subst hc
  exact word_ne_eq_char n0 (hw n0 (by simp))

/-- Normal form of one rendered entry with the default spacing: an inert
comment segment, the primary `name = id` fragment, the optional
depreciated-alias fragment and the terminator. -/
theorem renderEntry_decomp (b : Bool) (id : Nat) (row : EnumRow)
    (hc : ∀ cm, row.comment = some cm → '=' ∉ cm) :
    ∃ ct tt : List Char, '=' ∉ ct ∧ (tt = ['\n'] ∨ tt = [',', '\n']) ∧
      ((row.depreciated_enum_name = none ∧
        renderEntry (' ' :: [' ']) b id row =
          ct ++ ' ' :: ' ' :: (row.enum_name ++ ' ' :: '=' :: ' ' ::
            (natToChars id ++ tt))) ∨
       (∃ dv, row.depreciated_enum_name = some dv ∧
        renderEntry (' ' :: [' ']) b id row =
          ct ++ ' ' :: ' ' :: (row.enum_name ++ ' ' :: '=' :: ' ' ::
            (natToChars id ++ (',' :: '\n' :: ' ' :: ' ' ::
              (dv ++ ' ' :: '=' :: ' ' :: (natToChars id ++
                (" /* depreciated but identifier kept for backwards compatibility */".toList
                  ++ tt)))))))) := by
  refine ⟨(match row.comment with
    | some cm => ' ' :: ' ' :: ('/' :: '/' :: ' ' :: (cm ++ ['\n']))
    | none => []),
    if b then ['\n'] else [',', '\n'], ?_, ?_, ?_⟩
  · cases hcc : row.comment with
    | none => simp
    | some cm =>
      show '=' ∉ ' ' :: ' ' :: ('/' :: '/' :: ' ' :: (cm ++ ['\n']))
      intro hmem
      simp only [List.mem_cons, List.mem_append, List.mem_singleton,
        List.not_mem_nil, or_false] at hmem
      rcases hmem with h | h | h | h | h | h | h
      · exact absurd h (by decide)
      · exact absurd h (by decide)
      · exact absurd h (by decide)
      · exact absurd h (by decide)
      · exact absurd h (by decide)
      · exact hc cm hcc h
      · exact absurd h (by decide)
  · cases b <;> simp
  · cases hdd : row.depreciated_enum_name with
    | none =>
      left
      refine ⟨rfl, ?_⟩
      cases hcc : row.comment with
      | none =>
        simp [renderEntry, hcc, hdd, List.append_assoc]
      | some cm =>
        simp [renderEntry, hcc, hdd, List.append_assoc]
    | some dv =>
      right
      refine ⟨dv, rfl, ?_⟩
      cases hcc : row.comment with
      | none =>
        simp [renderEntry, hcc, hdd, List.append_assoc]
      | some cm =>
        simp [renderEntry, hcc, hdd, List.append_assoc]

/-- Main loop: the text that `renderEntriesAux` produces for a table of
hygienic rows, preceded by any `=`-free text and followed by the flush of
the pending markers, scans back to exactly the name/id pairs of the
table. -/
theorem scan_render_loop (lk : Option Nat) :
    ∀ (t : EnumTable) (pending : List RangeMarker) (pre : List Char),
      '=' ∉ pre →
      (∀ m ∈ pending, '=' ∉ m.description) →
      (∀ q ∈ t, MergedRowHygiene q.2) →
      scanNameValues (pre ++
          (renderEntriesAux (' ' :: [' ']) lk t pending).1 ++
          (((renderEntriesAux (' ' :: [' ']) lk t pending).2).map
            (renderMarker (' ' :: [' ']))).flatten) =
        tablePairs t := by
  intro t
  induction t with
  | nil =>
    intro pending pre hpre hpend _
    show scanNameValues (pre ++ [] ++
      (pending.map (renderMarker (' ' :: [' ']))).flatten) = []
    apply scanNameValues_no_eq
    intro hmem
    simp only [List.append_nil, List.mem_append] at hmem
    rcases hmem with h | h
    · exact hpre h
    · exact markers_flatten_no_eq _ pending (by decide) hpend h
  | cons q t ih =>
    obtain ⟨id, row⟩ := q
    intro pending pre hpre hpend hrows
    obtain ⟨hname_ne, hname_w, hcmt, hdep⟩ := hrows (id, row) (by simp)
    have hrows' : ∀ q ∈ t, MergedRowHygiene q.2 :=
      fun q hq => hrows q (List.mem_cons_of_mem _ hq)
    have hpend' : ∀ m ∈ pending.dropWhile (fun m => m.start ≤ id),
        '=' ∉ m.description :=
      fun m hm => hpend m ((List.dropWhile_sublist _).mem hm)
    have hMT : '=' ∉ ((pending.takeWhile (fun m => m.start ≤ id)).map
        (renderMarker (' ' :: [' ']))).flatten :=
      markers_flatten_no_eq _ _ (by decide)
        (fun m hm => hpend m ((List.takeWhile_sublist _).mem hm))
    obtain ⟨ct, tt, hct, htt, hform⟩ :=
      renderEntry_decomp (some id = lk) id row (fun cm h => (hcmt cm h).1)
    have hdig := natToChars_all_digit id
    have hdig_ne := natToChars_ne_nil id
    have htt_ne : '=' ∉ tt := by
      rcases htt with rfl | rfl <;> decide
    show scanNameValues (pre ++
        (((pending.takeWhile (fun m => m.start ≤ id)).map
            (renderMarker (' ' :: [' ']))).flatten ++
          renderEntry (' ' :: [' ']) (some id = lk) id row ++
          (renderEntriesAux (' ' :: [' ']) lk t
            (pending.dropWhile (fun m => m.start ≤ id))).1) ++
        (((renderEntriesAux (' ' :: [' ']) lk t
            (pending.dropWhile (fun m => m.start ≤ id))).2).map
          (renderMarker (' ' :: [' ']))).flatten) =
      tablePairs ((id, row) :: t)
    set MT := ((pending.takeWhile (fun m => m.start ≤ id)).map
      (renderMarker (' ' :: [' ']))).flatten with hMTdef
    set N1 := (renderEntriesAux (' ' :: [' ']) lk t
      (pending.dropWhile (fun m => m.start ≤ id))).1 with hN1
    set FL := (((renderEntriesAux (' ' :: [' ']) lk t
        (pending.dropWhile (fun m => m.start ≤ id))).2).map
      (renderMarker (' ' :: [' ']))).flatten with hFL
    have hTP : tablePairs ((id, row) :: t) =
        rowPairs id row ++ tablePairs t := by
      rw [tablePairs, List.flatMap_cons]
      rfl
    rcases hform with ⟨hdd, hre⟩ | ⟨dv, hdd, hre⟩
    · -- no depreciated alias
      rw [hre]
      rw [show pre ++ (MT ++ (ct ++ ' ' :: ' ' :: (row.enum_name ++
            ' ' :: '=' :: ' ' :: (natToChars id ++ tt))) ++ N1) ++ FL =
          ((pre ++ MT ++ ct ++ [' ']) ++ [' ']) ++
            (row.enum_name ++ ' ' :: '=' :: ' ' ::
              (natToChars id ++ (tt ++ (N1 ++ FL)))) from by
        simp [List.append_assoc]]
      rw [scanNameValues_skip_seg _ ' ' _ (by decide)
        (by
          intro hmem
          rcases List.mem_append.1 hmem with h | h
          · rcases List.mem_append.1 h with h | h
            · rcases List.mem_append.1 h with h | h
              · rcases List.mem_append.1 h with h | h
                · exact hpre h
                · exact hMT h
              · exact hct h
            · exact absurd h (by decide)
          · exact absurd h (by decide))
        (head_after_space_of_word row.enum_name _ hname_ne hname_w)]
      rw [scanNameValues_entry row.enum_name (natToChars id) _ hname_ne
        hname_w hdig_ne hdig
        (by
          intro c hcx
          rcases htt with rfl | rfl
          · rw [show (['\n'] ++ (N1 ++ FL) : List Char) =
              '\n' :: (N1 ++ FL) from rfl] at hcx
            simp at hcx
            subst hcx
            decide
          · rw [show (([',', '\n'] ++ (N1 ++ FL)) : List Char) =
              ',' :: ('\n' :: (N1 ++ FL)) from rfl] at hcx
            simp at hcx
            subst hcx
            decide)]
      rw [hTP, show rowPairs id row = [(row.enum_name, natToChars id)] from by
        simp [rowPairs, rowNames, hdd]]
      rw [show (tt ++ (N1 ++ FL) : List Char) = tt ++ N1 ++ FL from by
        simp [List.append_assoc]]
      rw [ih _ tt htt_ne hpend' hrows']
      rfl
    · -- with a depreciated alias
      obtain ⟨hdv_ne, hdv_w, hdv_nee⟩ := hdep dv hdd
      rw [hre]
      rw [show pre ++ (MT ++ (ct ++ ' ' :: ' ' :: (row.enum_name ++
            ' ' :: '=' :: ' ' :: (natToChars id ++ (',' :: '\n' :: ' ' :: ' ' ::
              (dv ++ ' ' :: '=' :: ' ' :: (natToChars id ++
                (" /* depreciated but identifier kept for backwards compatibility */".toList
                  ++ tt))))))) ++ N1) ++ FL =
          ((pre ++ MT ++ ct ++ [' ']) ++ [' ']) ++
            (row.enum_name ++ ' ' :: '=' :: ' ' ::
              (natToChars id ++ (',' :: '\n' :: ' ' :: ' ' ::
                (dv ++ ' ' :: '=' :: ' ' :: (natToChars id ++
                  (" /* depreciated but identifier kept for backwards compatibility */".toList
                    ++ (tt ++ (N1 ++ FL)))))))) from by
        simp [List.append_assoc]]
      rw [scanNameValues_skip_seg _ ' ' _ (by decide)
        (by
          intro hmem
          rcases List.mem_append.1 hmem with h | h
          · rcases List.mem_append.1 h with h | h
            · rcases List.mem_append.1 h with h | h
              · rcases List.mem_append.1 h with h | h
                · exact hpre h
                · exact hMT h
              · exact hct h
            · exact absurd h (by decide)
          · exact absurd h (by decide))
        (head_after_space_of_word row.enum_name _ hname_ne hname_w)]
      rw [scanNameValues_entry row.enum_name (natToChars id) _ hname_ne
        hname_w hdig_ne hdig
        (by
          intro c hcx
          rw [show ((',' :: '\n' :: ' ' :: ' ' ::
            (dv ++ ' ' :: '=' :: ' ' :: (natToChars id ++
              (" /* depreciated but identifier kept for backwards compatibility */".toList
                ++ (tt ++ (N1 ++ FL))))) : List Char)).head? = some ',' from rfl] at hcx
          simp at hcx
          subst hcx
          decide)]
      rw [show (',' :: '\n' :: ' ' :: ' ' ::
          (dv ++ ' ' :: '=' :: ' ' :: (natToChars id ++
            (" /* depreciated but identifier kept for backwards compatibility */".toList
              ++ (tt ++ (N1 ++ FL))))) : List Char) =
        (([',', '\n', ' '] ++ [' ']) ++
          (dv ++ ' ' :: '=' :: ' ' :: (natToChars id ++
            (" /* depreciated but identifier kept for backwards compatibility */".toList
              ++ (tt ++ (N1 ++ FL)))))) from by simp]
      rw [scanNameValues_skip_seg _ ' ' _ (by decide) (by decide)
        (head_after_space_of_word dv _ hdv_ne hdv_w)]
      rw [scanNameValues_entry dv (natToChars id) _ hdv_ne hdv_w hdig_ne hdig
        (by
          intro c hcx
          rw [show ((" /* depreciated but identifier kept for backwards compatibility */".toList
              ++ (tt ++ (N1 ++ FL))) : List Char).head? = some ' ' from rfl] at hcx
          simp at hcx
          subst hcx
          decide)]
      rw [hTP, show rowPairs id row =
          [(row.enum_name, natToChars id), (dv, natToChars id)] from by
        simp [rowPairs, rowNames, hdd]]
      rw [show (" /* depreciated but identifier kept for backwards compatibility */".toList
          ++ (tt ++ (N1 ++ FL)) : List Char) =
        (" /* depreciated but identifier kept for backwards compatibility */".toList
          ++ tt) ++ N1 ++ FL from by simp [List.append_assoc]]
      rw [ih _ _ (by
        intro hmem
        rw [List.mem_append] at hmem
        rcases hmem with h | h
        · exact absurd h (by decide)
        · exact htt_ne h) hpend' hrows']
      rfl

/-!
## Sorted association lists: structural lemmas
-/

theorem keysSorted_cons {α : Type} (id : Nat) (a : α) (t : List (Nat × α)) :
    keysSorted ((id, a) :: t) ↔ (∀ q ∈ t, id < q.1) ∧ keysSorted t := by
  induction t generalizing id a with
  | nil => simp [keysSorted]
  | cons q t ih =>
    obtain ⟨k, b⟩ := q
    constructor
    · intro h
      rw [keysSorted, List.chain'_cons] at h
      have h2 := (ih k b).1 h.2
      refine ⟨?_, h.2⟩
      intro q hq
      rcases List.mem_cons.1 hq with rfl | hq
      · exact h.1
      · have := h2.1 q hq
        have := h.1
        omega
    · intro h
      rw [keysSorted, List.chain'_cons]
      exact ⟨h.1 (k, b) (by simp), h.2⟩

theorem keysSorted_nodup {α : Type} (t : List (Nat × α)) (h : keysSorted t) :
    (t.map Prod.fst).Nodup := by
  induction t with
  | nil => simp
  | cons q t ih =>
    obtain ⟨k, b⟩ := q
    rw [keysSorted_cons] at h
    simp only [List.map_cons, List.nodup_cons]
    refine ⟨?_, ih h.2⟩
    intro hmem
    rw [List.mem_map] at hmem
    obtain ⟨q, hq, hq2⟩ := hmem
    have := h.1 q hq
    omega

theorem mem_extInsert_keys (id : Nat) (n : List Char) :
    ∀ (m : ExtMap) (q : Nat × List (List Char)), q ∈ extInsert id n m →
      q.1 = id ∨ q.1 ∈ m.map Prod.fst := by
  intro m
  induction m with
  | nil =>
    intro q hq
    simp [extInsert] at hq
    exact Or.inl (by rw [hq])
  | cons p m ih =>
    obtain ⟨k, ns⟩ := p
    intro q hq
    rw [extInsert] at hq
    by_cases h1 : id < k
    · rw [if_pos h1] at hq
      rcases List.mem_cons.1 hq with rfl | hq
      · exact Or.inl rfl
      · rcases List.mem_cons.1 hq with rfl | hq
        · right
          simp
        · right
          simp only [List.map_cons, List.mem_cons]
          exact Or.inr (List.mem_map_of_mem Prod.fst hq)
    · rw [if_neg h1] at hq
      by_cases h2 : id = k
      · rw [if_pos h2] at hq
        rcases List.mem_cons.1 hq with rfl | hq
        · right
          simp [h2]
        · right
          simp only [List.map_cons, List.mem_cons]
          exact Or.inr (List.mem_map_of_mem Prod.fst hq)
      · rw [if_neg h2] at hq
        rcases List.mem_cons.1 hq with rfl | hq
        · right
          simp
        · rcases ih q hq with heq | hmem
          · exact Or.inl heq
          · right
            simp only [List.map_cons, List.mem_cons]
            exact Or.inr hmem

theorem extInsert_keysSorted (id : Nat) (n : List Char) :
    ∀ m : ExtMap, keysSorted m → keysSorted (extInsert id n m) := by
  intro m
  induction m with
  | nil =>
    intro _
    simp [extInsert, keysSorted]
  | cons q m ih =>
    obtain ⟨k, ns⟩ := q
    intro h
    rw [keysSorted_cons] at h
    rw [extInsert]
    by_cases h1 : id < k
    · rw [if_pos h1, keysSorted_cons]
      refine ⟨?_, (keysSorted_cons k ns m).2 h⟩
      intro q hq
      rcases List.mem_cons.1 hq with rfl | hq
      · exact h1
      · have := h.1 q hq
        omega
    · rw [if_neg h1]
      by_cases h2 : id = k
      · rw [if_pos h2, keysSorted_cons]
        exact h
      · rw [if_neg h2, keysSorted_cons]
        refine ⟨?_, ih h.2⟩
        intro q hq
        rcases mem_extInsert_keys id n m q hq with heq | hmem
        · omega
        · rw [List.mem_map] at hmem
          obtain ⟨q', hq', hq'2⟩ := hmem
          have := h.1 q' hq'
          omega

theorem foldl_extInsert_keysSorted (pairs : List (List Char × List Char)) :
    ∀ m : ExtMap, keysSorted m →
      keysSorted (pairs.foldl (fun m p => extInsert (charsToNat p.2) p.1 m) m) := by
  induction pairs with
  | nil =>
    intro m h
    exact h
  | cons p ps ih =>
    intro m h
    rw [List.foldl_cons]
    exact ih _ (extInsert_keysSorted _ _ m h)

theorem extractEnumValues_keysSorted (content : List Char) :
    keysSorted (extractEnumValues content) :=
  foldl_extInsert_keysSorted _ [] (by simp [keysSorted])

theorem extInsert_append_new (id : Nat) (n : List Char) :
    ∀ m : ExtMap, (∀ k ∈ m.map Prod.fst, k < id) →
      extInsert id n m = m ++ [(id, [n])] := by
  intro m
  induction m with
  | nil =>
    intro _
    rfl
  | cons p m ih =>
    obtain ⟨k, ns⟩ := p
    intro h
    have hk : k < id := h k (by simp)
    rw [extInsert, if_neg (by omega), if_neg (by omega), List.cons_append,
      ih (fun k2 hk2 => h k2 (by
        simp only [List.map_cons, List.mem_cons]
        exact Or.inr hk2))]

theorem extInsert_append_last (id : Nat) (n : List Char) (ns : List (List Char)) :
    ∀ m : ExtMap, (∀ k ∈ m.map Prod.fst, k < id) →
      extInsert id n (m ++ [(id, ns)]) = m ++ [(id, ns ++ [n])] := by
  intro m
  induction m with
  | nil =>
    intro _
    rw [List.nil_append, List.nil_append, extInsert, if_neg (lt_irrefl id),
      if_pos rfl]
  | cons p m ih =>
    obtain ⟨k, ns2⟩ := p
    intro h
    have hk : k < id := h k (by simp)
    rw [List.cons_append, extInsert, if_neg (by omega), if_neg (by omega),
      ih (fun k2 hk2 => h k2 (by
        simp only [List.map_cons, List.mem_cons]
        exact Or.inr hk2)), List.cons_append]

/-- Folding the scanned pairs of a rendered table through the extractor
dict-append rebuilds exactly the per-id name lists of the table. -/
theorem foldl_extInsert_tablePairs :
    ∀ (t : EnumTable) (m : ExtMap), keysSorted t →
      (∀ k ∈ m.map Prod.fst, ∀ q ∈ t, k < q.1) →
      (tablePairs t).foldl (fun m p => extInsert (charsToNat p.2) p.1 m) m =
        m ++ extMapOf t := by
  intro t
  induction t with
  | nil =>
    intro m _ _
    simp [tablePairs, extMapOf]
  | cons q t ih =>
    obtain ⟨id, row⟩ := q
    intro m hs hlt
    rw [keysSorted_cons] at hs
    have hmkeys : ∀ k ∈ m.map Prod.fst, k < id :=
      fun k hk => hlt k hk (id, row) (by simp)
    rw [show tablePairs ((id, row) :: t) = rowPairs id row ++ tablePairs t from by
      rw [tablePairs, List.flatMap_cons]
      rfl]
    rw [List.foldl_append]
    have hinner : (rowPairs id row).foldl
        (fun m p => extInsert (charsToNat p.2) p.1 m) m =
        m ++ [(id, rowNames row)] := by
      cases hdd : row.depreciated_enum_name with
      | none =>
        rw [show rowPairs id row = [(row.enum_name, natToChars id)] from by
          simp [rowPairs, rowNames, hdd]]
        rw [List.foldl_cons, List.foldl_nil, charsToNat_natToChars,
          extInsert_append_new id _ m hmkeys,
          show rowNames row = [row.enum_name] from by simp [rowNames, hdd]]
      | some dv =>
        rw [show rowPairs id row =
            [(row.enum_name, natToChars id), (dv, natToChars id)] from by
          simp [rowPairs, rowNames, hdd]]
        rw [List.foldl_cons, List.foldl_cons, List.foldl_nil,
          charsToNat_natToChars, extInsert_append_new id _ m hmkeys,
          extInsert_append_last id dv [row.enum_name] m hmkeys,
          show rowNames row = [row.enum_name, dv] from by simp [rowNames, hdd]]
        rfl
    rw [hinner]
    have hcond : ∀ k ∈ (m ++ [(id, rowNames row)]).map Prod.fst,
        ∀ q ∈ t, k < q.1 := by
      intro k hk q hq
      rw [List.map_append] at hk
      rcases List.mem_append.1 hk with hk | hk
      · exact hlt k hk q (List.mem_cons_of_mem _ hq)
      · simp at hk
        subst hk
        exact hs.1 q hq
    rw [ih (m ++ [(id, rowNames row)]) hs.2 hcond]
    rw [show extMapOf ((id, row) :: t) = (id, rowNames row) :: extMapOf t from rfl]
    simp [List.append_assoc]

theorem extLookup_extMapOf (id : Nat) :
    ∀ t : EnumTable,
      extLookup id (extMapOf t) = (tableLookup id t).map rowNames := by
  intro t
  induction t with
  | nil => rfl
  | cons q t ih =>
    obtain ⟨k, row⟩ := q
    rw [show extMapOf ((k, row) :: t) = (k, rowNames row) :: extMapOf t from rfl,
      extLookup, tableLookup]
    by_cases h : id = k
    · rw [if_pos h, if_pos h]
      rfl
    · rw [if_neg h, if_neg h, ih]

theorem extMapOf_keys :
    ∀ t : EnumTable, (extMapOf t).map Prod.fst = t.map Prod.fst := by
  intro t
  induction t with
  | nil => rfl
  | cons q t ih =>
    obtain ⟨k, r⟩ := q
    rw [show extMapOf ((k, r) :: t) = (k, rowNames r) :: extMapOf t from rfl,
      List.map_cons, List.map_cons, ih]

theorem tableLookup_none_of_lt_keys (id : Nat) :
    ∀ t : EnumTable, (∀ q ∈ t, id < q.1) → tableLookup id t = none := by
  intro t
  induction t with
  | nil =>
    intro _
    rfl
  | cons q t ih =>
    obtain ⟨k, r⟩ := q
    intro h
    rw [tableLookup, if_neg (by
        have := h (k, r) (by simp)
        omega),
      ih (fun q hq => h q (List.mem_cons_of_mem _ hq))]

theorem tableLookup_cons_self (k : Nat) (r : EnumRow) (t : EnumTable) :
    tableLookup k ((k, r) :: t) = some r := by
  rw [tableLookup, if_pos rfl]

/-- Two sorted tables with the same lookups are equal. -/
theorem tableExt : ∀ (t₁ t₂ : EnumTable), keysSorted t₁ → keysSorted t₂ →
    (∀ id, tableLookup id t₁ = tableLookup id t₂) → t₁ = t₂ := by
  intro t₁
  induction t₁ with
  | nil =>
    intro t₂ _ hs2 h
    cases t₂ with
    | nil => rfl
    | cons q t₂ =>
      obtain ⟨k, r⟩ := q
      exfalso
      have h1 := h k
      rw [tableLookup_cons_self,
        show tableLookup k ([] : EnumTable) = none from rfl] at h1
      exact Option.noConfusion h1
  | cons q t₁ ih =>
    obtain ⟨k₁, r₁⟩ := q
    intro t₂ hs1 hs2 h
    cases t₂ with
    | nil =>
      exfalso
      have h1 := h k₁
      rw [tableLookup_cons_self,
        show tableLookup k₁ ([] : EnumTable) = none from rfl] at h1
      exact Option.noConfusion h1
    | cons q₂ t₂ =>
      obtain ⟨k₂, r₂⟩ := q₂
      rw [keysSorted_cons] at hs1 hs2
      have hkk : k₁ = k₂ := by
        by_contra hne
        rcases Nat.lt_or_ge k₁ k₂ with hlt | hge
        · have h1 := h k₁
          rw [tableLookup_cons_self,
            show tableLookup k₁ ((k₂, r₂) :: t₂) = tableLookup k₁ t₂ from by
              rw [tableLookup, if_neg (by omega)],
            tableLookup_none_of_lt_keys k₁ t₂ (fun q hq => by
              have := hs2.1 q hq
              omega)] at h1
          exact Option.noConfusion h1
        · have hlt2 : k₂ < k₁ := by omega
          have h1 := (h k₂).symm
          rw [tableLookup_cons_self,
            show tableLookup k₂ ((k₁, r₁) :: t₁) = tableLookup k₂ t₁ from by
              rw [tableLookup, if_neg (by omega)],
            tableLookup_none_of_lt_keys k₂ t₁ (fun q hq => by
              have := hs1.1 q hq
              omega)] at h1
          exact Option.noConfusion h1
      subst hkk
      have hrr : r₁ = r₂ := by
        have h1 := h k₁
        rw [tableLookup_cons_self, tableLookup_cons_self] at h1
        injection h1
      subst hrr
      congr 1
      apply ih t₂ hs1.2 hs2.2
      intro id
      by_cases hid : id = k₁
      · subst hid
        rw [tableLookup_none_of_lt_keys id t₁ (fun q hq => hs1.1 q hq),
          tableLookup_none_of_lt_keys id t₂ (fun q hq => hs2.1 q hq)]
      · have h1 := h id
        rw [tableLookup, if_neg hid, tableLookup, if_neg hid] at h1
        exact h1

/-!
## Sortedness of the merged table
-/

theorem mem_tableInsert_keys (id : Nat) (row : EnumRow) :
    ∀ (t : EnumTable) (q : Nat × EnumRow), q ∈ tableInsert id row t →
      q.1 = id ∨ q.1 ∈ t.map Prod.fst := by
  intro t
  induction t with
  | nil =>
    intro q hq
    simp [tableInsert] at hq
    exact Or.inl (by rw [hq])
  | cons p t ih =>
    obtain ⟨k, r⟩ := p
    intro q hq
    rw [tableInsert] at hq
    by_cases h1 : id < k
    · rw [if_pos h1] at hq
      rcases List.mem_cons.1 hq with rfl | hq
      · exact Or.inl rfl
      · rcases List.mem_cons.1 hq with rfl | hq
        · right
          simp
        · right
          simp only [List.map_cons, List.mem_cons]
          exact Or.inr (List.mem_map_of_mem Prod.fst hq)
    · rw [if_neg h1] at hq
      by_cases h2 : id = k
      · rw [if_pos h2] at hq
        rcases List.mem_cons.1 hq with rfl | hq
        · exact Or.inl rfl
        · right
          simp only [List.map_cons, List.mem_cons]
          exact Or.inr (List.mem_map_of_mem Prod.fst hq)
      · rw [if_neg h2] at hq
        rcases List.mem_cons.1 hq with rfl | hq
        · right
          simp
        · rcases ih q hq with heq | hmem
          · exact Or.inl heq
          · right
            simp only [List.map_cons, List.mem_cons]
            exact Or.inr hmem

theorem tableInsert_keysSorted (id : Nat) (row : EnumRow) :
    ∀ t : EnumTable, keysSorted t → keysSorted (tableInsert id row t) := by
  intro t
  induction t with
  | nil =>
    intro _
    simp [tableInsert, keysSorted]
  | cons q t ih =>
    obtain ⟨k, r⟩ := q
    intro h
    rw [keysSorted_cons] at h
    rw [tableInsert]
    by_cases h1 : id < k
    · rw [if_pos h1, keysSorted_cons]
      refine ⟨?_, (keysSorted_cons k r t).2 h⟩
      intro q hq
      rcases List.mem_cons.1 hq with rfl | hq
      · exact h1
      · have := h.1 q hq
        omega
    · rw [if_neg h1]
      by_cases h2 : id = k
      · rw [if_pos h2, keysSorted_cons]
        subst h2
        exact h
      · rw [if_neg h2, keysSorted_cons]
        refine ⟨?_, ih h.2⟩
        intro q hq
        rcases mem_tableInsert_keys id row t q hq with heq | hmem
        · omega
        · rw [List.mem_map] at hmem
          obtain ⟨q', hq', hq'2⟩ := hmem
          have := h.1 q' hq'
          omega

theorem mergeExistingName_keysSorted (supp : Bool) (t : EnumTable) (id : Nat)
    (n : List Char) (h : keysSorted t) :
    keysSorted (mergeExistingName supp t id n) := by
  rw [mergeExistingName]
  split
  · split
    · split
      · exact tableInsert_keysSorted _ _ t h
      · exact tableInsert_keysSorted _ _ t h
    · exact h
  · exact tableInsert_keysSorted _ _ t h

theorem foldNames_keysSorted (supp : Bool) (id : Nat) (names : List (List Char)) :
    ∀ t : EnumTable, keysSorted t →
      keysSorted (names.foldl (fun a n => mergeExistingName supp a id n) t) := by
  induction names with
  | nil =>
    intro t h
    exact h
  | cons n ns ih =>
    intro t h
    rw [List.foldl_cons]
    exact ih _ (mergeExistingName_keysSorted supp t id n h)

theorem overrideMerge_keysSorted (supp : Bool) (existing : ExtMap) :
    ∀ t : EnumTable, keysSorted t → keysSorted (overrideMerge supp t existing) := by
  induction existing with
  | nil =>
    intro t h
    exact h
  | cons p rest ih =>
    obtain ⟨k, names⟩ := p
    intro t h
    rw [overrideMerge, List.foldl_cons]
    rw [show (List.foldl
        (fun acc p => p.2.foldl (fun a n => mergeExistingName supp a p.1 n) acc)
        (names.foldl (fun a n => mergeExistingName supp a k n) t) rest) =
      overrideMerge supp (names.foldl (fun a n => mergeExistingName supp a k n) t) rest
      from rfl]
    exact ih _ (foldNames_keysSorted supp k names t h)

/-!
## Re-merging the extraction of a merged table changes nothing
-/

theorem lastDifferingName_spec (primary d : List Char) :
    ∀ (ns : List (List Char)) (dflt : Option (List Char)),
      lastDifferingName primary dflt ns = some d →
      (d ≠ primary ∧ d ∈ ns) ∨ dflt = some d := by
  intro ns
  induction ns with
  | nil =>
    intro dflt h
    exact Or.inr h
  | cons n ns ih =>
    intro dflt h
    rw [lastDifferingName, List.foldl_cons] at h
    have h2 := ih (if n ≠ primary then some n else dflt) (by
      rw [lastDifferingName]
      exact h)
    rcases h2 with ⟨hne, hmem⟩ | hd
    · exact Or.inl ⟨hne, List.mem_cons_of_mem _ hmem⟩
    · by_cases hn : n ≠ primary
      · rw [if_pos hn] at hd
        injection hd with hd
        subst hd
        exact Or.inl ⟨hn, by simp⟩
      · rw [if_neg hn] at hd
        exact Or.inr hd

/-- Re-merging the extraction map of an already merged table into the same
fresh table reproduces the merged table: the per-id name lists of the
merged table are absorbed without change. -/
theorem overrideMerge_remerge (fresh : EnumTable) (ext0 : ExtMap)
    (hsf : keysSorted fresh)
    (hfr : ∀ q ∈ fresh, q.2.depreciated_enum_name = none)
    (hnd0 : (ext0.map Prod.fst).Nodup) :
    overrideMerge true fresh (extMapOf (overrideMerge true fresh ext0)) =
      overrideMerge true fresh ext0 := by
  have hm1s : keysSorted (overrideMerge true fresh ext0) :=
    overrideMerge_keysSorted true ext0 fresh hsf
  have hnd1 : ((extMapOf (overrideMerge true fresh ext0)).map Prod.fst).Nodup := by
    rw [extMapOf_keys]
    exact keysSorted_nodup _ hm1s
  apply tableExt _ _ (overrideMerge_keysSorted true _ fresh hsf) hm1s
  intro id
  rw [tableLookup_overrideMerge true _ id hnd1 fresh, extLookup_extMapOf]
  cases hm1 : tableLookup id (overrideMerge true fresh ext0) with
  | none =>
    show tableLookup id fresh = none
    cases hext : extLookup id ext0 with
    | none =>
      have hchar :=
        tableLookup_overrideMerge_of_extLookup_none true ext0 id hnd0 hext fresh
      rw [hchar] at hm1
      exact hm1
    | some ns =>
      have hchar :=
        tableLookup_overrideMerge_of_extLookup true ext0 id ns hnd0 hext fresh
      rw [hm1] at hchar
      cases hf : tableLookup id fresh with
      | none => rfl
      | some row =>
        rw [hf, mergeNamesRow_true_some] at hchar
        exact Option.noConfusion hchar
  | some row1 =>
    show mergeNamesRow true (tableLookup id fresh) (rowNames row1) = some row1
    cases hext : extLookup id ext0 with
    | none =>
      have hchar :=
        tableLookup_overrideMerge_of_extLookup_none true ext0 id hnd0 hext fresh
      rw [hchar] at hm1
      rw [hm1]
      have hdep : row1.depreciated_enum_name = none :=
        hfr (id, row1) (tableLookup_some_mem id fresh row1 hm1)
      rw [show rowNames row1 = [row1.enum_name] from by simp [rowNames, hdep],
        mergeNamesRow_true_some,
        show lastDifferingName row1.enum_name row1.depreciated_enum_name
            [row1.enum_name] = row1.depreciated_enum_name from by
          simp only [lastDifferingName, List.foldl_cons, List.foldl_nil]
          rw [if_neg (by simp)]]
    | some ns =>
      have hchar :=
        tableLookup_overrideMerge_of_extLookup true ext0 id ns hnd0 hext fresh
      rw [hm1] at hchar
      cases hf : tableLookup id fresh with
      | some row0 =>
        rw [hf, mergeNamesRow_true_some] at hchar
        have hdep0 : row0.depreciated_enum_name = none :=
          hfr (id, row0) (tableLookup_some_mem id fresh row0 hf)
        injection hchar with hchar2
        rw [hdep0] at hchar2
        cases hL : lastDifferingName row0.enum_name none ns with
        | none =>
          rw [hL] at hchar2
          have hrow1 : row1 = row0 := by
            rw [hchar2, ← hdep0]
          rw [hrow1,
            show rowNames row0 = [row0.enum_name] from by simp [rowNames, hdep0],
            mergeNamesRow_true_some,
            show lastDifferingName row0.enum_name row0.depreciated_enum_name
                [row0.enum_name] = row0.depreciated_enum_name from by
              simp only [lastDifferingName, List.foldl_cons, List.foldl_nil]
              rw [if_neg (by simp)]]
        | some d =>
          rw [hL] at hchar2
          have hdne : d ≠ row0.enum_name := by
            rcases lastDifferingName_spec row0.enum_name d ns none hL with
              ⟨hne, _⟩ | hb
            · exact hne
            · exact Option.noConfusion hb
          rw [hchar2,
            show rowNames { row0 with depreciated_enum_name := some d } =
              [row0.enum_name, d] from by simp [rowNames],
            mergeNamesRow_true_some,
            show lastDifferingName row0.enum_name row0.depreciated_enum_name
                [row0.enum_name, d] = some d from by
              simp only [lastDifferingName, List.foldl_cons, List.foldl_nil]
              rw [if_pos hdne]]
      | none =>
        rw [hf] at hchar
        cases ns with
        | nil =>
          rw [show mergeNamesRow true none ([] : List (List Char)) = none
            from rfl] at hchar
          exact Option.noConfusion hchar
        | cons n1 ns2 =>
          rw [mergeNamesRow_true_none] at hchar
          injection hchar with hchar2
          cases hL : lastDifferingName n1 none ns2 with
          | none =>
            rw [hL] at hchar2
            rw [hchar2,
              show rowNames ⟨n1, none, none⟩ = [n1] from rfl,
              mergeNamesRow_true_none]
            rfl
          | some d =>
            rw [hL] at hchar2
            have hdne : d ≠ n1 := by
              rcases lastDifferingName_spec n1 d ns2 none hL with ⟨hne, _⟩ | hb
              · exact hne
              · exact Option.noConfusion hb
            rw [hchar2,
              show rowNames ⟨n1, none, some d⟩ = [n1, d] from rfl,
              mergeNamesRow_true_none,
              show lastDifferingName n1 none [d] = some d from by
                simp only [lastDifferingName, List.foldl_cons, List.foldl_nil]
                rw [if_pos hdne]]

/-!
## Hygiene of extracted names and merged rows
-/

theorem scanNameValuesAux_names_word :
    ∀ (fuel : Nat) (l : List Char) (p : List Char × List Char),
      p ∈ scanNameValuesAux fuel l → p.1 ≠ [] ∧ ∀ c ∈ p.1, isWordChar c := by
  intro fuel
  induction fuel with
  | zero =>
    intro l p hp
    simp [scanNameValuesAux] at hp
  | succ fuel ih =>
    intro l p hp
    cases l with
    | nil => simp [scanNameValuesAux] at hp
    | cons c cs =>
      rw [scanNameValuesAux] at hp
      cases hparse : parseNameValue (c :: cs) with
      | none =>
        rw [hparse] at hp
        have hp2 : p ∈ scanNameValuesAux fuel cs := hp
        exact ih cs p hp2
      | some pr =>
        obtain ⟨⟨w, dd⟩, rest⟩ := pr
        rw [hparse] at hp
        have hp2 : p ∈ (w, dd) :: scanNameValuesAux fuel rest := hp
        rcases List.mem_cons.1 hp2 with rfl | hp3
        · have hs := parseNameValue_some_shape (c :: cs) w dd rest hparse
          exact ⟨hs.2.1, hs.2.2.2.1⟩
        · exact ih rest p hp3

theorem extInsert_names (id : Nat) (n : List Char) :
    ∀ (m : ExtMap) (k : Nat) (ns : List (List Char)) (x : List Char),
      extLookup k (extInsert id n m) = some ns → x ∈ ns →
      x = n ∨ ∃ ns0, extLookup k m = some ns0 ∧ x ∈ ns0 := by
  intro m
  induction m with
  | nil =>
    intro k ns x hl hx
    rw [show extInsert id n [] = [(id, [n])] from rfl, extLookup] at hl
    by_cases hk : k = id
    · rw [if_pos hk] at hl
      injection hl with hl
      subst hl
      left
      simpa using hx
    · rw [if_neg hk] at hl
      exact Option.noConfusion hl
  | cons p m ih =>
    obtain ⟨k2, ns2⟩ := p
    intro k ns x hl hx
    rw [extInsert] at hl
    by_cases h1 : id < k2
    · rw [if_pos h1, extLookup] at hl
      by_cases hk : k = id
      · rw [if_pos hk] at hl
        injection hl with hl
        subst hl
        left
        simpa using hx
      · rw [if_neg hk] at hl
        exact Or.inr ⟨ns, hl, hx⟩
    · rw [if_neg h1] at hl
      by_cases h2 : id = k2
      · rw [if_pos h2, extLookup] at hl
        by_cases hk : k = k2
        · rw [if_pos hk] at hl
          injection hl with hl
          subst hl
          rcases List.mem_append.1 hx with hx | hx
          · right
            refine ⟨ns2, ?_, hx⟩
            rw [extLookup, if_pos hk]
          · left
            simpa using hx
        · rw [if_neg hk] at hl
          right
          refine ⟨ns, ?_, hx⟩
          rw [extLookup, if_neg hk]
          exact hl
      · rw [if_neg h2, extLookup] at hl
        by_cases hk : k = k2
        · rw [if_pos hk] at hl
          injection hl with hl
          right
          refine ⟨ns2, ?_, ?_⟩
          · rw [extLookup, if_pos hk]
          · rw [← hl] at hx
            exact hx
        · rw [if_neg hk] at hl
          rcases ih k ns x hl hx with h | ⟨ns0, hns0, hx0⟩
          · exact Or.inl h
          · right
            refine ⟨ns0, ?_, hx0⟩
            rw [extLookup, if_neg hk]
            exact hns0

theorem foldl_extInsert_names (Q : List Char → Prop) :
    ∀ (pairs : List (List Char × List Char)) (m : ExtMap),
      (∀ p ∈ pairs, Q p.1) →
      (∀ k ns x, extLookup k m = some ns → x ∈ ns → Q x) →
      ∀ k ns x,
        extLookup k (pairs.foldl (fun m p => extInsert (charsToNat p.2) p.1 m) m) =
          some ns → x ∈ ns → Q x := by
  intro pairs
  induction pairs with
  | nil =>
    intro m _ hm k ns x hl hx
    exact hm k ns x hl hx
  | cons p ps ih =>
    intro m hp hm k ns x hl hx
    rw [List.foldl_cons] at hl
    refine ih (extInsert (charsToNat p.2) p.1 m)
      (fun q hq => hp q (List.mem_cons_of_mem _ hq)) ?_ k ns x hl hx
    intro k2 ns2 x2 hl2 hx2
    rcases extInsert_names (charsToNat p.2) p.1 m k2 ns2 x2 hl2 hx2 with
      h | ⟨ns0, hns0, hx0⟩
    · rw [h]
      exact hp p (by simp)
    · exact hm k2 ns0 x2 hns0 hx0

theorem extractEnumValues_names (content : List Char) (k : Nat)
    (ns : List (List Char)) (x : List Char)
    (hl : extLookup k (extractEnumValues content) = some ns) (hx : x ∈ ns) :
    x ≠ [] ∧ ∀ c ∈ x, isWordChar c := by
  refine foldl_extInsert_names (fun nm => nm ≠ [] ∧ ∀ c ∈ nm, isWordChar c)
    (scanNameValues content) [] ?_ ?_ k ns x hl hx
  · intro p hp
    exact scanNameValuesAux_names_word _ _ p hp
  · intro k2 ns2 x2 hl2 _
    exact Option.noConfusion hl2

theorem tableLookup_of_mem_sorted :
    ∀ t : EnumTable, keysSorted t → ∀ q ∈ t, tableLookup q.1 t = some q.2 := by
  intro t
  induction t with
  | nil =>
    intro _ q hq
    simp at hq
  | cons p t ih =>
    obtain ⟨k, r⟩ := p
    intro hs q hq
    rw [keysSorted_cons] at hs
    rcases List.mem_cons.1 hq with rfl | hq
    · exact tableLookup_cons_self k r t
    · rw [tableLookup, if_neg (by
        have := hs.1 q hq
        omega)]
      exact ih hs.2 q hq

/-- Every row of the merged table is hygienic: fresh rows carry their
hygiene over, and rows or aliases created from scanned names are nonempty
word identifiers, with the alias always differing from the primary name. -/
theorem overrideMerge_rows_hygiene (fresh : EnumTable) (ext0 : ExtMap)
    (hsf : keysSorted fresh)
    (hfr : ∀ q ∈ fresh, RowHygiene q.2)
    (hnd0 : (ext0.map Prod.fst).Nodup)
    (hext_names : ∀ k ns x, extLookup k ext0 = some ns → x ∈ ns →
      x ≠ [] ∧ ∀ c ∈ x, isWordChar c) :
    ∀ q ∈ overrideMerge true fresh ext0, MergedRowHygiene q.2 := by
  intro q hq
  have hms : keysSorted (overrideMerge true fresh ext0) :=
    overrideMerge_keysSorted true ext0 fresh hsf
  have hlq := tableLookup_of_mem_sorted _ hms q hq
  cases hext : extLookup q.1 ext0 with
  | none =>
    have hchar :=
      tableLookup_overrideMerge_of_extLookup_none true ext0 q.1 hnd0 hext fresh
    rw [hlq] at hchar
    have hmem := tableLookup_some_mem q.1 fresh q.2 hchar.symm
    obtain ⟨h1, h2, h3, h4⟩ := hfr (q.1, q.2) hmem
    refine ⟨h1, h2, h4, ?_⟩
    intro d hd
    rw [h3] at hd
    exact Option.noConfusion hd
  | some ns =>
    have hchar :=
      tableLookup_overrideMerge_of_extLookup true ext0 q.1 ns hnd0 hext fresh
    rw [hlq] at hchar
    cases hf : tableLookup q.1 fresh with
    | some row0 =>
      rw [hf, mergeNamesRow_true_some] at hchar
      injection hchar with hc2
      obtain ⟨h1, h2, h3, h4⟩ := hfr (q.1, row0) (tableLookup_some_mem _ _ _ hf)
      rw [hc2]
      refine ⟨h1, h2, ?_, ?_⟩
      · intro cm hcm
        exact h4 cm hcm
      · intro d hd
        have hd2 : lastDifferingName row0.enum_name
            row0.depreciated_enum_name ns = some d := hd
        rw [h3] at hd2
        rcases lastDifferingName_spec row0.enum_name d ns none hd2 with
          ⟨hne, hmem⟩ | hb
        · have hx := hext_names q.1 ns d hext hmem
          exact ⟨hx.1, hx.2, hne⟩
        · exact Option.noConfusion hb
    | none =>
      rw [hf] at hchar
      cases ns with
      | nil =>
        rw [show mergeNamesRow true none ([] : List (List Char)) = none
          from rfl] at hchar
        exact Option.noConfusion hchar
      | cons n1 ns2 =>
        rw [mergeNamesRow_true_none] at hchar
        injection hchar with hc2
        have hn1 := hext_names q.1 (n1 :: ns2) n1 hext (by simp)
        rw [hc2]
        refine ⟨hn1.1, hn1.2, ?_, ?_⟩
        · intro cm hcm
          exact Option.noConfusion hcm
        · intro d hd
          rcases lastDifferingName_spec n1 d ns2 none hd with ⟨hne, hmem⟩ | hb
          · have hx := hext_names q.1 (n1 :: ns2) d hext
              (List.mem_cons_of_mem _ hmem)
            exact ⟨hx.1, hx.2, hne⟩
          · exact Option.noConfusion hb

/-!
## The rendered content never contains a closing brace
-/

theorem renderMarker_no_rbrace (sp : List Char) (m : RangeMarker)
    (hsp : '}' ∉ sp) (hm : '}' ∉ m.description) : '}' ∉ renderMarker sp m := by
  intro hmem
  rcases mem_renderMarker sp m '}' hmem with h | h | h | h | h
  · exact hsp h
  · exact hm h
  · exact digit_ne_rbrace '}' (natToChars_all_digit m.start '}' h) rfl
  · exact digit_ne_rbrace '}' (natToChars_all_digit m.stop '}' h) rfl
  · rcases h with h | h | h | h | h | h <;> exact absurd h (by decide)

theorem markers_flatten_no_rbrace (sp : List Char) (ms : List RangeMarker)
    (hsp : '}' ∉ sp) (hms : ∀ m ∈ ms, '}' ∉ m.description) :
    '}' ∉ (ms.map (renderMarker sp)).flatten := by
  intro hmem
  rw [List.mem_flatten] at hmem
  obtain ⟨l, hl, hc⟩ := hmem
  rw [List.mem_map] at hl
  obtain ⟨m, hm, rfl⟩ := hl
  exact renderMarker_no_rbrace sp m hsp (hms m hm) hc

theorem renderEntry_no_rbrace (b : Bool) (id : Nat) (row : EnumRow)
    (hrow : MergedRowHygiene row) :
    '}' ∉ renderEntry (' ' :: [' ']) b id row := by
  obtain ⟨h1, h2, h3, h4⟩ := hrow
  intro hmem
  rw [renderEntry] at hmem
  have hname : '}' ∉ row.enum_name := fun hc => word_ne_rbrace '}' (h2 '}' hc) rfl
  have hid : '}' ∉ natToChars id := fun hc =>
    digit_ne_rbrace '}' (natToChars_all_digit id '}' hc) rfl
  have htail : ∀ bb : Bool, '}' ∉ (if bb then ['\n'] else ([',', '\n'] : List Char)) := by
    intro bb
    cases bb <;> decide
  have hdepl : '}' ∉
      " /* depreciated but identifier kept for backwards compatibility */".toList := by
    decide
  cases hcc : row.comment with
  | none =>
    rw [hcc] at hmem
    cases hdd : row.depreciated_enum_name with
    | none =>
      rw [hdd] at hmem
      simp [hname, hid, htail b] at hmem
    | some dv =>
      rw [hdd] at hmem
      have hdv : '}' ∉ dv := fun hc =>
        word_ne_rbrace '}' ((h4 dv hdd).2.1 '}' hc) rfl
      simp [hname, hid, htail b, hdv, hdepl] at hmem
  | some cm =>
    rw [hcc] at hmem
    have hcm : '}' ∉ cm := (h3 cm hcc).2.1
    cases hdd : row.depreciated_enum_name with
    | none =>
      rw [hdd] at hmem
      simp [hname, hid, htail b, hcm] at hmem
    | some dv =>
      rw [hdd] at hmem
      have hdv : '}' ∉ dv := fun hc =>
        word_ne_rbrace '}' ((h4 dv hdd).2.1 '}' hc) rfl
      simp [hname, hid, htail b, hcm, hdv, hdepl] at hmem

theorem renderEntriesAux_no_rbrace (lk : Option Nat) :
    ∀ (t : EnumTable) (pending : List RangeMarker),
      (∀ m ∈ pending, '}' ∉ m.description) →
      (∀ q ∈ t, MergedRowHygiene q.2) →
      '}' ∉ (renderEntriesAux (' ' :: [' ']) lk t pending).1 ∧
        ∀ m ∈ (renderEntriesAux (' ' :: [' ']) lk t pending).2,
          '}' ∉ m.description := by
  intro t
  induction t with
  | nil =>
    intro pending hpend _
    refine ⟨?_, hpend⟩
    show '}' ∉ ([] : List Char)
    simp
  | cons q t ih =>
    obtain ⟨id, row⟩ := q
    intro pending hpend hrows
    have hrow := hrows (id, row) (by simp)
    have hrows' : ∀ q ∈ t, MergedRowHygiene q.2 :=
      fun q hq => hrows q (List.mem_cons_of_mem _ hq)
    have hpend' : ∀ m ∈ pending.dropWhile (fun m => m.start ≤ id),
        '}' ∉ m.description :=
      fun m hm => hpend m ((List.dropWhile_sublist _).mem hm)
    have hnext := ih (pending.dropWhile (fun m => m.start ≤ id)) hpend' hrows'
    constructor
    · show '}' ∉
        ((pending.takeWhile (fun m => m.start ≤ id)).map
            (renderMarker (' ' :: [' ']))).flatten ++
          renderEntry (' ' :: [' ']) (some id = lk) id row ++
          (renderEntriesAux (' ' :: [' ']) lk t
            (pending.dropWhile (fun m => m.start ≤ id))).1
      intro hmem
      rcases List.mem_append.1 hmem with hmem | hmem
      · rcases List.mem_append.1 hmem with hmem | hmem
        · exact markers_flatten_no_rbrace _ _ (by decide)
            (fun m hm => hpend m ((List.takeWhile_sublist _).mem hm)) hmem
        · exact renderEntry_no_rbrace _ id row hrow hmem
      · exact hnext.1 hmem
    · exact hnext.2

/-- The generated enumeration content contains no closing brace, so the
substituted block interior is brace-free (the block stays well formed). -/
theorem generate_no_rbrace (head : List Char) (t : EnumTable)
    (markers : Option (List RangeMarker)) (hh : '}' ∉ head)
    (hm : ∀ ms, markers = some ms → ∀ m ∈ ms, '}' ∉ m.description)
    (ht : ∀ q ∈ t, MergedRowHygiene q.2) :
    '}' ∉ generate_c_enum_content head t markers := by
  cases markers with
  | none =>
    show '}' ∉ head ++ (renderEntriesAux (' ' :: [' ']) (tableLastKey t) t []).1
    intro hmem
    rcases List.mem_append.1 hmem with hmem | hmem
    · exact hh hmem
    · exact (renderEntriesAux_no_rbrace (tableLastKey t) t [] (by simp) ht).1 hmem
  | some ms =>
    show '}' ∉ head ++ (renderEntriesAux (' ' :: [' ']) (tableLastKey t) t ms).1 ++
      (((renderEntriesAux (' ' :: [' ']) (tableLastKey t) t ms).2).map
        (renderMarker (' ' :: [' ']))).flatten
    intro hmem
    have haux := renderEntriesAux_no_rbrace (tableLastKey t) t ms (hm ms rfl) ht
    rcases List.mem_append.1 hmem with hmem | hmem
    · rcases List.mem_append.1 hmem with hmem | hmem
      · exact hh hmem
      · exact haux.1 hmem
    · exact markers_flatten_no_rbrace _ _ (by decide) haux.2 hmem

/-!
## The rendered content never contains a backslash
-/

theorem renderMarker_no_backslash (sp : List Char) (m : RangeMarker)
    (hsp : '\\' ∉ sp) (hm : '\\' ∉ m.description) : '\\' ∉ renderMarker sp m := by
  intro hmem
  rcases mem_renderMarker sp m '\\' hmem with h | h | h | h | h
  · exact hsp h
  · exact hm h
  · exact digit_ne_backslash '\\' (natToChars_all_digit m.start '\\' h) rfl
  · exact digit_ne_backslash '\\' (natToChars_all_digit m.stop '\\' h) rfl
  · rcases h with h | h | h | h | h | h <;> exact absurd h (by decide)

theorem markers_flatten_no_backslash (sp : List Char) (ms : List RangeMarker)
    (hsp : '\\' ∉ sp) (hms : ∀ m ∈ ms, '\\' ∉ m.description) :
    '\\' ∉ (ms.map (renderMarker sp)).flatten := by
  intro hmem
  rw [List.mem_flatten] at hmem
  obtain ⟨l, hl, hc⟩ := hmem
  rw [List.mem_map] at hl
  obtain ⟨m, hm, rfl⟩ := hl
  exact renderMarker_no_backslash sp m hsp (hms m hm) hc

theorem renderEntry_no_backslash (b : Bool) (id : Nat) (row : EnumRow)
    (hrow : MergedRowHygiene row) :
    '\\' ∉ renderEntry (' ' :: [' ']) b id row := by
  obtain ⟨h1, h2, h3, h4⟩ := hrow
  intro hmem
  rw [renderEntry] at hmem
  have hname : '\\' ∉ row.enum_name := fun hc =>
    word_ne_backslash '\\' (h2 '\\' hc) rfl
  have hid : '\\' ∉ natToChars id := fun hc =>
    digit_ne_backslash '\\' (natToChars_all_digit id '\\' hc) rfl
  have htail : ∀ bb : Bool,
      '\\' ∉ (if bb then ['\n'] else ([',', '\n'] : List Char)) := by
    intro bb
    cases bb <;> decide
  have hdepl : '\\' ∉
      " /* depreciated but identifier kept for backwards compatibility */".toList := by
    decide
  cases hcc : row.comment with
  | none =>
    rw [hcc] at hmem
    cases hdd : row.depreciated_enum_name with
    | none =>
      rw [hdd] at hmem
      simp [hname, hid, htail b] at hmem
    | some dv =>
      rw [hdd] at hmem
      have hdv : '\\' ∉ dv := fun hc =>
        word_ne_backslash '\\' ((h4 dv hdd).2.1 '\\' hc) rfl
      simp [hname, hid, htail b, hdv, hdepl] at hmem
  | some cm =>
    rw [hcc] at hmem
    have hcm : '\\' ∉ cm := (h3 cm hcc).2.2
    cases hdd : row.depreciated_enum_name with
    | none =>
      rw [hdd] at hmem
      simp [hname, hid, htail b, hcm] at hmem
    | some dv =>
      rw [hdd] at hmem
      have hdv : '\\' ∉ dv := fun hc =>
        word_ne_backslash '\\' ((h4 dv hdd).2.1 '\\' hc) rfl
      simp [hname, hid, htail b, hcm, hdv, hdepl] at hmem

theorem renderEntriesAux_no_backslash (lk : Option Nat) :
    ∀ (t : EnumTable) (pending : List RangeMarker),
      (∀ m ∈ pending, '\\' ∉ m.description) →
      (∀ q ∈ t, MergedRowHygiene q.2) →
      '\\' ∉ (renderEntriesAux (' ' :: [' ']) lk t pending).1 ∧
        ∀ m ∈ (renderEntriesAux (' ' :: [' ']) lk t pending).2,
          '\\' ∉ m.description := by
  intro t
  induction t with
  | nil =>
    intro pending hpend _
    refine ⟨?_, hpend⟩
    show '\\' ∉ ([] : List Char)
    simp
  | cons q t ih =>
    obtain ⟨id, row⟩ := q
    intro pending hpend hrows
    have hrow := hrows (id, row) (by simp)
    have hrows' : ∀ q ∈ t, MergedRowHygiene q.2 :=
      fun q hq => hrows q (List.mem_cons_of_mem _ hq)
    have hpend' : ∀ m ∈ pending.dropWhile (fun m => m.start ≤ id),
        '\\' ∉ m.description :=
      fun m hm => hpend m ((List.dropWhile_sublist _).mem hm)
    have hnext := ih (pending.dropWhile (fun m => m.start ≤ id)) hpend' hrows'
    constructor
    · show '\\' ∉
        ((pending.takeWhile (fun m => m.start ≤ id)).map
            (renderMarker (' ' :: [' ']))).flatten ++
          renderEntry (' ' :: [' ']) (some id = lk) id row ++
          (renderEntriesAux (' ' :: [' ']) lk t
            (pending.dropWhile (fun m => m.start ≤ id))).1
      intro hmem
      rcases List.mem_append.1 hmem with hmem | hmem
      · rcases List.mem_append.1 hmem with hmem | hmem
        · exact markers_flatten_no_backslash _ _ (by decide)
            (fun m hm => hpend m ((List.takeWhile_sublist _).mem hm)) hmem
        · exact renderEntry_no_backslash _ id row hrow hmem
      · exact hnext.1 hmem
    · exact hnext.2

/-- The generated enumeration content contains no backslash, so the
rendered replacement text is inert under Python's replacement-template
processing. -/
theorem generate_no_backslash (head : List Char) (t : EnumTable)
    (markers : Option (List RangeMarker)) (hh : '\\' ∉ head)
    (hm : ∀ ms, markers = some ms → ∀ m ∈ ms, '\\' ∉ m.description)
    (ht : ∀ q ∈ t, MergedRowHygiene q.2) :
    '\\' ∉ generate_c_enum_content head t markers := by
  cases markers with
  | none =>
    show '\\' ∉ head ++ (renderEntriesAux (' ' :: [' ']) (tableLastKey t) t []).1
    intro hmem
    rcases List.mem_append.1 hmem with hmem | hmem
    · exact hh hmem
    · exact (renderEntriesAux_no_backslash (tableLastKey t) t [] (by simp) ht).1
        hmem
  | some ms =>
    show '\\' ∉ head ++
      (renderEntriesAux (' ' :: [' ']) (tableLastKey t) t ms).1 ++
      (((renderEntriesAux (' ' :: [' ']) (tableLastKey t) t ms).2).map
        (renderMarker (' ' :: [' ']))).flatten
    intro hmem
    have haux := renderEntriesAux_no_backslash (tableLastKey t) t ms (hm ms rfl) ht
    rcases List.mem_append.1 hmem with hmem | hmem
    · rcases List.mem_append.1 hmem with hmem | hmem
      · exact hh hmem
      · exact haux.1 hmem
    · exact markers_flatten_no_backslash _ _ (by decide) haux.2 hmem

/-- Splitting a backslash occurrence in a rendered block: it lies in the
header text, the interior or the typedef name (the fixed punctuation of
the block contains none). -/
theorem mem_blockOf_backslash (name hdr inner : List Char)
    (h : '\\' ∈ blockOf name hdr inner) :
    '\\' ∈ hdr ∨ '\\' ∈ inner ∨ '\\' ∈ name := by
  have hlit : '\\' ∉ typedefLit := by decide
  have hlb : '\\' ≠ '{' := by decide
  have hrb : '\\' ≠ '}' := by decide
  have hsp : '\\' ≠ ' ' := by decide
  have hsc : '\\' ≠ ';' := by decide
  simp only [blockOf, List.mem_append, List.mem_cons, List.mem_singleton,
    List.not_mem_nil, or_false] at h
  tauto

theorem noMatchInTail_two_newlines (name : List Char) :
    NoMatchInTail name ['\n', '\n'] := by
  intro i hi
  apply parseTypedefEnum_none_of_not_lit
  intro hpre
  have := hpre.length_le
  have hlit : typedefLit.length = 13 := by decide
  have : ((['\n', '\n'] : List Char).drop i).length ≤ 2 := by
    simp [List.length_drop]
  omega

/-!
## C3: idempotence of the block synchronization
-/

instance {α : Type} (t : List (Nat × α)) : Decidable (keysSorted t) :=
  inferInstanceAs (Decidable (t.Chain' (fun a b : Nat × α => a.1 < b.1)))

instance (ms : List RangeMarker) : Decidable (MarkerHygiene ms) :=
  inferInstanceAs
    (Decidable (∀ m ∈ ms,
      '=' ∉ m.description ∧ '}' ∉ m.description ∧ '\\' ∉ m.description))

/-- C3, counterexample: the synchronization is not idempotent for every
row set.  A comment whose text looks like an entry (`S = 9`) is rendered
into the block on the first run; the second run scans the comment text as
a real entry and merges a new id 9 into the table, so the second output
differs from the first. -/
theorem update_not_idempotent_on_entry_like_comment :
    (update_c_typedef_enum [] "t".toList none []
        [(3, ⟨"N".toList, some "S = 9".toList, none⟩)] none).bind
      (fun out => update_c_typedef_enum out "t".toList none []
        [(3, ⟨"N".toList, some "S = 9".toList, none⟩)] none) ≠
      update_c_typedef_enum [] "t".toList none []
        [(3, ⟨"N".toList, some "S = 9".toList, none⟩)] none := by
  decide

/-- C3, amended: the synchronization is idempotent on hygienic inputs:
a document that is either free of block-pattern matches or made of inert
text, one well-formed block with a nonempty interior and an inert tail;
a typedef name of word characters (it is interpolated into the regex); a
fresh table with sorted keys, nonempty word-character names, no preset
depreciated aliases and comments free of `=`, `}` and backslashes; a
head comment and marker descriptions free of `=`, `}` and backslashes
(a backslash in the rendered text would undergo replacement-template
processing: a comment such as `\g<1>` re-expands the old interior and
`\q` raises `re.error`); and a block name free of `{` and backslashes.
Under these conditions the first run succeeds, the second run extracts
exactly the pairs the first run rendered, re-merging reproduces the
merged table, and the second output is byte-identical to the first. -/
theorem update_c_typedef_enum_idempotent
    (doc name : List Char) (enumname : Option (List Char)) (head : List Char)
    (fresh : EnumTable) (markers : Option (List RangeMarker))
    (hdoc : GoodDocFor name doc)
    (hname : ∀ c ∈ name, isWordChar c = true)
    (hfresh : TableHygiene fresh)
    (hhead : HeadHygiene head)
    (hmk : ∀ ms, markers = some ms → MarkerHygiene ms)
    (henum : ∀ e, enumname = some e → '{' ∉ e ∧ '\\' ∉ e) :
    (update_c_typedef_enum doc name enumname head fresh markers).bind
        (fun out =>
          update_c_typedef_enum out name enumname head fresh markers) =
      update_c_typedef_enum doc name enumname head fresh markers := by
  obtain ⟨hsorted, hrows⟩ := hfresh
  have hfr : ∀ q ∈ fresh, q.2.depreciated_enum_name = none :=
    fun q hq => (hrows q hq).2.2.1
  have hhdr : '{' ∉ hdrOf enumname := by
    cases hx : enumname with
    | none =>
      show '{' ∉ ([] : List Char)
      simp
    | some e =>
      show '{' ∉ e ++ [' ']
      intro hmem
      rcases List.mem_append.1 hmem with h | h
      · exact (henum e hx).1 h
      · exact absurd h (by decide)
  have hhdrnb : '\\' ∉ hdrOf enumname := by
    cases hx : enumname with
    | none =>
      show '\\' ∉ ([] : List Char)
      simp
    | some e =>
      show '\\' ∉ e ++ [' ']
      intro hmem
      rcases List.mem_append.1 hmem with h | h
      · exact (henum e hx).2 h
      · exact absurd h (by decide)
  have hblock : ∀ c : List Char, mkBlockReplacement enumname name c =
      blockOf name (hdrOf enumname) c := by
    intro c
    cases enumname <;> rfl
  have claimMerged : ∀ inner : List Char,
      ∀ q ∈ overrideMerge true fresh (extractEnumValues inner),
        MergedRowHygiene q.2 :=
    fun inner => overrideMerge_rows_hygiene fresh (extractEnumValues inner)
      hsorted hrows (keysSorted_nodup _ (extractEnumValues_keysSorted inner))
      (fun k ns x hl hx => extractEnumValues_names inner k ns x hl hx)
  have hpreh : '=' ∉ ('\n' :: head) := by
    intro hm
    rcases List.mem_cons.1 hm with h | h
    · exact absurd h (by decide)
    · exact hhead.1 h
  have claimA : ∀ inner : List Char,
      extractEnumValues ('\n' :: generate_c_enum_content head
        (overrideMerge true fresh (extractEnumValues inner)) markers) =
      extMapOf (overrideMerge true fresh (extractEnumValues inner)) := by
    intro inner
    have hms : keysSorted (overrideMerge true fresh (extractEnumValues inner)) :=
      overrideMerge_keysSorted true _ fresh hsorted
    have hscan : scanNameValues ('\n' :: generate_c_enum_content head
        (overrideMerge true fresh (extractEnumValues inner)) markers) =
        tablePairs (overrideMerge true fresh (extractEnumValues inner)) := by
      cases markers with
      | none =>
        have hloop := scan_render_loop
          (tableLastKey (overrideMerge true fresh (extractEnumValues inner)))
          (overrideMerge true fresh (extractEnumValues inner)) [] ('\n' :: head)
          hpreh (by simp) (claimMerged inner)
        rw [renderEntriesAux_pending_nil] at hloop
        simpa [generate_c_enum_content] using hloop
      | some ms =>
        have hloop := scan_render_loop
          (tableLastKey (overrideMerge true fresh (extractEnumValues inner)))
          (overrideMerge true fresh (extractEnumValues inner)) ms ('\n' :: head)
          hpreh (fun m hm => (hmk ms rfl m hm).1) (claimMerged inner)
        simpa [generate_c_enum_content] using hloop
    rw [extractEnumValues, hscan]
    have hfold := foldl_extInsert_tablePairs
      (overrideMerge true fresh (extractEnumValues inner)) [] hms (by simp)
    simpa using hfold
  have claimB : ∀ inner : List Char,
      overrideMerge true fresh
        (extMapOf (overrideMerge true fresh (extractEnumValues inner))) =
      overrideMerge true fresh (extractEnumValues inner) :=
    fun inner => overrideMerge_remerge fresh (extractEnumValues inner) hsorted
      hfr (keysSorted_nodup _ (extractEnumValues_keysSorted inner))
  have claimC : ∀ inner : List Char,
      '}' ∉ ('\n' :: generate_c_enum_content head
        (overrideMerge true fresh (extractEnumValues inner)) markers) := by
    intro inner hm
    rcases List.mem_cons.1 hm with h | h
    · exact absurd h (by decide)
    · exact generate_no_rbrace head _ markers hhead.2.1
        (fun ms hms m hmm => (hmk ms hms m hmm).2.1) (claimMerged inner) h
  have hnbrepl : ∀ inner : List Char,
      '\\' ∉ mkBlockReplacement enumname name
        ('\n' :: generate_c_enum_content head
          (overrideMerge true fresh (extractEnumValues inner)) markers) := by
    intro inner hm
    rw [hblock] at hm
    rcases mem_blockOf_backslash name (hdrOf enumname)
        ('\n' :: generate_c_enum_content head
          (overrideMerge true fresh (extractEnumValues inner)) markers) hm with
      h | h | h
    · exact hhdrnb h
    · rcases List.mem_cons.1 h with h2 | h2
      · exact absurd h2 (by decide)
      · exact generate_no_backslash head _ markers hhead.2.2
          (fun ms hms m hmm => (hmk ms hms m hmm).2.2) (claimMerged inner) h2
    · exact word_ne_backslash '\\' (hname '\\' h) rfl
  rcases hdoc with hnl | ⟨p, hdr, body, s, hdoceq, hp, hh, hb, hbne, hs⟩
  · rw [update_absent doc name enumname head fresh markers hnl (hnbrepl ['\n'])]
    show update_c_typedef_enum
        (doc ++ (mkBlockReplacement enumname name
          ('\n' :: generate_c_enum_content head
            (overrideMerge true fresh (extractEnumValues ['\n'])) markers) ++
          ['\n', '\n'])) name enumname head fresh markers =
      some (doc ++ (mkBlockReplacement enumname name
        ('\n' :: generate_c_enum_content head
          (overrideMerge true fresh (extractEnumValues ['\n'])) markers) ++
        ['\n', '\n']))
    rw [hblock]
    rw [update_present doc (hdrOf enumname)
      ('\n' :: generate_c_enum_content head
        (overrideMerge true fresh (extractEnumValues ['\n'])) markers)
      ['\n', '\n'] name enumname head fresh markers hnl hhdr
      (claimC ['\n']) (noMatchInTail_two_newlines name) (by simp)
      (hnbrepl ('\n' :: generate_c_enum_content head
        (overrideMerge true fresh (extractEnumValues ['\n'])) markers))]
    rw [claimA ['\n'], claimB ['\n'], hblock]
  · subst hdoceq
    rw [List.append_assoc p (blockOf name hdr body) s]
    rw [update_present p hdr body s name enumname head fresh markers hp hh hb hs
      hbne (hnbrepl body)]
    show update_c_typedef_enum
        (p ++ (mkBlockReplacement enumname name
          ('\n' :: generate_c_enum_content head
            (overrideMerge true fresh (extractEnumValues body)) markers) ++ s))
        name enumname head fresh markers =
      some (p ++ (mkBlockReplacement enumname name
        ('\n' :: generate_c_enum_content head
          (overrideMerge true fresh (extractEnumValues body)) markers) ++ s))
    rw [hblock]
    rw [update_present p (hdrOf enumname)
      ('\n' :: generate_c_enum_content head
        (overrideMerge true fresh (extractEnumValues body)) markers)
      s name enumname head fresh markers hp hhdr (claimC body) hs (by simp)
      (hnbrepl ('\n' :: generate_c_enum_content head
        (overrideMerge true fresh (extractEnumValues body)) markers))]
    rw [claimA body, claimB body, hblock]

/-- Witness for C3 amended on a concrete hygienic document and table. -/
theorem update_c_typedef_enum_idempotent_witness :
    (update_c_typedef_enum "x\n".toList "foo_t".toList
        (some "foo_t".toList) "  /* head */\n".toList
        [(1, ⟨"A".toList, none, none⟩), (2, ⟨"B".toList, none, none⟩)]
        (some [⟨0, 10, "r".toList⟩])).bind
      (fun out => update_c_typedef_enum out "foo_t".toList
        (some "foo_t".toList) "  /* head */\n".toList
        [(1, ⟨"A".toList, none, none⟩), (2, ⟨"B".toList, none, none⟩)]
        (some [⟨0, 10, "r".toList⟩])) =
      update_c_typedef_enum "x\n".toList "foo_t".toList
        (some "foo_t".toList) "  /* head */\n".toList
        [(1, ⟨"A".toList, none, none⟩), (2, ⟨"B".toList, none, none⟩)]
        (some [⟨0, 10, "r".toList⟩]) :=
  update_c_typedef_enum_idempotent "x\n".toList "foo_t".toList
    (some "foo_t".toList) "  /* head */\n".toList
    [(1, ⟨"A".toList, none, none⟩), (2, ⟨"B".toList, none, none⟩)]
    (some [⟨0, 10, "r".toList⟩])
    (Or.inl (by decide))
    (by decide)
    ⟨by simp [keysSorted, List.chain'_cons, List.chain'_singleton],
      fun p hp => by
      rcases List.mem_cons.1 hp with rfl | hp
      · exact ⟨by decide, by decide, rfl, fun cm hcm => Option.noConfusion hcm⟩
      · rcases List.mem_cons.1 hp with rfl | hp
        · exact ⟨by decide, by decide, rfl, fun cm hcm => Option.noConfusion hcm⟩
        · simp at hp⟩
    ⟨by decide, by decide, by decide⟩
    (fun ms h => by
      injection h with h2
      subst h2
      decide)
    (fun e h => by
      injection h with h2
      subst h2
      exact ⟨by decide, by decide⟩)

end IanaHeaders
